import Mathlib

/-!
Verification of the WFC (Wave Function Collapse) visualizer core.

Shallow embedding of the algorithmic core of the repository:
* `Random`           — src/core/types.ts, mulberry32 PRNG,
* `Wave`             — src/core/wave.ts, possibility masks + memoized entropy,
* `Propagator`       — src/core/propagator.ts (bundled in wave.ts), arc consistency,
* `ModelCore.step`   — the observe/propagate step shared verbatim by
                       src/core/overlapping-model.ts and src/core/simple-tiled-model.ts,
* `OverlappingModel` — pattern extraction, propagator build, ground constraint,
* `SimpleTiledModel` — tile model construction.

Modelling conventions:
* JS `number` arithmetic is modelled exactly: integers and divisions as `ℚ`/`ℕ`/`ℤ`
  (IEEE-754 rounding beyond 2^53 is out of scope and noted where it matters);
  `Math.log` is an opaque parameter `lg : ℚ → ℚ` carried by the structures, so the
  exact update structure of the source is preserved while the transcendental is abstract.
* Typed arrays (`Uint8Array`, `Float64Array`, `Int32Array`, `Uint32Array`) are total
  functions plus an explicit length; writes out of range are ignored (as in JS),
  reads are through the same flat indices the source computes, so the flat-index
  aliasing of `wave.data[cell * patternCount + pattern]` is reproduced exactly.
* `Uint32Array` decrement wraps at 0 (`dec32`).
-/

/- The arithmetic of `ℚ` is `@[irreducible]` in core; re-opening it lets `decide`
evaluate the concrete model runs below inside the kernel. -/
unseal Rat.add Rat.sub Rat.mul Rat.inv Nat.gcd

namespace WFC

/-! ### Random — mulberry32 PRNG (src/core/types.ts, class Random) -/

/-- 2^32, the modulus of all JS 32-bit coercions. -/
def M32 : ℕ := 2 ^ 32

/-- The 32-bit mixing of mulberry32 `next()` after the state increment.  Every bitwise
operator in the source (`^`, `>>>`, `|`, `Math.imul`, and the `+` feeding `^=`)
coerces its result to 32 bits, so the whole mix is a function of the low 32 bits of
the state; it takes and returns naturals below `2^32`. -/
def mulberryMix (t : ℕ) : ℕ :=
  let t2 := ((t ^^^ (t >>> 15)) * (t ||| 1)) % M32
  let t3 := (t2 + ((t2 ^^^ (t2 >>> 7)) * (t2 ||| 61)) % M32) % M32
  let t4 := t2 ^^^ t3
  t4 ^^^ (t4 >>> 14)

/-- PRNG state.  The source stores a JS number; `this.state += 0x6d2b79f5` performs a
plain (un-wrapped) addition, which is exact integer arithmetic while the state stays
below 2^53, so the state is a natural number here. -/
structure Random where
  state : ℕ
deriving DecidableEq

/-- `new Random(seed)`: `this.state = seed >>> 0`. -/
def Random.create (seed : ℕ) : Random := ⟨seed % M32⟩

/-- `next()`: un-wrapped state increment, 32-bit mix of the low 32 bits, division by
2^32.  The returned rational is the exact value of the JS float (every `k / 2^32`
with `k < 2^32` is exactly representable). -/
def Random.next (r : Random) : ℚ × Random :=
  let s := r.state + 0x6d2b79f5
  (((mulberryMix (s % M32) : ℕ) : ℚ) / (M32 : ℚ), ⟨s⟩)

/-- `nextInt(max) = Math.floor(this.next() * max)`. -/
def Random.nextInt (r : Random) (max : ℚ) : ℤ × Random :=
  let (u, r2) := r.next
  (⌊u * max⌋, r2)

/-- Output at position `n` of the stream started at `r` (position 0 = first `next()`). -/
def Random.nthOutput (r : Random) : ℕ → ℚ
  | 0 => r.next.1
  | n + 1 => (r.next.2).nthOutput n

/-- The spec's mulberry32 state step, written from the spec's words for comparison
with `Random`: "State is a 32-bit unsigned integer", "s ← (s + 0x6d2b79f5) mod 2^32". -/
def refStep (s : ℕ) : ℕ := (s + 0x6d2b79f5) % M32

/-- The wrapped 32-bit state after `n` steps of the spec's reference. -/
def refState (s : ℕ) : ℕ → ℕ
  | 0 => s
  | n + 1 => refStep (refState s n)

/-- Output stream of the spec's wrapped-state mulberry32 reference: each `next()`
first steps the state (with wrap) and then emits the 32-bit mix of the new state
divided by 2^32, so the `n`-th output mixes the state after `n + 1` steps. -/
def mulberryRefNth (s n : ℕ) : ℚ :=
  ((mulberryMix (refState s (n + 1)) : ℕ) : ℚ) / (M32 : ℚ)

/-! ### Typed-array helpers -/

/-- Write `v` at index `i` of a typed array of length `len` modelled as a total
function: JS ignores writes out of range. -/
def updF {α : Type} (len : ℕ) (f : ℕ → α) (i : ℕ) (v : α) : ℕ → α :=
  fun j => if j = i ∧ i < len then v else f j

/-- `Uint32Array` decrement: wraps at 0. -/
def dec32 (c : ℕ) : ℕ := if c = 0 then M32 - 1 else c - 1

/-! ### Wave (src/core/wave.ts) -/

/-- Entropy memoization (interface EntropyMemo of src/core/types.ts); each field is an
array of length `Wave.size`. -/
structure EntropyMemo where
  plogpSum : ℕ → ℚ
  sum : ℕ → ℚ
  logSum : ℕ → ℚ
  patternCount : ℕ → ℕ
  entropy : ℕ → ℚ

/-- The Wave (class Wave of src/core/wave.ts).  `data` is the flattened
`Uint8Array` of length `size * patternCount` (`true` = byte 1).
`minAbsHalfPlogp` is `Option ℚ` because the source initializes the running minimum
to `Infinity`, which survives when every `plogp` is zero; `none` models `Infinity`.
`lg` models `Math.log`. -/
structure Wave where
  width : ℕ
  height : ℕ
  size : ℕ
  patternCount : ℕ
  weights : ℕ → ℚ
  plogp : ℕ → ℚ
  minAbsHalfPlogp : Option ℚ
  startingEntropy : ℚ
  lg : ℚ → ℚ
  data : ℕ → Bool
  memo : EntropyMemo

/-- One step of the running minimum of `|plogp|` in the constructor loop:
`if (Math.abs(plogpVal) > 0 && Math.abs(plogpVal) < minPlogp) minPlogp = ...`,
with `none` standing for the initial `Infinity`. -/
def minAbsStep (m : Option ℚ) (v : ℚ) : Option ℚ :=
  match m with
  | none => if 0 < |v| then some |v| else none
  | some m0 => if 0 < |v| ∧ |v| < m0 then some |v| else some m0

/-- The constructor loop computing `minPlogp` over all patterns. -/
def minAbsFold (vals : List ℚ) : Option ℚ := vals.foldl minAbsStep none

/-- `new Wave(width, height, weights)`.  `weights.reduce((a,b) => a+b, 0)` over the
length-`T` array is the sum over `t < T`.  In JS, when all weights are zero
`p = 0/0 = NaN` and `p > 0` is false so `plogp = 0`; in `ℚ`, `0/0 = 0` gives the
same branch. -/
def Wave.create (width height : ℕ) (ws : List ℚ) (lg : ℚ → ℚ) : Wave :=
  let T := ws.length
  let weights : ℕ → ℚ := fun t => ws.getD t 0
  let sumOfWeights : ℚ := ∑ t ∈ Finset.range T, weights t
  let plogp : ℕ → ℚ := fun t =>
    let p := weights t / sumOfWeights
    if 0 < p then p * lg p else 0
  let sumOfPlogp : ℚ := ∑ t ∈ Finset.range T, plogp t
  { width := width
    height := height
    size := width * height
    patternCount := T
    weights := weights
    plogp := plogp
    minAbsHalfPlogp := (minAbsFold ((List.range T).map plogp)).map (· / 2)
    startingEntropy := lg sumOfWeights - sumOfPlogp
    lg := lg
    data := fun _ => true
    memo :=
      { plogpSum := fun _ => sumOfPlogp
        sum := fun _ => sumOfWeights
        logSum := fun _ => lg sumOfWeights
        patternCount := fun _ => T
        entropy := fun _ => lg sumOfWeights - sumOfPlogp } }

/-- `get(cellIndex, pattern)`: `this.data[cellIndex * this.patternCount + pattern] === 1`;
an out-of-range read yields `undefined`, which is not `1`. -/
def Wave.get (w : Wave) (cellIndex pattern : ℕ) : Bool :=
  decide (cellIndex * w.patternCount + pattern < w.size * w.patternCount) &&
    w.data (cellIndex * w.patternCount + pattern)

/-- `getPossiblePatterns(cellIndex)`: patterns `p < patternCount` with the bit set,
in index order. -/
def Wave.getPossiblePatterns (w : Wave) (cellIndex : ℕ) : List ℕ :=
  (List.range w.patternCount).filter fun p => w.get cellIndex p

/-- `getRemainingCount(cellIndex)`. -/
def Wave.getRemainingCount (w : Wave) (cellIndex : ℕ) : ℕ :=
  w.memo.patternCount cellIndex

/-- `getEntropy(cellIndex)`. -/
def Wave.getEntropy (w : Wave) (cellIndex : ℕ) : ℚ :=
  w.memo.entropy cellIndex

/-- The mutation part of `remove` (after the already-removed early return): clear the
bit, update the four running memo fields, then recompute `logSum`/`entropy` for this
cell from the just-updated sums, with `entropy = 0` when `sum ≤ 0`. -/
def Wave.removeGo (w : Wave) (cellIndex pattern : ℕ) : Wave :=
  let len := w.size * w.patternCount
  let dataIndex := cellIndex * w.patternCount + pattern
  let data2 := updF len w.data dataIndex false
  let plogpSum2 := updF w.size w.memo.plogpSum cellIndex
    (w.memo.plogpSum cellIndex - w.plogp pattern)
  let sum2 := updF w.size w.memo.sum cellIndex
    (w.memo.sum cellIndex - w.weights pattern)
  let patternCount2 := updF w.size w.memo.patternCount cellIndex
    (dec32 (w.memo.patternCount cellIndex))
  if 0 < sum2 cellIndex then
    let logSum2 := updF w.size w.memo.logSum cellIndex (w.lg (sum2 cellIndex))
    let entropy2 := updF w.size w.memo.entropy cellIndex
      (logSum2 cellIndex - plogpSum2 cellIndex / sum2 cellIndex)
    { w with data := data2
             memo := { plogpSum := plogpSum2, sum := sum2, logSum := logSum2
                       patternCount := patternCount2, entropy := entropy2 } }
  else
    let entropy2 := updF w.size w.memo.entropy cellIndex 0
    { w with data := data2
             memo := { plogpSum := plogpSum2, sum := sum2, logSum := w.memo.logSum
                       patternCount := patternCount2, entropy := entropy2 } }

/-- `remove(cellIndex, pattern)`: `if (this.data[dataIndex] === 0) return false`
(an in-range zero byte), otherwise mutate and return true. -/
def Wave.remove (w : Wave) (cellIndex pattern : ℕ) : Bool × Wave :=
  let dataIndex := cellIndex * w.patternCount + pattern
  if dataIndex < w.size * w.patternCount ∧ w.data dataIndex = false then (false, w)
  else (true, w.removeGo cellIndex pattern)

/-- First still-possible pattern in the given scan order (used by the
`remaining === 1` branch of `collapse` and, on the reversed range, by its
last-possible fallback). -/
def findFirstPossible (w : Wave) (cellIndex : ℕ) : List ℕ → Option ℕ
  | [] => none
  | p :: rest =>
    if w.get cellIndex p then some p else findFirstPossible w cellIndex rest

/-- The weighted selection scan of `collapse`: accumulate weights of still-possible
patterns in index order, select the first whose running sum reaches `target`. -/
def weightedSelect (w : Wave) (cellIndex : ℕ) (target : ℚ) :
    List ℕ → ℚ → Option ℕ
  | [], _ => none
  | p :: rest, cumulative =>
    if w.get cellIndex p then
      let c2 := cumulative + w.weights p
      if target ≤ c2 then some p else weightedSelect w cellIndex target rest c2
    else weightedSelect w cellIndex target rest cumulative

/-- The final loop of `collapse`: remove every still-possible pattern other than
`selected`. -/
def removeOthers (cellIndex : ℕ) (selected : ℤ) : List ℕ → Wave → Wave
  | [], w => w
  | p :: rest, w =>
    if (p : ℤ) ≠ selected ∧ w.get cellIndex p then
      removeOthers cellIndex selected rest (w.remove cellIndex p).2
    else removeOthers cellIndex selected rest w

/-- `collapse(cellIndex, rng)`: contradiction check, already-collapsed fast path,
weighted random selection with last-possible fallback, then removal of all other
patterns.  Returns the selected pattern index or `-1`. -/
def Wave.collapse (w : Wave) (cellIndex : ℕ) (rng : Random) : ℤ × Wave × Random :=
  let remaining := w.memo.patternCount cellIndex
  if remaining = 0 then (-1, w, rng)
  else if remaining = 1 then
    match findFirstPossible w cellIndex (List.range w.patternCount) with
    | some p => ((p : ℤ), w, rng)
    | none => (-1, w, rng)
  else
    let (u, rng2) := rng.next
    let target := u * w.memo.sum cellIndex
    let selected : ℤ :=
      match weightedSelect w cellIndex target (List.range w.patternCount) 0 with
      | some p => (p : ℤ)
      | none =>
        match findFirstPossible w cellIndex (List.range w.patternCount).reverse with
        | some p => (p : ℤ)
        | none => -1
    (selected, removeOthers cellIndex selected (List.range w.patternCount) w, rng2)

/-- `e ≤ minEntropy` with `none` = the initial `Infinity`. -/
def qleOpt (e : ℚ) : Option ℚ → Bool
  | none => true
  | some m => decide (e ≤ m)

/-- `e + noise < minEntropy` with `none` = `Infinity`. -/
def qltOpt (e : ℚ) : Option ℚ → Bool
  | none => true
  | some m => decide (e < m)

/-- The scan of `getMinEntropyCell`: skip collapsed cells, return `-2` on a
contradiction, draw noise lazily when the entropy is at most the current minimum.
When `minAbsHalfPlogp` is `Infinity` (`none`), the JS noise is `Infinity` (or `NaN`
for a zero draw) and `entropy + noise < minEntropy` is false, so the argmin is never
updated; the rng is still advanced. -/
def gmecLoop (w : Wave) : List ℕ → Option ℚ → ℤ → Random → ℤ × Random
  | [], _, argmin, rng => (argmin, rng)
  | i :: rest, minE, argmin, rng =>
    let count := w.memo.patternCount i
    if count = 1 then gmecLoop w rest minE argmin rng
    else if count = 0 then (-2, rng)
    else
      let e := w.memo.entropy i
      if qleOpt e minE then
        let (u, rng2) := rng.next
        match w.minAbsHalfPlogp with
        | none => gmecLoop w rest minE argmin rng2
        | some s =>
          if qltOpt (e + u * s) minE then gmecLoop w rest (some (e + u * s)) (i : ℤ) rng2
          else gmecLoop w rest minE argmin rng2
      else gmecLoop w rest minE argmin rng

/-- `getMinEntropyCell(rng)`: cell index, `-1` if all collapsed, `-2` on
contradiction. -/
def Wave.getMinEntropyCell (w : Wave) (rng : Random) : ℤ × Random :=
  gmecLoop w (List.range w.size) none (-1) rng

/-- `isCollapsed(cellIndex)`. -/
def Wave.isCollapsed (w : Wave) (cellIndex : ℕ) : Bool :=
  decide (w.memo.patternCount cellIndex = 1)

/-- `hasContradiction()`: some cell with zero remaining patterns. -/
def Wave.hasContradiction (w : Wave) : Bool :=
  decide (∃ i ∈ Finset.range w.size, w.memo.patternCount i = 0)

/-- `clear()`: refill all bits and reset the memo to the construction-time values
(the source recomputes `sumOfWeights`/`sumOfPlogp` from the stored arrays). -/
def Wave.clear (w : Wave) : Wave :=
  let sumOfWeights : ℚ := ∑ t ∈ Finset.range w.patternCount, w.weights t
  let sumOfPlogp : ℚ := ∑ t ∈ Finset.range w.patternCount, w.plogp t
  { w with data := fun _ => true
           memo :=
             { plogpSum := fun _ => sumOfPlogp
               sum := fun _ => sumOfWeights
               logSum := fun _ => w.lg sumOfWeights
               patternCount := fun _ => w.patternCount
               entropy := fun _ => w.startingEntropy } }

/-! ### Propagator (src/core/propagator.ts, bundled in wave.ts) -/

/-- Direction deltas (src/core/types.ts): directions are 0=Left, 1=Down, 2=Right, 3=Up. -/
def DX : List ℤ := [-1, 0, 1, 0]

/-- Y deltas per direction. -/
def DY : List ℤ := [0, 1, 0, -1]

/-- Opposite direction lookup. -/
def OPPOSITE : List ℕ := [2, 3, 0, 1]

/-- Adjacency data: `data[pattern][direction]` lists the compatible patterns. -/
structure PropagatorData where
  data : List (List (List ℕ))

/-- Array access `propagatorData.data[pattern][direction]`. -/
def PropagatorData.at (pd : PropagatorData) (pattern direction : ℕ) : List ℕ :=
  (pd.data.getD pattern []).getD direction []

/-- The neighbor of cell `i` in direction `d`, following the bounds/wrap logic used in
both `initCompatible` and `propagate`: with `periodic`, coordinates wrap by
`(c + extent) % extent`; otherwise out-of-range neighbors do not exist. -/
def neighborIndex (width height : ℕ) (periodic : Bool) (i d : ℕ) : Option ℕ :=
  let x1 : ℤ := (i % width : ℕ)
  let y1 : ℤ := (i / width : ℕ)
  let x2 := x1 + DX.getD d 0
  let y2 := y1 + DY.getD d 0
  if periodic then
    some (((x2 + width) % width) + ((y2 + height) % height) * width).toNat
  else if 0 ≤ x2 ∧ x2 < width ∧ 0 ≤ y2 ∧ y2 < height then
    some (x2 + y2 * width).toNat
  else none

/-- Closed form of `initCompatible`: the source triple loop fills the flat
`Int32Array` at `i * patternCount * 4 + pattern * 4 + direction` with the length of
`propagatorData.data[pattern][direction]` when the neighbor in `direction` exists,
leaving the zero initialization elsewhere. -/
def initCompatible (width height patternCount : ℕ) (periodic : Bool)
    (pd : PropagatorData) : ℕ → ℤ :=
  fun idx =>
    if idx < width * height * patternCount * 4 then
      let i := idx / (patternCount * 4)
      let t := (idx / 4) % patternCount
      let d := idx % 4
      if (neighborIndex width height periodic i d).isSome then
        ((pd.at t d).length : ℤ)
      else 0
    else 0

/-- The Propagator (class Propagator).  `compatible` is the flat `Int32Array` of
length `width * height * patternCount * 4`; `stack` is the LIFO work stack with the
most recently pushed pair first.  The visualization-only `affectedCells` set and the
single-item `propagateStep` are not part of the algorithmic surface and are not
embedded. -/
structure Propagator where
  width : ℕ
  height : ℕ
  patternCount : ℕ
  periodic : Bool
  propagatorData : PropagatorData
  compatible : ℕ → ℤ
  stack : List (ℕ × ℕ)

/-- `new Propagator(...)`: allocate counts and initialize them. -/
def Propagator.create (width height patternCount : ℕ) (periodic : Bool)
    (pd : PropagatorData) : Propagator :=
  { width := width, height := height, patternCount := patternCount
    periodic := periodic, propagatorData := pd
    compatible := initCompatible width height patternCount periodic pd
    stack := [] }

/-- `reset()`: rebuild the counts, clear the stack. -/
def Propagator.reset (p : Propagator) : Propagator :=
  { p with compatible := initCompatible p.width p.height p.patternCount p.periodic p.propagatorData
           stack := [] }

/-- `addToPropagate(cellIndex, pattern)`: push. -/
def Propagator.addToPropagate (p : Propagator) (cellIndex pattern : ℕ) : Propagator :=
  { p with stack := (cellIndex, pattern) :: p.stack }

/-- `isEmpty()`. -/
def Propagator.isEmpty (p : Propagator) : Bool := p.stack.isEmpty

/-- The mutable state threaded through `propagate`: the wave, the flat compatible
counts, and the work stack. -/
structure PState where
  wave : Wave
  compatible : ℕ → ℤ
  stack : List (ℕ × ℕ)

/-- Number of set bits of the wave (for the termination measure of `propagate`). -/
def totalBits (w : Wave) : ℕ :=
  ∑ k ∈ Finset.range (w.size * w.patternCount), if w.data k then 1 else 0

/-- Termination measure of the propagation loop: every pop removes one stack entry,
and every push is paired with one cleared wave bit. -/
def pMeasure (s : PState) : ℕ := totalBits s.wave + s.stack.length

/-- The inner loop of `propagate` over `compatPatterns` for one neighbor: decrement
the count at `neighborIndex * T * 4 + compatPattern * 4 + oppositeDir`; when an
in-range count reaches exactly 0 and the pattern is still possible, remove it, push
it, and abort with a contradiction when the neighbor has no patterns left. -/
def processCompatList (T len nI oppDir : ℕ) : List ℕ → PState → PState × Bool
  | [], s => (s, false)
  | cp :: rest, s =>
    let compatIdx := nI * T * 4 + cp * 4 + oppDir
    let compatible2 := updF len s.compatible compatIdx (s.compatible compatIdx - 1)
    let s2 : PState := { s with compatible := compatible2 }
    if compatIdx < len ∧ compatible2 compatIdx = 0 then
      if s2.wave.get nI cp then
        let wave2 := (s2.wave.remove nI cp).2
        let s3 : PState := { wave := wave2, compatible := s2.compatible
                             stack := (nI, cp) :: s2.stack }
        if wave2.getRemainingCount nI = 0 then (s3, true)
        else processCompatList T len nI oppDir rest s3
      else processCompatList T len nI oppDir rest s2
    else processCompatList T len nI oppDir rest s2

/-- One direction of one popped `(cellIndex, pattern)` pair: skip absent neighbors,
otherwise process `propagatorData.data[pattern][direction]` against the opposite
direction of the neighbor. -/
def processDir (pd : PropagatorData) (width height T : ℕ) (periodic : Bool)
    (i t d : ℕ) (s : PState) : PState × Bool :=
  match neighborIndex width height periodic i d with
  | none => (s, false)
  | some nI => processCompatList T (width * height * T * 4) nI (OPPOSITE.getD d 0) (pd.at t d) s

/-- The four-direction loop of one popped pair, aborting on contradiction. -/
def processDirList (pd : PropagatorData) (width height T : ℕ) (periodic : Bool)
    (i t : ℕ) : List ℕ → PState → PState × Bool
  | [], s => (s, false)
  | d :: rest, s =>
    match processDir pd width height T periodic i t d s with
    | (s2, true) => (s2, true)
    | (s2, false) => processDirList pd width height T periodic i t rest s2

/-- `remove` does not change the dimensions of the wave. -/
theorem Wave.remove_size (w : Wave) (i t : ℕ) :
    (w.remove i t).2.size = w.size ∧ (w.remove i t).2.patternCount = w.patternCount := by
  unfold Wave.remove Wave.removeGo
  dsimp only
  split
  · exact ⟨rfl, rfl⟩
  · split <;> exact ⟨rfl, rfl⟩

/-- The data array after the mutating branch of `remove`. -/
theorem Wave.removeGo_data (w : Wave) (i t : ℕ) :
    (w.removeGo i t).data
      = updF (w.size * w.patternCount) w.data (i * w.patternCount + t) false := by
  unfold Wave.removeGo
  dsimp only
  split <;> rfl

/-- A successful `remove` (bit present) clears exactly one counted bit. -/
theorem totalBits_remove (w : Wave) (i t : ℕ) (h : w.get i t = true) :
    totalBits (w.remove i t).2 + 1 = totalBits w := by
  have hget := h
  unfold Wave.get at hget
  rw [Bool.and_eq_true, decide_eq_true_eq] at hget
  obtain ⟨hlt, hdata⟩ := hget
  set k := i * w.patternCount + t with hk
  have hbranch : ¬ (k < w.size * w.patternCount ∧ w.data k = false) := by
    rintro ⟨-, hfalse⟩
    rw [hdata] at hfalse
    cases hfalse
  have hre : (w.remove i t).2 = w.removeGo i t := by
    unfold Wave.remove
    dsimp only
    rw [if_neg hbranch]
  rw [hre]
  have hsz : (w.removeGo i t).size = w.size ∧ (w.removeGo i t).patternCount = w.patternCount := by
    unfold Wave.removeGo
    dsimp only
    split <;> exact ⟨rfl, rfl⟩
  unfold totalBits
  rw [hsz.1, hsz.2, Wave.removeGo_data]
  have hkmem : k ∈ Finset.range (w.size * w.patternCount) := Finset.mem_range.2 hlt
  rw [← Finset.add_sum_erase _ (fun j => if updF (w.size * w.patternCount) w.data k false j then (1 : ℕ) else 0) hkmem,
      ← Finset.add_sum_erase _ (fun j => if w.data j then (1 : ℕ) else 0) hkmem]
  have hupd : updF (w.size * w.patternCount) w.data k false k = false := by
    simp [updF, hlt]
  have hsame : ∑ j ∈ (Finset.range (w.size * w.patternCount)).erase k,
        (if updF (w.size * w.patternCount) w.data k false j then (1 : ℕ) else 0)
      = ∑ j ∈ (Finset.range (w.size * w.patternCount)).erase k,
        (if w.data j then (1 : ℕ) else 0) := by
    refine Finset.sum_congr rfl fun j hj => ?_
    have hjk : j ≠ k := Finset.ne_of_mem_erase hj
    simp [updF, hjk]
  rw [hsame, hupd, hdata]
  simp only [Bool.false_eq_true, if_false, if_true]
  omega

/-- The measure never increases along the inner compat loop. -/
theorem processCompatList_measure (T len nI oppDir : ℕ) (ts : List ℕ) (s : PState) :
    pMeasure (processCompatList T len nI oppDir ts s).1 ≤ pMeasure s := by
  induction ts generalizing s with
  | nil => simp [processCompatList]
  | cons cp rest ih =>
    rw [processCompatList]
    dsimp only
    split
    · split
      · rename_i hget
        have key : pMeasure ⟨(s.wave.remove nI cp).2,
            updF len s.compatible (nI * T * 4 + cp * 4 + oppDir)
              (s.compatible (nI * T * 4 + cp * 4 + oppDir) - 1),
            (nI, cp) :: s.stack⟩ = pMeasure s := by
          unfold pMeasure
          dsimp only
          have hbits := totalBits_remove s.wave nI cp hget
          simp only [List.length_cons]
          omega
        split
        · exact le_of_eq key
        · exact le_trans (ih _) (le_of_eq key)
      · exact ih _
    · exact ih _

/-- The measure never increases along the four-direction loop. -/
theorem processDirList_measure (pd : PropagatorData) (width height T : ℕ)
    (periodic : Bool) (i t : ℕ) (ds : List ℕ) (s : PState) :
    pMeasure (processDirList pd width height T periodic i t ds s).1 ≤ pMeasure s := by
  induction ds generalizing s with
  | nil => simp [processDirList]
  | cons d rest ih =>
    rw [processDirList]
    have hd : pMeasure (processDir pd width height T periodic i t d s).1 ≤ pMeasure s := by
      unfold processDir
      split
      · exact le_of_eq rfl
      · exact processCompatList_measure _ _ _ _ _ _
    split
    · rename_i s2 heq
      have := hd
      rw [heq] at this
      exact this
    · rename_i s2 heq
      have h2 := hd
      rw [heq] at h2
      exact le_trans (ih s2) h2

/-- The main loop of `propagate`: pop until the stack is empty, returning `false`
as soon as a cell loses its last pattern. -/
def propagateLoop (pd : PropagatorData) (width height T : ℕ) (periodic : Bool)
    (s : PState) : Bool × PState :=
  match h : s.stack with
  | [] => (true, s)
  | (i, t) :: rest =>
    match h2 : processDirList pd width height T periodic i t [0, 1, 2, 3]
        { s with stack := rest } with
    | (s2, true) => (false, s2)
    | (s2, false) => propagateLoop pd width height T periodic s2
termination_by pMeasure s
decreasing_by
  have hb := processDirList_measure pd width height T periodic i t [0, 1, 2, 3]
    { s with stack := rest }
  rw [h2] at hb
  unfold pMeasure at hb ⊢
  dsimp only at hb ⊢
  rw [h]
  simp only [List.length_cons]
  omega

/-- `propagate(wave)`: run the stack to exhaustion or contradiction; returns the
success flag together with the updated propagator and wave. -/
def Propagator.propagate (p : Propagator) (w : Wave) : Bool × Propagator × Wave :=
  let (ok, s) := propagateLoop p.propagatorData p.width p.height p.patternCount p.periodic
    { wave := w, compatible := p.compatible, stack := p.stack }
  (ok, { p with compatible := s.compatible, stack := s.stack }, s.wave)

/-- Bounded unrolling of `propagateLoop` (an evaluation device, not part of the
source model): `none` when the fuel runs out before the loop finishes.  Structural
recursion on the fuel lets the kernel evaluate concrete runs; the equivalence with
`propagateLoop` is proven below. -/
def propagateFuelLoop (pd : PropagatorData) (width height T : ℕ) (periodic : Bool) :
    ℕ → PState → Option (Bool × PState)
  | 0, _ => none
  | fuel + 1, s =>
    match s.stack with
    | [] => some (true, s)
    | (i, t) :: rest =>
      match processDirList pd width height T periodic i t [0, 1, 2, 3]
          { s with stack := rest } with
      | (s2, true) => some (false, s2)
      | (s2, false) => propagateFuelLoop pd width height T periodic fuel s2

/-- Bounded unrolling of `Propagator.propagate` (evaluation device). -/
def propagateFuel (fuel : ℕ) (p : Propagator) (w : Wave) :
    Option (Bool × Propagator × Wave) :=
  (propagateFuelLoop p.propagatorData p.width p.height p.patternCount p.periodic fuel
    { wave := w, compatible := p.compatible, stack := p.stack }).map
    fun os => (os.1, { p with compatible := os.2.compatible, stack := os.2.stack }, os.2.wave)

/-! ### Heuristics missing from src (modelled from the spec) -/

/-- Modelled from the spec: the scan of `Wave.getMRVCell`, which both models' `step()`
call but whose implementation is not under src/ (only the call sites are).  Spec 4.2:
"MRV (Minimum Remaining Values): argmin of `remaining[i]` (>1), with a small random
tie-break", all heuristics "skip collapsed cells; return -1 if all cells collapsed,
-2 on contradiction"; spec 5: "ties within MRV by a tie-break noise call". -/
def mrvLoop (w : Wave) : List ℕ → Option ℕ → ℤ → Random → ℤ × Random
  | [], _, argmin, rng => (argmin, rng)
  | i :: rest, none, argmin, rng =>
    let count := w.memo.patternCount i
    if count = 1 then mrvLoop w rest none argmin rng
    else if count = 0 then (-2, rng)
    else mrvLoop w rest (some count) (i : ℤ) rng
  | i :: rest, some b, argmin, rng =>
    let count := w.memo.patternCount i
    if count = 1 then mrvLoop w rest (some b) argmin rng
    else if count = 0 then (-2, rng)
    else if count < b then mrvLoop w rest (some count) (i : ℤ) rng
    else if count = b then
      let (u, rng2) := rng.next
      if u < 1 / 2 then mrvLoop w rest (some count) (i : ℤ) rng2
      else mrvLoop w rest (some b) argmin rng2
    else mrvLoop w rest (some b) argmin rng

/-- Modelled from the spec: `Wave.getMRVCell`. -/
def Wave.getMRVCell (w : Wave) (rng : Random) : ℤ × Random :=
  mrvLoop w (List.range w.size) none (-1) rng

/-- Modelled from the spec: the scan of `Wave.getScanlineCell` (implementation absent
from src/).  Spec 4.2: "Scanline: resume from a cursor position; return the first
uncollapsed cell at index ≥ cursor; update cursor to that index+1; wrap disallowed
(success when cursor passes the end)", returning `-2` when the uncollapsed cell it
finds has no patterns left. -/
def scanlineFind (w : Wave) (cursor : ℕ) : List ℕ → ℤ × ℕ
  | [] => (-1, cursor)
  | i :: rest =>
    let count := w.memo.patternCount i
    if count = 1 then scanlineFind w cursor rest
    else if count = 0 then (-2, i + 1)
    else ((i : ℤ), i + 1)

/-- Modelled from the spec: `Wave.getScanlineCell`, returning the chosen cell and the
next cursor value. -/
def Wave.getScanlineCell (w : Wave) (cursor : ℕ) : ℤ × ℕ :=
  scanlineFind w cursor ((List.range w.size).drop cursor)

/-! ### The shared model core (OverlappingModel.step ≡ SimpleTiledModel.step) -/

/-- Cell selection heuristic (src/core/types.ts). -/
inductive Heuristic
  | entropy
  | mrv
  | scanline
deriving DecidableEq

/-- Result of an observation step (src/core/types.ts; the source strings are
'continue' / 'success' / 'failure', `cont` models 'continue'). -/
inductive ObserveResult
  | cont
  | success
  | failure
deriving DecidableEq

/-- The algorithmic fields that `OverlappingModel` and `SimpleTiledModel` both hold
(`wave`, `propagator`, `rng`, `heuristic`, `scanlineCursor`); the two classes
duplicate the `step`, `run`, `getState` and `getEntropyData` bodies verbatim over
these fields, so the shared code is embedded once here. -/
structure ModelCore where
  wave : Wave
  propagator : Propagator
  rng : Random
  heuristic : Heuristic
  scanlineCursor : ℕ

/-- The heuristic dispatch at the top of `step()`: returns the selected cell (or
-1 / -2) together with the updated rng and scanline cursor. -/
def ModelCore.selectCell (m : ModelCore) : ℤ × Random × ℕ :=
  match m.heuristic with
  | .mrv =>
    let (c, rng2) := m.wave.getMRVCell m.rng
    (c, rng2, m.scanlineCursor)
  | .scanline =>
    let (c, next) := m.wave.getScanlineCell m.scanlineCursor
    (c, m.rng, next)
  | .entropy =>
    let (c, rng2) := m.wave.getMinEntropyCell m.rng
    (c, rng2, m.scanlineCursor)

/-- The loop of `step()` pushing every previously-possible, non-selected pattern of
the collapsed cell onto the propagation stack. -/
def pushRemoved (cellIndex : ℕ) (selected : ℤ) : List ℕ → Propagator → Propagator
  | [], p => p
  | t :: rest, p =>
    if (t : ℤ) ≠ selected then pushRemoved cellIndex selected rest (p.addToPropagate cellIndex t)
    else pushRemoved cellIndex selected rest p

/-- `step()` (one observation plus full propagation), identical in
src/core/overlapping-model.ts and src/core/simple-tiled-model.ts: select a cell by
the configured heuristic (-1 ⇒ success, -2 ⇒ failure), read its possible patterns,
collapse it (-1 ⇒ failure), push the removed patterns, propagate (false ⇒ failure,
else continue). -/
def ModelCore.step (m : ModelCore) : ObserveResult × ModelCore :=
  let (cellIndex, rng1, cursor1) := m.selectCell
  let m1 : ModelCore := { m with rng := rng1, scanlineCursor := cursor1 }
  if cellIndex = -1 then (.success, m1)
  else if cellIndex = -2 then (.failure, m1)
  else
    let i := cellIndex.toNat
    let remainingPatterns := m1.wave.getPossiblePatterns i
    let (selectedPattern, wave1, rng2) := m1.wave.collapse i m1.rng
    let m2 : ModelCore := { m1 with wave := wave1, rng := rng2 }
    if selectedPattern = -1 then (.failure, m2)
    else
      let prop1 := pushRemoved i selectedPattern remainingPatterns m2.propagator
      let (ok, prop2, wave2) := prop1.propagate m2.wave
      let m3 : ModelCore := { m2 with wave := wave2, propagator := prop2 }
      if ok then (.cont, m3) else (.failure, m3)

/-- Bounded-unrolling twin of `ModelCore.step` (evaluation device): `none` when the
propagation fuel runs out.  Equivalence with `step` is proven below. -/
def stepFuel (m : ModelCore) (fuel : ℕ) : Option (ObserveResult × ModelCore) :=
  let (cellIndex, rng1, cursor1) := m.selectCell
  let m1 : ModelCore := { m with rng := rng1, scanlineCursor := cursor1 }
  if cellIndex = -1 then some (.success, m1)
  else if cellIndex = -2 then some (.failure, m1)
  else
    let i := cellIndex.toNat
    let remainingPatterns := m1.wave.getPossiblePatterns i
    let (selectedPattern, wave1, rng2) := m1.wave.collapse i m1.rng
    let m2 : ModelCore := { m1 with wave := wave1, rng := rng2 }
    if selectedPattern = -1 then some (.failure, m2)
    else
      let prop1 := pushRemoved i selectedPattern remainingPatterns m2.propagator
      match propagateFuel fuel prop1 m2.wave with
      | none => none
      | some okpw =>
        let m3 : ModelCore := { m2 with wave := okpw.2.2, propagator := okpw.2.1 }
        some (if okpw.1 then (.cont, m3) else (.failure, m3))

/-- Snapshot returned by `getState()` (interface WFCState in src/core/types.ts). -/
structure WFCState where
  totalCells : ℕ
  collapsedCount : ℕ
  patternCount : ℕ
  isComplete : Bool
  hasContradiction : Bool
deriving DecidableEq

/-- `getState()`, identical in both models: count the collapsed cells, flag a
contradiction when some cell has zero remaining patterns. -/
def modelGetState (m : ModelCore) (patternCount : ℕ) : WFCState :=
  let collapsedCount :=
    ((Finset.range m.wave.size).filter fun i => m.wave.getRemainingCount i = 1).card
  { totalCells := m.wave.size
    collapsedCount := collapsedCount
    patternCount := patternCount
    isComplete := decide (collapsedCount = m.wave.size)
    hasContradiction :=
      decide (∃ i ∈ Finset.range m.wave.size, m.wave.getRemainingCount i = 0) }

/-! ### SimpleTiledModel (src/core/simple-tiled-model.ts) -/

/-- Options of the simple tiled model (src/core/types.ts). -/
structure SimpleTiledOptions where
  width : ℕ
  height : ℕ
  periodic : Bool
  heuristic : Heuristic
  seed : ℕ
  blackBackground : Bool

/-- The SimpleTiledModel.  Tile pixel buffers feed only `render()` (not embedded);
`tilenames` feeds only the tile viewer and is omitted.  `patternCount = tiles.length`
as in the source. -/
structure SimpleTiledModel where
  core : ModelCore
  tiles : List (List ℤ)
  tilesize : ℕ
  weights : List ℚ
  width : ℕ
  height : ℕ
  periodic : Bool
  blackBackground : Bool
  patternCount : ℕ

/-- `new SimpleTiledModel(tiles, tilenames, tilesize, weights, propagatorData,
options)`: wire up the shared Wave and Propagator; no validation of any input is
performed. -/
def SimpleTiledModel.create (tiles : List (List ℤ)) (tilesize : ℕ) (ws : List ℚ)
    (pd : PropagatorData) (o : SimpleTiledOptions) (lg : ℚ → ℚ) : SimpleTiledModel :=
  let T := tiles.length
  { core :=
      { wave := Wave.create o.width o.height ws lg
        propagator := Propagator.create o.width o.height T o.periodic pd
        rng := Random.create o.seed
        heuristic := o.heuristic
        scanlineCursor := 0 }
    tiles := tiles, tilesize := tilesize, weights := ws
    width := o.width, height := o.height, periodic := o.periodic
    blackBackground := o.blackBackground, patternCount := T }

/-- `step()` of the simple tiled model (verbatim copy of the shared core in the
source). -/
def SimpleTiledModel.step (m : SimpleTiledModel) : ObserveResult × SimpleTiledModel :=
  let (r, core2) := m.core.step
  (r, { m with core := core2 })

/-- `getState()`. -/
def SimpleTiledModel.getState (m : SimpleTiledModel) : WFCState :=
  modelGetState m.core m.patternCount

/-- `clear()`: reset wave, propagator and scanline cursor. -/
def SimpleTiledModel.clear (m : SimpleTiledModel) : SimpleTiledModel :=
  { m with core := { m.core with wave := m.core.wave.clear
                                 propagator := m.core.propagator.reset
                                 scanlineCursor := 0 } }

/-! ### OverlappingModel (src/core/overlapping-model.ts) -/

/-- Options of the overlapping model (src/core/types.ts). -/
structure OverlappingOptions where
  width : ℕ
  height : ℕ
  periodic : Bool
  heuristic : Heuristic
  seed : ℕ
  patternSize : ℕ
  symmetry : ℕ
  periodicInput : Bool
  ground : Bool

/-- `extractColors`: assign dense color indices in order of first occurrence;
returns the index array and the palette. -/
def extractColors (pixels : List ℕ) : List ℕ × List ℕ :=
  pixels.foldl
    (fun (acc : List ℕ × List ℕ) color =>
      let (sample, colors) := acc
      if color ∈ colors then (sample ++ [colors.indexOf color], colors)
      else (sample ++ [colors.length], colors ++ [color]))
    ([], [])

/-- `patternFromSample(x, y)`: read the `N×N` patch, always wrapping indices by the
sample extents (the extraction bounds, not the reads, depend on `periodicInput`). -/
def patternFromSample (sample : List ℕ) (sw sh N x y : ℕ) : List ℕ :=
  (List.range (N * N)).map fun k =>
    let dx := k % N
    let dy := k / N
    sample.getD ((x + dx) % sw + ((y + dy) % sh) * sw) 0

/-- `rotate`: 90° clockwise, `result[x + y*N] = p[N-1-y + x*N]`. -/
def rotatePattern (N : ℕ) (p : List ℕ) : List ℕ :=
  (List.range (N * N)).map fun k =>
    let x := k % N
    let y := k / N
    p.getD (N - 1 - y + x * N) 0

/-- `reflect`: horizontal, `result[x + y*N] = p[N-1-x + y*N]`. -/
def reflectPattern (N : ℕ) (p : List ℕ) : List ℕ :=
  (List.range (N * N)).map fun k =>
    let x := k % N
    let y := k / N
    p.getD (N - 1 - x + y * N) 0

/-- `hash`: the base-`C` polynomial accumulated from the last entry down
(`result += p[i] * power; power *= C`); the source renders the BigInt as a decimal
string key, which carries exactly this natural number. -/
def hashPattern (C : ℕ) (p : List ℕ) : ℕ :=
  (p.foldr (fun d acc => (acc.1 + d * acc.2, acc.2 * C)) ((0 : ℕ), (1 : ℕ))).1

/-- The eight symmetry variants `ps[0..7]` generated in `extractPatterns`. -/
def symmetryVariants (N : ℕ) (p0 : List ℕ) : List (List ℕ) :=
  let p1 := reflectPattern N p0
  let p2 := rotatePattern N p0
  let p3 := reflectPattern N p2
  let p4 := rotatePattern N p2
  let p5 := reflectPattern N p4
  let p6 := rotatePattern N p4
  let p7 := reflectPattern N p6
  [p0, p1, p2, p3, p4, p5, p6, p7]

/-- Accumulator of `extractPatterns`: the registered patterns, their weights, and the
hash-to-index map (`patternIndices`, a `Map` in the source, as an assoc list). -/
structure ExtractAcc where
  patterns : List (List ℕ)
  weights : List ℕ
  patternIndices : List (ℕ × ℕ)

/-- Register one symmetry variant: bump the weight of a known hash, or append a new
pattern with weight 1. -/
def addPattern (C : ℕ) (acc : ExtractAcc) (p : List ℕ) : ExtractAcc :=
  let h := hashPattern C p
  match acc.patternIndices.lookup h with
  | some idx =>
    { acc with weights := acc.weights.set idx (acc.weights.getD idx 0 + 1) }
  | none =>
    { patterns := acc.patterns ++ [p]
      weights := acc.weights ++ [1]
      patternIndices := acc.patternIndices ++ [(h, acc.patterns.length)] }

/-- `extractPatterns`: scan all origins in `[0, xmax) × [0, ymax)` (`xmax` is
`sampleWidth` when `periodicInput`, else `sampleWidth - N + 1`, which the source
computes in JS arithmetic so that `N > sampleWidth` yields an empty range —
hence `sw + 1 - N` in `ℕ`), take the first `symmetry` variants of each patch, and
deduplicate by hash. -/
def extractPatterns (sample : List ℕ) (sw sh : ℕ) (periodicInput : Bool)
    (symmetry N C : ℕ) : ExtractAcc :=
  let xmax := if periodicInput then sw else sw + 1 - N
  let ymax := if periodicInput then sh else sh + 1 - N
  (List.range ymax).foldl
    (fun acc y =>
      (List.range xmax).foldl
        (fun acc x =>
          ((symmetryVariants N (patternFromSample sample sw sh N x y)).take symmetry).foldl
            (addPattern C) acc)
        acc)
    ⟨[], [], []⟩

/-- `agrees(p1, p2, dx, dy)`: pixelwise agreement on the overlap rectangle. -/
def agrees (N : ℕ) (p1 p2 : List ℕ) (dx dy : ℤ) : Bool :=
  let xmin : ℤ := if dx < 0 then 0 else dx
  let xmax : ℤ := if dx < 0 then dx + N else N
  let ymin : ℤ := if dy < 0 then 0 else dy
  let ymax : ℤ := if dy < 0 then dy + N else N
  (List.range (ymax - ymin).toNat).all fun j =>
    (List.range (xmax - xmin).toNat).all fun i2 =>
      let x := xmin + i2
      let y := ymin + j
      p1.getD (x + N * y).toNat 0 == p2.getD (x - dx + N * (y - dy)).toNat 0

/-- `buildPropagator`: for each pattern and direction, collect the patterns agreeing
under the direction's offset. -/
def buildPropagator (N : ℕ) (patterns : List (List ℕ)) : PropagatorData :=
  { data :=
      (List.range patterns.length).map fun t =>
        (List.range 4).map fun d =>
          (List.range patterns.length).filter fun t2 =>
            agrees N (patterns.getD t []) (patterns.getD t2 []) (DX.getD d 0) (DY.getD d 0) }

/-- One guarded removal+push of `applyGroundConstraint`
(`if (wave.get(cellIndex, t)) { wave.remove(...); propagator.addToPropagate(...) }`). -/
def groundCell (cellIndex t : ℕ) (wp : Wave × Propagator) : Wave × Propagator :=
  if wp.1.get cellIndex t then ((wp.1.remove cellIndex t).2, wp.2.addToPropagate cellIndex t)
  else wp

/-- `applyGroundConstraint()`: for every column, ban all non-last patterns on the
bottom row and the last pattern on every other row, then drain the propagator once.
(`T - 1` and `H - 1` are JS subtractions whose negative values index nothing; the
`ℕ` truncation reaches the same no-ops.) -/
def applyGroundConstraint (T W H : ℕ) (wave : Wave) (prop : Propagator) :
    Wave × Propagator :=
  let wp :=
    (List.range W).foldl
      (fun wp x =>
        let wp1 := (List.range (T - 1)).foldl
          (fun wp t => groundCell (x + (H - 1) * W) t wp) wp
        (List.range (H - 1)).foldl
          (fun wp y => groundCell (x + y * W) (T - 1) wp) wp1)
      (wave, prop)
  let (_, prop2, wave2) := wp.2.propagate wp.1
  (wave2, prop2)

/-- The two per-column inner folds of `applyGroundConstraint`, as they appear in the
source: ban the non-last patterns on the bottom cell, then the last pattern on the
other rows. -/
def groundColumn (T W H x : ℕ) (wp : Wave × Propagator) : Wave × Propagator :=
  let wp1 := (List.range (T - 1)).foldl
    (fun wp t => groundCell (x + (H - 1) * W) t wp) wp
  (List.range (H - 1)).foldl (fun wp y => groundCell (x + y * W) (T - 1) wp) wp1

/-- The OverlappingModel. -/
structure OverlappingModel where
  core : ModelCore
  patterns : List (List ℕ)
  colors : List ℕ
  N : ℕ
  width : ℕ
  height : ℕ
  periodic : Bool
  ground : Bool
  patternCount : ℕ

/-- `new OverlappingModel(inputPixels, inputWidth, inputHeight, options)`: color
quantization, pattern extraction with symmetry dedup, propagator build, wave and
propagator allocation, and the optional ground constraint.  No option validation of
any kind is performed by the source constructor. -/
def OverlappingModel.create (pixels : List ℕ) (inputWidth inputHeight : ℕ)
    (o : OverlappingOptions) (lg : ℚ → ℚ) : OverlappingModel :=
  let sc := extractColors pixels
  let acc := extractPatterns sc.1 inputWidth inputHeight o.periodicInput o.symmetry
    o.patternSize sc.2.length
  let T := acc.patterns.length
  let pd := buildPropagator o.patternSize acc.patterns
  let wave := Wave.create o.width o.height (acc.weights.map fun wgt => (wgt : ℚ)) lg
  let prop := Propagator.create o.width o.height T o.periodic pd
  let wp := if o.ground then applyGroundConstraint T o.width o.height wave prop
            else (wave, prop)
  { core :=
      { wave := wp.1, propagator := wp.2, rng := Random.create o.seed
        heuristic := o.heuristic, scanlineCursor := 0 }
    patterns := acc.patterns, colors := sc.2, N := o.patternSize
    width := o.width, height := o.height, periodic := o.periodic
    ground := o.ground, patternCount := T }

/-- `step()` of the overlapping model (verbatim copy of the shared core in the
source). -/
def OverlappingModel.step (m : OverlappingModel) : ObserveResult × OverlappingModel :=
  let (r, core2) := m.core.step
  (r, { m with core := core2 })

/-- `getState()`. -/
def OverlappingModel.getState (m : OverlappingModel) : WFCState :=
  modelGetState m.core m.patternCount

/-- `clear()`: reset wave, propagator and cursor, then reapply the ground
constraint when enabled. -/
def OverlappingModel.clear (m : OverlappingModel) : OverlappingModel :=
  let wave := m.core.wave.clear
  let prop := m.core.propagator.reset
  let wp := if m.ground then applyGroundConstraint m.patternCount m.width m.height wave prop
            else (wave, prop)
  { m with core := { m.core with wave := wp.1, propagator := wp.2, scanlineCursor := 0 } }

/-! ### From-scratch recomputes, invariants, reachability -/

/-- From-scratch recompute of `remaining[i]`: the popcount of the possibility mask. -/
def recomputeCount (w : Wave) (i : ℕ) : ℕ :=
  ((Finset.range w.patternCount).filter fun t => w.get i t = true).card

/-- From-scratch recompute of `sum[i]`: the weights of the possible patterns. -/
def recomputeSum (w : Wave) (i : ℕ) : ℚ :=
  ∑ t ∈ Finset.range w.patternCount, if w.get i t then w.weights t else 0

/-- From-scratch recompute of `plogpSum[i]`. -/
def recomputePlogpSum (w : Wave) (i : ℕ) : ℚ :=
  ∑ t ∈ Finset.range w.patternCount, if w.get i t then w.plogp t else 0

/-- The mask of cell `i` is still full (no pattern has ever been removed from it
since construction or the last `clear()`). -/
def maskFull (w : Wave) (i : ℕ) : Prop :=
  ∀ t < w.patternCount, w.get i t = true

/-- The invariant actually maintained by the Wave: `remaining`, `sum` and
`plogpSum` always equal their from-scratch recomputes; `logSum[i] = log(sum[i])`
holds whenever `sum[i] > 0` (it goes stale when the sum reaches 0); and the
memoized entropy satisfies the spec formula
`entropy[i] = logSum[i] − plogpSum[i]/sum[i]` (0 when `sum[i] ≤ 0`) at every cell
that has undergone a removal, while a cell with a full mask holds
`startingEntropy = log(sumW) − Σ plogp` instead — which differs from the formula
by the missing `/sumW` normalization. -/
def WaveInv (w : Wave) : Prop :=
  ∀ i < w.size,
    w.memo.patternCount i = recomputeCount w i ∧
    w.memo.sum i = recomputeSum w i ∧
    w.memo.plogpSum i = recomputePlogpSum w i ∧
    (0 < w.memo.sum i → w.memo.logSum i = w.lg (w.memo.sum i)) ∧
    (maskFull w i → w.memo.entropy i = w.startingEntropy) ∧
    (¬ maskFull w i →
      w.memo.entropy i =
        if 0 < w.memo.sum i then w.memo.logSum i - w.memo.plogpSum i / w.memo.sum i
        else 0)

/-- The part of `WaveInv` needed by the step/propagation theorems: the memoized
remaining count is the popcount of the mask. -/
def WaveCountInv (w : Wave) : Prop :=
  ∀ i < w.size, w.memo.patternCount i = recomputeCount w i

/-- The Wave states reachable from construction by any sequence of `remove`,
`collapse` and `clear` calls (with in-range indices, as issued by every caller in
the repository). -/
inductive WaveReachable (width height : ℕ) (ws : List ℚ) (lg : ℚ → ℚ) : Wave → Prop
  | create : WaveReachable width height ws lg (Wave.create width height ws lg)
  | remove (w : Wave) (i t : ℕ) (hw : WaveReachable width height ws lg w)
      (hi : i < w.size) (ht : t < w.patternCount) :
      WaveReachable width height ws lg (w.remove i t).2
  | collapse (w : Wave) (i : ℕ) (rng : Random) (hw : WaveReachable width height ws lg w)
      (hi : i < w.size) :
      WaveReachable width height ws lg (w.collapse i rng).2.1
  | clear (w : Wave) (hw : WaveReachable width height ws lg w) :
      WaveReachable width height ws lg w.clear

/-- Dimensional coherence of a model core, established by both model constructors:
the propagator is allocated over the same grid and pattern count as the wave, and
the wave's stored `size` is `width * height`. -/
def CoreWF (m : ModelCore) : Prop :=
  m.propagator.width = m.wave.width ∧
  m.propagator.height = m.wave.height ∧
  m.propagator.patternCount = m.wave.patternCount ∧
  m.wave.size = m.wave.width * m.wave.height

/-! ### Concrete instances used by the claim theorems -/

/-- A concrete computable stand-in for `Math.log`, agreeing with the natural
logarithm to 6 decimal places at every point it is queried at in the concrete
runs below (ln 2 ≈ 0.693147, ln 10 ≈ 2.302585, ln 5 ≈ 1.609438,
ln 0.3 ≈ −1.203973, ln 0.4 ≈ −0.916291, ln 1 = 0). -/
def lgDemo : ℚ → ℚ := fun q =>
  if q = 2 then 693 / 1000
  else if q = 1 / 2 then -693 / 1000
  else if q = 10 then 2302585 / 1000000
  else if q = 5 then 1609438 / 1000000
  else if q = 1 / 10 then -2302585 / 1000000
  else if q = 1 / 5 then -1609438 / 1000000
  else if q = 3 / 10 then -1203973 / 1000000
  else if q = 2 / 5 then -916291 / 1000000
  else 0

/-- A fresh two-pattern wave with equal weights (one 1×1 cell). -/
def wEq : Wave := Wave.create 1 1 [1, 1] lgDemo

/-- 2-cell wave over weights `[1,2,3,4]`, cell 0 restricted to patterns `{0,3}` and
cell 1 to `{1,2}` by public `remove` calls: both cells then carry weight sum 5 but
different `plogpSum`, so their entropies differ by ≈ 0.01726 while the noise scale
is `|plogp₀|/2 ≈ 0.11513`. -/
def w5 : Wave :=
  (((((Wave.create 2 1 [1, 2, 3, 4] lgDemo).remove 0 1).2.remove 0 2).2.remove
    1 0).2.remove 1 3).2

/-- Adversarial-but-wellformed adjacency data over two patterns on a 1×2 grid:
each pattern admits one supporter on its left and both patterns on its right, so a
single removal at cell 0 wipes out cell 1. -/
def pd7 : PropagatorData := ⟨[[[0], [], [0, 1], []], [[0], [], [0, 1], []]]⟩

/-- A 2×1 SimpleTiledModel over `pd7` with seed 0 and the entropy heuristic: its
first step collapses cell 1 and propagates cleanly; its second step collapses
cell 0 and runs into a contradiction mid-propagation. -/
def m7 : SimpleTiledModel :=
  SimpleTiledModel.create [[], []] 1 [1, 1] pd7
    ⟨2, 1, false, .entropy, 0, false⟩ lgDemo

/-- An OverlappingModel constructed with `patternSize = 1` (forbidden by the spec)
from a 2×2 two-color sample: construction succeeds and produces a working model. -/
def m9 : OverlappingModel :=
  OverlappingModel.create [10, 20, 20, 10] 2 2
    ⟨2, 2, false, .entropy, 0, 1, 1, true, false⟩ lgDemo

/-- The ground scenario of the spec: a 2×2 sky/ground sample, `N = 2`,
`symmetry = 1`, periodic input, `ground = true`, on a 3×2 output grid. -/
def m6 : OverlappingModel :=
  OverlappingModel.create [7, 7, 9, 9] 2 2
    ⟨3, 2, false, .entropy, 5, 2, 1, true, true⟩ lgDemo

/-- 2-cell two-pattern wave whose cell 1 has been emptied by two public `remove`
calls (a reachable contradiction state); cell 0 is untouched. -/
def wS : Wave :=
  (((Wave.create 2 1 [1, 1] lgDemo).remove 1 0).2.remove 1 1).2

/-- A scanline-heuristic core over `wS`: cell 0 is uncollapsed, cell 1 is a
contradiction, the scanline cursor is at 0. -/
def mS3 : ModelCore :=
  { wave := wS, propagator := Propagator.create 2 1 2 false pd7,
    rng := Random.create 0, heuristic := Heuristic.scanline, scanlineCursor := 0 }

/-- The same state under the entropy heuristic. -/
def mE3 : ModelCore :=
  { wave := wS, propagator := Propagator.create 2 1 2 false pd7,
    rng := Random.create 0, heuristic := Heuristic.entropy, scanlineCursor := 0 }

/-- A 1-cell two-pattern wave collapsed to one remaining pattern by a public
`remove` call. -/
def w8a : Wave := ((Wave.create 1 1 [1, 1] lgDemo).remove 0 0).2

/-- The same cell emptied completely (zero remaining patterns). -/
def w8z : Wave := (w8a.remove 0 1).2

/-! ## Basic Wave lemmas -/

theorem flatIdx_lt {size T i t : ℕ} (hi : i < size) (ht : t < T) :
    i * T + t < size * T := by
  have h1 : i * T + t < (i + 1) * T := by nlinarith
  have h2 : (i + 1) * T ≤ size * T := Nat.mul_le_mul_right T hi
  omega

theorem flatIdx_inj {T j t' i t : ℕ} (ht : t < T) (ht' : t' < T)
    (h : j * T + t' = i * T + t) : j = i ∧ t' = t := by
  have hT : 0 < T := lt_of_le_of_lt (Nat.zero_le t) ht
  have h1 : (j * T + t') % T = t' := by
    rw [Nat.add_comm, Nat.add_mul_mod_self_right]
    exact Nat.mod_eq_of_lt ht'
  have h2 : (i * T + t) % T = t := by
    rw [Nat.add_comm, Nat.add_mul_mod_self_right]
    exact Nat.mod_eq_of_lt ht
  have htt : t' = t := by rw [← h1, h, h2]
  subst htt
  have hmul : j * T = i * T := by omega
  exact ⟨Nat.eq_of_mul_eq_mul_right hT hmul, rfl⟩

/-- `removeGo` changes only `data` and `memo`. -/
theorem Wave.removeGo_statics (w : Wave) (i t : ℕ) :
    (w.removeGo i t).size = w.size ∧ (w.removeGo i t).patternCount = w.patternCount ∧
    (w.removeGo i t).weights = w.weights ∧ (w.removeGo i t).plogp = w.plogp ∧
    (w.removeGo i t).lg = w.lg ∧ (w.removeGo i t).startingEntropy = w.startingEntropy ∧
    (w.removeGo i t).minAbsHalfPlogp = w.minAbsHalfPlogp ∧
    (w.removeGo i t).width = w.width ∧ (w.removeGo i t).height = w.height := by
  unfold Wave.removeGo
  dsimp only
  split <;> exact ⟨rfl, rfl, rfl, rfl, rfl, rfl, rfl, rfl, rfl⟩

/-- `remove` changes only `data` and `memo`. -/
theorem Wave.remove_statics (w : Wave) (i t : ℕ) :
    (w.remove i t).2.size = w.size ∧ (w.remove i t).2.patternCount = w.patternCount ∧
    (w.remove i t).2.weights = w.weights ∧ (w.remove i t).2.plogp = w.plogp ∧
    (w.remove i t).2.lg = w.lg ∧ (w.remove i t).2.startingEntropy = w.startingEntropy ∧
    (w.remove i t).2.minAbsHalfPlogp = w.minAbsHalfPlogp ∧
    (w.remove i t).2.width = w.width ∧ (w.remove i t).2.height = w.height := by
  unfold Wave.remove
  dsimp only
  split
  · exact ⟨rfl, rfl, rfl, rfl, rfl, rfl, rfl, rfl, rfl⟩
  · exact Wave.removeGo_statics w i t

/-- Unfolded form of `get`. -/
theorem Wave.get_iff {w : Wave} {i t : ℕ} :
    w.get i t = true ↔
      i * w.patternCount + t < w.size * w.patternCount ∧
        w.data (i * w.patternCount + t) = true := by
  unfold Wave.get
  rw [Bool.and_eq_true, decide_eq_true_eq]

/-- When the bit is present, `remove` takes the mutating branch and returns true. -/
theorem Wave.remove_of_get_true {w : Wave} {i t : ℕ} (h : w.get i t = true) :
    w.remove i t = (true, w.removeGo i t) := by
  rw [Wave.get_iff] at h
  unfold Wave.remove
  dsimp only
  rw [if_neg]
  rintro ⟨-, hf⟩
  rw [h.2] at hf
  cases hf

/-- When the (in-range) bit is already clear, `remove` is a no-op returning false. -/
theorem Wave.remove_of_absent {w : Wave} {i t : ℕ}
    (hlt : i * w.patternCount + t < w.size * w.patternCount)
    (h : w.data (i * w.patternCount + t) = false) :
    w.remove i t = (false, w) := by
  unfold Wave.remove
  dsimp only
  rw [if_pos ⟨hlt, h⟩]

/-- Mask after the mutating branch of `remove`: for in-range pattern indices, only
the bit `(i, t)` changes (to 0). -/
theorem Wave.get_removeGo {w : Wave} (i t j t' : ℕ) (ht : t < w.patternCount)
    (ht' : t' < w.patternCount) :
    (w.removeGo i t).get j t' = if j = i ∧ t' = t then false else w.get j t' := by
  have hst := Wave.removeGo_statics w i t
  unfold Wave.get
  rw [hst.1, hst.2.1, Wave.removeGo_data]
  by_cases hji : j = i ∧ t' = t
  · obtain ⟨rfl, rfl⟩ := hji
    rw [if_pos ⟨rfl, rfl⟩]
    by_cases hk : j * w.patternCount + t' < w.size * w.patternCount
    · simp [updF, hk]
    · simp [updF, hk]
  · rw [if_neg hji]
    have hkk : j * w.patternCount + t' ≠ i * w.patternCount + t := by
      intro he
      exact hji (flatIdx_inj ht ht' he)
    simp [updF, hkk]

/-- Memoized scalars of the removed cell after the mutating branch. -/
theorem Wave.removeGo_memo {w : Wave} (i t : ℕ) (hi : i < w.size) :
    (w.removeGo i t).memo.patternCount i = dec32 (w.memo.patternCount i) ∧
    (w.removeGo i t).memo.sum i = w.memo.sum i - w.weights t ∧
    (w.removeGo i t).memo.plogpSum i = w.memo.plogpSum i - w.plogp t ∧
    (0 < w.memo.sum i - w.weights t →
      (w.removeGo i t).memo.logSum i = w.lg (w.memo.sum i - w.weights t) ∧
      (w.removeGo i t).memo.entropy i =
        w.lg (w.memo.sum i - w.weights t) -
          (w.memo.plogpSum i - w.plogp t) / (w.memo.sum i - w.weights t)) ∧
    (¬ 0 < w.memo.sum i - w.weights t →
      (w.removeGo i t).memo.logSum i = w.memo.logSum i ∧
      (w.removeGo i t).memo.entropy i = 0) := by
  unfold Wave.removeGo
  dsimp only
  have hupd : updF w.size w.memo.sum i (w.memo.sum i - w.weights t) i
      = w.memo.sum i - w.weights t := by
    simp [updF, hi]
  rw [hupd]
  split
  · rename_i hpos
    refine ⟨by simp [updF, hi], by simp [updF, hi], by simp [updF, hi], ?_, ?_⟩
    · intro _
      constructor
      · simp [updF, hi]
      · simp [updF, hi]
    · intro hneg
      exact absurd hpos hneg
  · rename_i hneg
    refine ⟨by simp [updF, hi], by simp [updF, hi], by simp [updF, hi], ?_, ?_⟩
    · intro hpos
      exact absurd hpos hneg
    · intro _
      exact ⟨rfl, by simp [updF, hi]⟩

/-- Memoized scalars of all other cells are untouched by the mutating branch. -/
theorem Wave.removeGo_memo_other {w : Wave} (i t j : ℕ) (hj : j ≠ i) :
    (w.removeGo i t).memo.patternCount j = w.memo.patternCount j ∧
    (w.removeGo i t).memo.sum j = w.memo.sum j ∧
    (w.removeGo i t).memo.plogpSum j = w.memo.plogpSum j ∧
    (w.removeGo i t).memo.logSum j = w.memo.logSum j ∧
    (w.removeGo i t).memo.entropy j = w.memo.entropy j := by
  unfold Wave.removeGo
  dsimp only
  split <;> exact ⟨by simp [updF, hj], by simp [updF, hj], by simp [updF, hj],
    by simp [updF, hj], by simp [updF, hj]⟩

/-- The from-scratch recomputes of all other cells are unchanged by the mutating
branch of `remove`. -/
theorem recompute_removeGo_other {w : Wave} (i t j : ℕ) (ht : t < w.patternCount)
    (hj : j ≠ i) :
    recomputeCount (w.removeGo i t) j = recomputeCount w j ∧
    recomputeSum (w.removeGo i t) j = recomputeSum w j ∧
    recomputePlogpSum (w.removeGo i t) j = recomputePlogpSum w j ∧
    (maskFull (w.removeGo i t) j ↔ maskFull w j) := by
  have hst := Wave.removeGo_statics w i t
  have hget : ∀ t' < w.patternCount, (w.removeGo i t).get j t' = w.get j t' := by
    intro t' ht'
    rw [Wave.get_removeGo i t j t' ht ht', if_neg]
    rintro ⟨rfl, -⟩
    exact hj rfl
  unfold recomputeCount recomputeSum recomputePlogpSum maskFull
  rw [hst.2.1, hst.2.2.1, hst.2.2.2.1]
  refine ⟨?_, ?_, ?_, ?_⟩
  · apply congrArg
    apply Finset.filter_congr
    intro t' ht'
    rw [Finset.mem_range] at ht'
    rw [hget t' ht']
  · refine Finset.sum_congr rfl fun t' ht' => ?_
    rw [Finset.mem_range] at ht'
    rw [hget t' ht']
  · refine Finset.sum_congr rfl fun t' ht' => ?_
    rw [Finset.mem_range] at ht'
    rw [hget t' ht']
  · constructor
    · intro hf t' ht'
      rw [← hget t' ht']
      exact hf t' ht'
    · intro hf t' ht'
      rw [hget t' ht']
      exact hf t' ht'

/-- The from-scratch recomputes of the removed cell after the mutating branch of a
successful `remove`. -/
theorem recompute_removeGo_self {w : Wave} (i t : ℕ) (ht : t < w.patternCount)
    (hget : w.get i t = true) :
    recomputeCount (w.removeGo i t) i + 1 = recomputeCount w i ∧
    recomputeSum (w.removeGo i t) i = recomputeSum w i - w.weights t ∧
    recomputePlogpSum (w.removeGo i t) i = recomputePlogpSum w i - w.plogp t ∧
    ¬ maskFull (w.removeGo i t) i := by
  have hst := Wave.removeGo_statics w i t
  have htm : t ∈ (Finset.range w.patternCount).filter fun t' => w.get i t' = true :=
    Finset.mem_filter.2 ⟨Finset.mem_range.2 ht, hget⟩
  have hfilter :
      ((Finset.range w.patternCount).filter fun t' => (w.removeGo i t).get i t' = true)
        = ((Finset.range w.patternCount).filter fun t' => w.get i t' = true).erase t := by
    ext t'
    simp only [Finset.mem_filter, Finset.mem_erase, Finset.mem_range]
    constructor
    · rintro ⟨hr, hg⟩
      rw [Wave.get_removeGo i t i t' ht hr] at hg
      by_cases he : t' = t
      · rw [if_pos ⟨rfl, he⟩] at hg
        cases hg
      · rw [if_neg (by rintro ⟨-, h2⟩; exact he h2)] at hg
        exact ⟨he, hr, hg⟩
    · rintro ⟨hne, hr, hg⟩
      refine ⟨hr, ?_⟩
      rw [Wave.get_removeGo i t i t' ht hr, if_neg (by rintro ⟨-, h2⟩; exact hne h2)]
      exact hg
  refine ⟨?_, ?_, ?_, ?_⟩
  · unfold recomputeCount
    rw [hst.2.1, hfilter, Finset.card_erase_of_mem htm]
    have hpos : 0 < ((Finset.range w.patternCount).filter fun t' => w.get i t' = true).card :=
      Finset.card_pos.2 ⟨t, htm⟩
    omega
  · unfold recomputeSum
    rw [hst.2.1, hst.2.2.1, ← Finset.sum_filter, ← Finset.sum_filter, hfilter,
      Finset.sum_erase_eq_sub htm]
  · unfold recomputePlogpSum
    rw [hst.2.1, hst.2.2.2.1, ← Finset.sum_filter, ← Finset.sum_filter, hfilter,
      Finset.sum_erase_eq_sub htm]
  · intro hf
    have := hf t (by rw [hst.2.1]; exact ht)
    rw [Wave.get_removeGo i t i t ht ht, if_pos ⟨rfl, rfl⟩] at this
    cases this

/-- `WaveInv` is preserved by the mutating branch of a successful in-range `remove`. -/
theorem waveInv_removeGo {w : Wave} (hw : WaveInv w) (i t : ℕ) (hi : i < w.size)
    (ht : t < w.patternCount) (hget : w.get i t = true) : WaveInv (w.removeGo i t) := by
  intro j hj
  have hst := Wave.removeGo_statics w i t
  rw [hst.1] at hj
  by_cases hji : j = i
  · subst hji
    obtain ⟨hc, hs, hp, -, -, -⟩ := hw j hj
    have hmemo := Wave.removeGo_memo j t hj
    have hrec := recompute_removeGo_self j t ht hget
    have hcpos : 0 < recomputeCount w j := Finset.card_pos.2
      ⟨t, Finset.mem_filter.2 ⟨Finset.mem_range.2 ht, hget⟩⟩
    refine ⟨?_, ?_, ?_, ?_, ?_, ?_⟩
    · rw [hmemo.1, hc]
      unfold dec32
      rw [if_neg (by omega)]
      omega
    · rw [hmemo.2.1, hs, hrec.2.1]
    · rw [hmemo.2.2.1, hp, hrec.2.2.1]
    · intro hpos
      rw [hmemo.2.1] at hpos ⊢
      rw [(hmemo.2.2.2.1 hpos).1, hst.2.2.2.2.1]
    · intro hf
      exact absurd hf hrec.2.2.2
    · intro _
      by_cases hpos : 0 < w.memo.sum j - w.weights t
      · have hent := (hmemo.2.2.2.1 hpos).2
        have hls := (hmemo.2.2.2.1 hpos).1
        rw [hent, if_pos (by rw [hmemo.2.1]; exact hpos), hls, hmemo.2.1, hmemo.2.2.1]
      · have hent := (hmemo.2.2.2.2 hpos).2
        rw [hent, if_neg (by rw [hmemo.2.1]; exact hpos)]
  · obtain ⟨hc, hs, hp, hl, he1, he2⟩ := hw j hj
    have hmo := Wave.removeGo_memo_other (w := w) i t j hji
    have hro := recompute_removeGo_other (w := w) i t j ht hji
    refine ⟨?_, ?_, ?_, ?_, ?_, ?_⟩
    · rw [hmo.1, hc, hro.1]
    · rw [hmo.2.1, hs, hro.2.1]
    · rw [hmo.2.2.1, hp, hro.2.2.1]
    · intro hpos
      rw [hmo.2.1] at hpos ⊢
      rw [hmo.2.2.2.1, hst.2.2.2.2.1]
      exact hl hpos
    · intro hf
      rw [hmo.2.2.2.2, hst.2.2.2.2.2.1]
      exact he1 (hro.2.2.2.1 hf)
    · intro hnf
      rw [hmo.2.2.2.2, hmo.2.1, hmo.2.2.1, hmo.2.2.2.1]
      exact he2 fun hf => hnf ((hro.2.2.2).2 hf)

/-- `WaveInv` is preserved by any in-range `remove`. -/
theorem waveInv_remove {w : Wave} (hw : WaveInv w) (i t : ℕ) (hi : i < w.size)
    (ht : t < w.patternCount) : WaveInv (w.remove i t).2 := by
  by_cases hget : w.get i t = true
  · rw [Wave.remove_of_get_true hget]
    exact waveInv_removeGo hw i t hi ht hget
  · have hlt : i * w.patternCount + t < w.size * w.patternCount := flatIdx_lt hi ht
    have hdf : w.data (i * w.patternCount + t) = false := by
      cases hdb : w.data (i * w.patternCount + t) with
      | false => rfl
      | true => exact absurd (Wave.get_iff.2 ⟨hlt, hdb⟩) hget
    rw [Wave.remove_of_absent hlt hdf]
    exact hw

/-- `WaveInv` is preserved by the removal loop of `collapse`. -/
theorem waveInv_removeOthers {i : ℕ} {sel : ℤ} (l : List ℕ) :
    ∀ (w : Wave), WaveInv w → i < w.size → (∀ p ∈ l, p < w.patternCount) →
      WaveInv (removeOthers i sel l w) := by
  induction l with
  | nil =>
    intro w hw _ _
    simpa [removeOthers] using hw
  | cons p rest ih =>
    intro w hw hi hl
    rw [removeOthers]
    split
    · have hst := Wave.remove_statics w i p
      refine ih _ (waveInv_remove hw i p hi (hl p (List.mem_cons_self p rest))) ?_ ?_
      · rw [hst.1]
        exact hi
      · intro q hq
        rw [hst.2.1]
        exact hl q (List.mem_cons_of_mem p hq)
    · exact ih w hw hi fun q hq => hl q (List.mem_cons_of_mem p hq)

/-- `WaveInv` is preserved by `collapse`. -/
theorem waveInv_collapse {w : Wave} (hw : WaveInv w) (i : ℕ) (rng : Random)
    (hi : i < w.size) : WaveInv (w.collapse i rng).2.1 := by
  unfold Wave.collapse
  dsimp only
  split
  · exact hw
  · split
    · split <;> exact hw
    · exact waveInv_removeOthers (List.range w.patternCount) w hw hi
        fun q hq => List.mem_range.1 hq

/-- Any wave in the construction-time shape (full masks, memo at the starting
values) satisfies `WaveInv`.  Instantiated by `Wave.create` and `Wave.clear`. -/
theorem waveInv_fresh (w : Wave)
    (hdata : w.data = fun _ => true)
    (hsum : w.memo.sum = fun _ => ∑ t ∈ Finset.range w.patternCount, w.weights t)
    (hpl : w.memo.plogpSum = fun _ => ∑ t ∈ Finset.range w.patternCount, w.plogp t)
    (hls : w.memo.logSum = fun _ => w.lg (∑ t ∈ Finset.range w.patternCount, w.weights t))
    (hpc : w.memo.patternCount = fun _ => w.patternCount)
    (hent : w.memo.entropy = fun _ => w.startingEntropy) : WaveInv w := by
  intro i hi
  have hget : ∀ t < w.patternCount, w.get i t = true := by
    intro t ht
    refine Wave.get_iff.2 ⟨flatIdx_lt hi ht, ?_⟩
    rw [hdata]
  have hfull : maskFull w i := hget
  have hfilter : ((Finset.range w.patternCount).filter fun t => w.get i t = true)
      = Finset.range w.patternCount :=
    Finset.filter_true_of_mem fun t htm => hget t (Finset.mem_range.1 htm)
  refine ⟨?_, ?_, ?_, ?_, ?_, ?_⟩
  · rw [hpc]
    unfold recomputeCount
    rw [hfilter, Finset.card_range]
  · rw [hsum]
    unfold recomputeSum
    refine Finset.sum_congr rfl fun t htm => ?_
    rw [if_pos]
    exact hget t (Finset.mem_range.1 htm) ▸ rfl
  · rw [hpl]
    unfold recomputePlogpSum
    refine Finset.sum_congr rfl fun t htm => ?_
    rw [if_pos]
    exact hget t (Finset.mem_range.1 htm) ▸ rfl
  · intro _
    rw [hls, hsum]
  · intro _
    rw [hent]
  · intro hnf
    exact absurd hfull hnf

/-- Every reachable wave state satisfies the invariant. -/
theorem waveReachable_inv {width height : ℕ} {ws : List ℚ} {lg : ℚ → ℚ} {w : Wave}
    (h : WaveReachable width height ws lg w) : WaveInv w := by
  induction h with
  | create => exact waveInv_fresh _ rfl rfl rfl rfl rfl rfl
  | remove w i t hw hi ht ih => exact waveInv_remove ih i t hi ht
  | collapse w i rng hw hi ih => exact waveInv_collapse ih i rng hi
  | clear w hw ih => exact waveInv_fresh _ rfl rfl rfl rfl rfl rfl

/-! ## Monotonicity of the possibility masks -/

/-- `remove` never sets a bit: any pattern possible afterwards was possible before. -/
theorem Wave.get_remove_mono {w : Wave} (i t j t' : ℕ)
    (h : (w.remove i t).2.get j t' = true) : w.get j t' = true := by
  by_cases hc : i * w.patternCount + t < w.size * w.patternCount ∧
      w.data (i * w.patternCount + t) = false
  · unfold Wave.remove at h
    dsimp only at h
    rw [if_pos hc] at h
    exact h
  · unfold Wave.remove at h
    dsimp only at h
    rw [if_neg hc] at h
    have hst := Wave.removeGo_statics w i t
    unfold Wave.get at h ⊢
    rw [hst.1, hst.2.1, Wave.removeGo_data] at h
    rw [Bool.and_eq_true, decide_eq_true_eq] at h ⊢
    obtain ⟨hk, hd⟩ := h
    refine ⟨hk, ?_⟩
    unfold updF at hd
    by_cases he : j * w.patternCount + t' = i * w.patternCount + t ∧
        i * w.patternCount + t < w.size * w.patternCount
    · rw [if_pos he] at hd
      cases hd
    · rw [if_neg he] at hd
      exact hd

/-- `remove` touches no memo entry of other cells. -/
theorem Wave.remove_memo_other {w : Wave} (i t j : ℕ) (hj : j ≠ i) :
    (w.remove i t).2.memo.patternCount j = w.memo.patternCount j ∧
    (w.remove i t).2.memo.sum j = w.memo.sum j ∧
    (w.remove i t).2.memo.plogpSum j = w.memo.plogpSum j ∧
    (w.remove i t).2.memo.logSum j = w.memo.logSum j ∧
    (w.remove i t).2.memo.entropy j = w.memo.entropy j := by
  unfold Wave.remove
  dsimp only
  split
  · exact ⟨rfl, rfl, rfl, rfl, rfl⟩
  · exact Wave.removeGo_memo_other (w := w) i t j hj

/-- For in-range pattern indices, `remove` changes no bit of other cells. -/
theorem Wave.remove_get_other {w : Wave} (i t j t' : ℕ) (hj : j ≠ i)
    (ht : t < w.patternCount) (ht' : t' < w.patternCount) :
    (w.remove i t).2.get j t' = w.get j t' := by
  unfold Wave.remove
  dsimp only
  split
  · rfl
  · rw [Wave.get_removeGo i t j t' ht ht', if_neg]
    rintro ⟨rfl, -⟩
    exact hj rfl

/-- `removeOthers` preserves the wave dimensions. -/
theorem removeOthers_statics {i : ℕ} {sel : ℤ} (l : List ℕ) :
    ∀ w : Wave, (removeOthers i sel l w).size = w.size ∧
      (removeOthers i sel l w).patternCount = w.patternCount := by
  induction l with
  | nil => exact fun w => ⟨rfl, rfl⟩
  | cons p rest ih =>
    intro w
    rw [removeOthers]
    split
    · have hst := Wave.remove_statics w i p
      have := ih (w.remove i p).2
      exact ⟨this.1.trans hst.1, this.2.trans hst.2.1⟩
    · exact ih w

/-- `removeOthers` never sets a bit. -/
theorem removeOthers_get_mono {i : ℕ} {sel : ℤ} (l : List ℕ) :
    ∀ (w : Wave) (j t' : ℕ), (removeOthers i sel l w).get j t' = true →
      w.get j t' = true := by
  induction l with
  | nil => exact fun w j t' h => h
  | cons p rest ih =>
    intro w j t' h
    rw [removeOthers] at h
    split at h
    · exact Wave.get_remove_mono i p j t' (ih _ j t' h)
    · exact ih w j t' h

/-- `removeOthers` touches no memo entry of other cells. -/
theorem removeOthers_memo_other {i : ℕ} {sel : ℤ} (l : List ℕ) :
    ∀ (w : Wave) (j : ℕ), j ≠ i →
      (removeOthers i sel l w).memo.patternCount j = w.memo.patternCount j := by
  induction l with
  | nil => exact fun w j _ => rfl
  | cons p rest ih =>
    intro w j hj
    rw [removeOthers]
    split
    · rw [ih _ j hj, (Wave.remove_memo_other (w := w) i p j hj).1]
    · exact ih w j hj

/-- For in-range pattern indices, `removeOthers` changes no bit of other cells. -/
theorem removeOthers_get_other {i : ℕ} {sel : ℤ} (l : List ℕ) :
    ∀ (w : Wave) (j t' : ℕ), j ≠ i → t' < w.patternCount →
      (∀ p ∈ l, p < w.patternCount) →
      (removeOthers i sel l w).get j t' = w.get j t' := by
  induction l with
  | nil => exact fun w j t' _ _ _ => rfl
  | cons p rest ih =>
    intro w j t' hj ht' hl
    rw [removeOthers]
    split
    · have hst := Wave.remove_statics w i p
      rw [ih _ j t' hj (by rw [hst.2.1]; exact ht')
          (fun q hq => by rw [hst.2.1]; exact hl q (List.mem_cons_of_mem p hq))]
      exact Wave.remove_get_other i p j t' hj (hl p (List.mem_cons_self p rest)) ht'
    · exact ih w j t' hj ht' fun q hq => hl q (List.mem_cons_of_mem p hq)

/-- The selected pattern's bit survives `removeOthers`. -/
theorem removeOthers_get_sel {i : ℕ} (sel' : ℕ) (l : List ℕ) :
    ∀ w : Wave, sel' < w.patternCount → (∀ p ∈ l, p < w.patternCount) →
      (removeOthers i (sel' : ℤ) l w).get i sel' = w.get i sel' := by
  induction l with
  | nil => exact fun w _ _ => rfl
  | cons p rest ih =>
    intro w hsel hl
    rw [removeOthers]
    split
    · rename_i hb
      have hne : p ≠ sel' := by
        intro he
        exact hb.1 (by rw [he])
      have hst := Wave.remove_statics w i p
      rw [ih _ (by rw [hst.2.1]; exact hsel)
          (fun q hq => by rw [hst.2.1]; exact hl q (List.mem_cons_of_mem p hq))]
      unfold Wave.remove
      dsimp only
      split
      · rfl
      · rw [Wave.get_removeGo i p i sel' (hl p (List.mem_cons_self p rest)) hsel, if_neg]
        rintro ⟨-, he⟩
        exact hne he.symm
    · exact ih w hsel fun q hq => hl q (List.mem_cons_of_mem p hq)

/-- Every listed pattern other than the selected one is impossible after
`removeOthers`. -/
theorem removeOthers_cleared {i : ℕ} {sel : ℤ} (l : List ℕ) :
    ∀ w : Wave, (∀ p ∈ l, p < w.patternCount) →
      ∀ t' ∈ l, (t' : ℤ) ≠ sel → (removeOthers i sel l w).get i t' = false := by
  induction l with
  | nil =>
    intro w _ t' ht'
    cases ht'
  | cons p rest ih =>
    intro w hl t' ht' hne
    rw [removeOthers]
    rcases List.mem_cons.1 ht' with he | hmem
    · subst he
      split
      · rename_i hb
        have hafter : ((w.remove i t').2).get i t' = false := by
          rw [Wave.remove_of_get_true hb.2, Wave.get_removeGo i t' i t'
            (hl t' (List.mem_cons_self t' rest)) (hl t' (List.mem_cons_self t' rest)),
            if_pos ⟨rfl, rfl⟩]
        cases hres : (removeOthers i sel rest (w.remove i t').2).get i t' with
        | false => rfl
        | true =>
          rw [removeOthers_get_mono rest _ i t' hres] at hafter
          cases hafter
      · rename_i hb
        have hget : w.get i t' = false := by
          cases hgb : w.get i t' with
          | false => rfl
          | true => exact absurd ⟨hne, hgb⟩ hb
        cases hres : (removeOthers i sel rest w).get i t' with
        | false => rfl
        | true =>
          rw [removeOthers_get_mono rest w i t' hres] at hget
          cases hget
    · split
      · rename_i hb
        have hst := Wave.remove_statics w i p
        exact ih _ (fun q hq => by rw [hst.2.1]; exact hl q (List.mem_cons_of_mem p hq))
          t' hmem hne
      · exact ih w (fun q hq => hl q (List.mem_cons_of_mem p hq)) t' hmem hne

/-! ## Selection lemmas for collapse -/

/-- `weightedSelect` only returns a listed, still-possible pattern. -/
theorem weightedSelect_mem {w : Wave} {i : ℕ} {target : ℚ} (l : List ℕ) :
    ∀ (c : ℚ) (p : ℕ), weightedSelect w i target l c = some p →
      p ∈ l ∧ w.get i p = true := by
  induction l with
  | nil =>
    intro c p h
    cases h
  | cons q rest ih =>
    intro c p h
    rw [weightedSelect] at h
    split at h
    · dsimp only at h
      split at h
      · cases h
        exact ⟨List.mem_cons_self q rest, by assumption⟩
      · have := ih _ p h
        exact ⟨List.mem_cons_of_mem q this.1, this.2⟩
    · have := ih _ p h
      exact ⟨List.mem_cons_of_mem q this.1, this.2⟩

/-- `findFirstPossible` only returns a listed, still-possible pattern. -/
theorem findFirstPossible_mem {w : Wave} {i : ℕ} (l : List ℕ) :
    ∀ p : ℕ, findFirstPossible w i l = some p → p ∈ l ∧ w.get i p = true := by
  induction l with
  | nil =>
    intro p h
    cases h
  | cons q rest ih =>
    intro p h
    rw [findFirstPossible] at h
    split at h
    · cases h
      exact ⟨List.mem_cons_self q rest, by assumption⟩
    · have := ih p h
      exact ⟨List.mem_cons_of_mem q this.1, this.2⟩

/-- `findFirstPossible` succeeds when some listed pattern is possible. -/
theorem findFirstPossible_some {w : Wave} {i : ℕ} (l : List ℕ) :
    (∃ p ∈ l, w.get i p = true) → ∃ p, findFirstPossible w i l = some p := by
  induction l with
  | nil =>
    rintro ⟨p, hp, -⟩
    cases hp
  | cons q rest ih =>
    rintro ⟨p, hp, hg⟩
    rw [findFirstPossible]
    by_cases hq : w.get i q = true
    · exact ⟨q, by rw [if_pos hq]⟩
    · rw [if_neg hq]
      rcases List.mem_cons.1 hp with he | hm
      · subst he
        exact absurd hg hq
      · exact ih ⟨p, hm, hg⟩

/-! ## Count-invariant preservation and collapse characterization -/

/-- The count component of the invariant is preserved by in-range `remove`. -/
theorem waveCountInv_remove {w : Wave} (hw : WaveCountInv w) (i t : ℕ)
    (hi : i < w.size) (ht : t < w.patternCount) : WaveCountInv (w.remove i t).2 := by
  by_cases hget : w.get i t = true
  · rw [Wave.remove_of_get_true hget]
    dsimp only
    intro j hj
    have hst := Wave.removeGo_statics w i t
    rw [hst.1] at hj
    by_cases hji : j = i
    · subst hji
      have hcpos : 0 < recomputeCount w j := Finset.card_pos.2
        ⟨t, Finset.mem_filter.2 ⟨Finset.mem_range.2 ht, hget⟩⟩
      rw [(Wave.removeGo_memo j t hj).1, hw j hj]
      unfold dec32
      rw [if_neg (by omega)]
      have := (recompute_removeGo_self j t ht hget).1
      omega
    · rw [(Wave.removeGo_memo_other (w := w) i t j hji).1, hw j hj,
        (recompute_removeGo_other (w := w) i t j ht hji).1]
  · have hlt : i * w.patternCount + t < w.size * w.patternCount := flatIdx_lt hi ht
    have hdf : w.data (i * w.patternCount + t) = false := by
      cases hdb : w.data (i * w.patternCount + t) with
      | false => rfl
      | true => exact absurd (Wave.get_iff.2 ⟨hlt, hdb⟩) hget
    rw [Wave.remove_of_absent hlt hdf]
    exact hw

/-- The count component of the invariant is preserved by `removeOthers`. -/
theorem waveCountInv_removeOthers {i : ℕ} {sel : ℤ} (l : List ℕ) :
    ∀ w : Wave, WaveCountInv w → i < w.size → (∀ p ∈ l, p < w.patternCount) →
      WaveCountInv (removeOthers i sel l w) := by
  induction l with
  | nil => exact fun w hw _ _ => hw
  | cons p rest ih =>
    intro w hw hi hl
    rw [removeOthers]
    split
    · have hst := Wave.remove_statics w i p
      refine ih _ (waveCountInv_remove hw i p hi (hl p (List.mem_cons_self p rest))) ?_ ?_
      · rw [hst.1]
        exact hi
      · intro q hq
        rw [hst.2.1]
        exact hl q (List.mem_cons_of_mem p hq)
    · exact ih w hw hi fun q hq => hl q (List.mem_cons_of_mem p hq)

/-- With at least two remaining patterns, `collapse` selects a still-possible
pattern (never `-1`), leaves the cell with exactly one remaining pattern, and
leaves every other cell's remaining count untouched. -/
theorem collapse_spec {w : Wave} (hw : WaveCountInv w) (i : ℕ) (rng : Random)
    (hi : i < w.size) (h2 : 2 ≤ w.memo.patternCount i) :
    ∃ sel : ℕ, sel < w.patternCount ∧ w.get i sel = true ∧
      (w.collapse i rng).1 = (sel : ℤ) ∧
      (w.collapse i rng).2.1.memo.patternCount i = 1 ∧
      (∀ j, j ≠ i → (w.collapse i rng).2.1.memo.patternCount j = w.memo.patternCount j) := by
  have hex : ∃ t, t < w.patternCount ∧ w.get i t = true := by
    have hcpos : 0 < recomputeCount w i := by
      rw [← hw i hi]
      omega
    obtain ⟨t, htm⟩ := Finset.card_pos.1 hcpos
    have := Finset.mem_filter.1 htm
    exact ⟨t, Finset.mem_range.1 this.1, this.2⟩
  unfold Wave.collapse
  dsimp only
  rw [if_neg (by omega), if_neg (by omega)]
  rcases hrng : rng.next with ⟨u, rng2⟩
  dsimp only
  have hmain : ∀ sel : ℕ, sel < w.patternCount → w.get i sel = true →
      (removeOthers i (sel : ℤ) (List.range w.patternCount) w).memo.patternCount i = 1 ∧
      (∀ j, j ≠ i →
        (removeOthers i (sel : ℤ) (List.range w.patternCount) w).memo.patternCount j
          = w.memo.patternCount j) := by
    intro sel hsel hgsel
    have hbounds : ∀ p ∈ List.range w.patternCount, p < w.patternCount :=
      fun p hp => List.mem_range.1 hp
    have hcinv := @waveCountInv_removeOthers i (sel : ℤ)
      (List.range w.patternCount) w hw hi hbounds
    have hst := @removeOthers_statics i (sel : ℤ) (List.range w.patternCount) w
    constructor
    · rw [hcinv i (by rw [hst.1]; exact hi)]
      unfold recomputeCount
      rw [hst.2]
      have hfe : ((Finset.range w.patternCount).filter fun t' =>
          (removeOthers i (sel : ℤ) (List.range w.patternCount) w).get i t' = true)
            = {sel} := by
        ext t'
        simp only [Finset.mem_filter, Finset.mem_range, Finset.mem_singleton]
        constructor
        · rintro ⟨hr, hg⟩
          by_cases he : t' = sel
          · exact he
          · rw [removeOthers_cleared (List.range w.patternCount) w hbounds t'
              (List.mem_range.2 hr) (by exact_mod_cast he)] at hg
            cases hg
        · intro he
          subst he
          refine ⟨hsel, ?_⟩
          rw [removeOthers_get_sel t' (List.range w.patternCount) w hsel hbounds]
          exact hgsel
      rw [hfe, Finset.card_singleton]
    · intro j hj
      exact removeOthers_memo_other (List.range w.patternCount) w j hj
  cases hws : weightedSelect w i (u * w.memo.sum i) (List.range w.patternCount) 0 with
  | some p =>
    have hp := weightedSelect_mem (List.range w.patternCount) 0 p hws
    have hplt : p < w.patternCount := List.mem_range.1 hp.1
    refine ⟨p, hplt, hp.2, rfl, ?_, ?_⟩
    · exact (hmain p hplt hp.2).1
    · exact (hmain p hplt hp.2).2
  | none =>
    have hexrev : ∃ q ∈ (List.range w.patternCount).reverse, w.get i q = true := by
      obtain ⟨t, ht, hg⟩ := hex
      exact ⟨t, List.mem_reverse.2 (List.mem_range.2 ht), hg⟩
    obtain ⟨q, hq⟩ := findFirstPossible_some (List.range w.patternCount).reverse hexrev
    have hqm := findFirstPossible_mem (List.range w.patternCount).reverse q hq
    have hqlt : q < w.patternCount := List.mem_range.1 (List.mem_reverse.1 hqm.1)
    rw [hq]
    refine ⟨q, hqlt, hqm.2, rfl, ?_, ?_⟩
    · exact (hmain q hqlt hqm.2).1
    · exact (hmain q hqlt hqm.2).2

/-! ## Propagation lemmas -/

/-- An existing neighbor index lies within the grid. -/
theorem neighborIndex_lt {W H : ℕ} {per : Bool} {i d nI : ℕ} (hW : 0 < W) (hH : 0 < H)
    (h : neighborIndex W H per i d = some nI) : nI < W * H := by
  unfold neighborIndex at h
  dsimp only at h
  split at h
  · injection h with he
    subst he
    set x2 : ℤ := ((i % W : ℕ) : ℤ) + DX.getD d 0 with hx2
    set y2 : ℤ := ((i / W : ℕ) : ℤ) + DY.getD d 0 with hy2
    have hWZ : (0 : ℤ) < (W : ℤ) := by exact_mod_cast hW
    have hHZ : (0 : ℤ) < (H : ℤ) := by exact_mod_cast hH
    have hx3a : 0 ≤ (x2 + W) % W := Int.emod_nonneg _ (by omega)
    have hx3b : (x2 + W) % W < W := Int.emod_lt_of_pos _ hWZ
    have hy3a : 0 ≤ (y2 + H) % H := Int.emod_nonneg _ (by omega)
    have hy3b : (y2 + H) % H < H := Int.emod_lt_of_pos _ hHZ
    have hval : (x2 + W) % W + (y2 + H) % H * W < (W : ℤ) * H := by nlinarith
    have hnn : 0 ≤ (x2 + W) % W + (y2 + H) % H * W := by positivity
    rw [Int.toNat_lt hnn]
    exact_mod_cast hval
  · split at h
    · rename_i hb
      injection h with he
      subst he
      obtain ⟨h1, h2, h3, h4⟩ := hb
      have hval : ((i % W : ℕ) : ℤ) + DX.getD d 0 +
          (((i / W : ℕ) : ℤ) + DY.getD d 0) * W < (W : ℤ) * H := by nlinarith
      have hnn : 0 ≤ ((i % W : ℕ) : ℤ) + DX.getD d 0 +
          (((i / W : ℕ) : ℤ) + DY.getD d 0) * W := by nlinarith
      rw [Int.toNat_lt hnn]
      exact_mod_cast hval
    · cases h

/-- The inner compat loop preserves the wave dimensions. -/
theorem processCompatList_statics (T len nI oppDir : ℕ) (ts : List ℕ) :
    ∀ s : PState,
      (processCompatList T len nI oppDir ts s).1.wave.size = s.wave.size ∧
      (processCompatList T len nI oppDir ts s).1.wave.patternCount = s.wave.patternCount := by
  induction ts with
  | nil => exact fun s => ⟨rfl, rfl⟩
  | cons cp rest ih =>
    intro s
    rw [processCompatList]
    dsimp only
    split
    · split
      · split
        · exact ⟨(Wave.remove_statics s.wave nI cp).1, (Wave.remove_statics s.wave nI cp).2.1⟩
        · have hst := Wave.remove_statics s.wave nI cp
          have := ih ⟨(s.wave.remove nI cp).2,
            updF len s.compatible (nI * T * 4 + cp * 4 + oppDir)
              (s.compatible (nI * T * 4 + cp * 4 + oppDir) - 1), (nI, cp) :: s.stack⟩
          exact ⟨this.1.trans hst.1, this.2.trans hst.2.1⟩
      · exact ih _
    · exact ih _

/-- The inner compat loop never sets a mask bit. -/
theorem processCompatList_mono (T len nI oppDir : ℕ) (ts : List ℕ) :
    ∀ (s : PState) (j t' : ℕ),
      (processCompatList T len nI oppDir ts s).1.wave.get j t' = true →
      s.wave.get j t' = true := by
  induction ts with
  | nil => exact fun s j t' h => h
  | cons cp rest ih =>
    intro s j t' h
    rw [processCompatList] at h
    dsimp only at h
    split at h
    · split at h
      · split at h
        · exact Wave.get_remove_mono nI cp j t' h
        · have h2 := ih _ j t' h
          exact Wave.get_remove_mono nI cp j t' h2
      · have h2 := ih _ j t' h
        exact h2
    · have h2 := ih _ j t' h
      exact h2

/-- Without an abort, the inner compat loop creates no zero-count cell. -/
theorem processCompatList_counts (T len nI oppDir : ℕ) (ts : List ℕ) :
    ∀ s : PState, (processCompatList T len nI oppDir ts s).2 = false →
      ∀ j, s.wave.memo.patternCount j ≠ 0 →
        (processCompatList T len nI oppDir ts s).1.wave.memo.patternCount j ≠ 0 := by
  induction ts with
  | nil => exact fun s _ j hj => hj
  | cons cp rest ih =>
    intro s hfalse j hj
    rw [processCompatList] at hfalse ⊢
    dsimp only at hfalse ⊢
    split at hfalse
    · rename_i hcond
      rw [if_pos hcond]
      split at hfalse
      · rename_i hget
        rw [if_pos hget]
        split at hfalse
        · cases hfalse
        · rename_i hrem
          rw [if_neg hrem]
          refine ih _ hfalse j ?_
          by_cases hji : j = nI
          · subst hji
            exact hrem
          · rw [(Wave.remove_memo_other (w := s.wave) nI cp j hji).1]
            exact hj
      · rename_i hget
        rw [if_neg hget]
        exact ih _ hfalse j hj
    · rename_i hcond
      rw [if_neg hcond]
      exact ih _ hfalse j hj

/-- An abort of the inner compat loop leaves the neighbor cell at zero count. -/
theorem processCompatList_abort (T len nI oppDir : ℕ) (ts : List ℕ) :
    ∀ s : PState, (processCompatList T len nI oppDir ts s).2 = true →
      (processCompatList T len nI oppDir ts s).1.wave.memo.patternCount nI = 0 := by
  induction ts with
  | nil =>
    intro s h
    cases h
  | cons cp rest ih =>
    intro s h
    rw [processCompatList] at h ⊢
    dsimp only at h ⊢
    split at h
    · rename_i hcond
      rw [if_pos hcond]
      split at h
      · rename_i hget
        rw [if_pos hget]
        split at h
        · rename_i hrem
          rw [if_pos hrem]
          exact hrem
        · rename_i hrem
          rw [if_neg hrem]
          exact ih _ h
      · rename_i hget
        rw [if_neg hget]
        exact ih _ h
    · rename_i hcond
      rw [if_neg hcond]
      exact ih _ h

/-- The inner compat loop preserves the count invariant (wellformed inputs). -/
theorem processCompatList_countInv (T len nI oppDir : ℕ) (ts : List ℕ) :
    ∀ s : PState, WaveCountInv s.wave → nI < s.wave.size →
      (∀ q ∈ ts, q < s.wave.patternCount) →
      WaveCountInv (processCompatList T len nI oppDir ts s).1.wave := by
  induction ts with
  | nil => exact fun s hw _ _ => hw
  | cons cp rest ih =>
    intro s hw hnI hts
    rw [processCompatList]
    dsimp only
    split
    · split
      · rename_i hget
        have hrm := waveCountInv_remove hw nI cp hnI (hts cp (List.mem_cons_self cp rest))
        have hst := Wave.remove_statics s.wave nI cp
        split
        · exact hrm
        · refine ih _ hrm ?_ ?_
          · dsimp only
            rw [hst.1]
            exact hnI
          · intro q hq
            dsimp only
            rw [hst.2.1]
            exact hts q (List.mem_cons_of_mem cp hq)
      · exact ih _ hw hnI fun q hq => hts q (List.mem_cons_of_mem cp hq)
    · exact ih _ hw hnI fun q hq => hts q (List.mem_cons_of_mem cp hq)

/-- Lift of the compat-loop lemmas to one direction. -/
theorem processDir_statics (pd : PropagatorData) (W H T : ℕ) (per : Bool)
    (i t d : ℕ) (s : PState) :
    (processDir pd W H T per i t d s).1.wave.size = s.wave.size ∧
    (processDir pd W H T per i t d s).1.wave.patternCount = s.wave.patternCount := by
  unfold processDir
  split
  · exact ⟨rfl, rfl⟩
  · exact processCompatList_statics _ _ _ _ _ _

/-- One direction never sets a mask bit. -/
theorem processDir_mono (pd : PropagatorData) (W H T : ℕ) (per : Bool)
    (i t d : ℕ) (s : PState) (j t' : ℕ)
    (h : (processDir pd W H T per i t d s).1.wave.get j t' = true) :
    s.wave.get j t' = true := by
  unfold processDir at h
  split at h
  · exact h
  · exact processCompatList_mono _ _ _ _ _ _ j t' h

/-- Without an abort, one direction creates no zero-count cell. -/
theorem processDir_counts (pd : PropagatorData) (W H T : ℕ) (per : Bool)
    (i t d : ℕ) (s : PState) (hfalse : (processDir pd W H T per i t d s).2 = false)
    (j : ℕ) (hj : s.wave.memo.patternCount j ≠ 0) :
    (processDir pd W H T per i t d s).1.wave.memo.patternCount j ≠ 0 := by
  unfold processDir at hfalse ⊢
  split at hfalse
  · exact hj
  · exact processCompatList_counts _ _ _ _ _ _ hfalse j hj

/-- An abort of one direction leaves some in-grid cell at zero count. -/
theorem processDir_abort (pd : PropagatorData) (W H T : ℕ) (per : Bool)
    (i t d : ℕ) (s : PState) (hW : 0 < W) (hH : 0 < H)
    (h : (processDir pd W H T per i t d s).2 = true) :
    ∃ j < W * H, (processDir pd W H T per i t d s).1.wave.memo.patternCount j = 0 := by
  unfold processDir at h ⊢
  split at h
  · cases h
  · rename_i nI hn
    exact ⟨nI, neighborIndex_lt hW hH hn, processCompatList_abort _ _ _ _ _ _ h⟩

/-- One direction preserves the count invariant (wellformed inputs). -/
theorem processDir_countInv (pd : PropagatorData) (W H T : ℕ) (per : Bool)
    (i t d : ℕ) (s : PState) (hw : WaveCountInv s.wave) (hW : 0 < W) (hH : 0 < H)
    (hsz : s.wave.size = W * H)
    (hpd : ∀ a b : ℕ, ∀ q ∈ pd.at a b, q < s.wave.patternCount) :
    WaveCountInv (processDir pd W H T per i t d s).1.wave := by
  unfold processDir
  split
  · exact hw
  · rename_i nI hn
    exact processCompatList_countInv _ _ _ _ _ _ hw
      (by rw [hsz]; exact neighborIndex_lt hW hH hn) (hpd t d)

/-- The four-direction loop preserves the wave dimensions. -/
theorem processDirList_statics (pd : PropagatorData) (W H T : ℕ) (per : Bool)
    (i t : ℕ) (ds : List ℕ) :
    ∀ s : PState,
      (processDirList pd W H T per i t ds s).1.wave.size = s.wave.size ∧
      (processDirList pd W H T per i t ds s).1.wave.patternCount = s.wave.patternCount := by
  induction ds with
  | nil => exact fun s => ⟨rfl, rfl⟩
  | cons d rest ih =>
    intro s
    rw [processDirList]
    split
    · rename_i s2 heq
      have h1 := processDir_statics pd W H T per i t d s
      rw [heq] at h1
      exact h1
    · rename_i s2 heq
      have h1 := processDir_statics pd W H T per i t d s
      rw [heq] at h1
      have h2 := ih s2
      exact ⟨h2.1.trans h1.1, h2.2.trans h1.2⟩

/-- The four-direction loop never sets a mask bit. -/
theorem processDirList_mono (pd : PropagatorData) (W H T : ℕ) (per : Bool)
    (i t : ℕ) (ds : List ℕ) :
    ∀ (s : PState) (j t' : ℕ),
      (processDirList pd W H T per i t ds s).1.wave.get j t' = true →
      s.wave.get j t' = true := by
  induction ds with
  | nil => exact fun s j t' h => h
  | cons d rest ih =>
    intro s j t' h
    rw [processDirList] at h
    split at h
    · rename_i s2 heq
      have := processDir_mono pd W H T per i t d s j t'
      rw [heq] at this
      exact this h
    · rename_i s2 heq
      have := processDir_mono pd W H T per i t d s j t'
      rw [heq] at this
      exact this (ih s2 j t' h)

/-- Without an abort, the four-direction loop creates no zero-count cell. -/
theorem processDirList_counts (pd : PropagatorData) (W H T : ℕ) (per : Bool)
    (i t : ℕ) (ds : List ℕ) :
    ∀ s : PState, (processDirList pd W H T per i t ds s).2 = false →
      ∀ j, s.wave.memo.patternCount j ≠ 0 →
        (processDirList pd W H T per i t ds s).1.wave.memo.patternCount j ≠ 0 := by
  induction ds with
  | nil => exact fun s _ j hj => hj
  | cons d rest ih =>
    intro s hfalse j hj
    rw [processDirList] at hfalse ⊢
    split at hfalse
    · cases hfalse
    · rename_i s2 heq
      have hd := processDir_counts pd W H T per i t d s (by rw [heq]) j hj
      rw [heq] at hd
      exact ih s2 hfalse j hd

/-- An abort of the four-direction loop leaves some in-grid cell at zero count. -/
theorem processDirList_abort (pd : PropagatorData) (W H T : ℕ) (per : Bool)
    (i t : ℕ) (ds : List ℕ) (hW : 0 < W) (hH : 0 < H) :
    ∀ s : PState, (processDirList pd W H T per i t ds s).2 = true →
      ∃ j < W * H, (processDirList pd W H T per i t ds s).1.wave.memo.patternCount j = 0 := by
  induction ds with
  | nil =>
    intro s h
    cases h
  | cons d rest ih =>
    intro s h
    rw [processDirList] at h ⊢
    split at h
    · rename_i s2 heq
      have hd := processDir_abort pd W H T per i t d s hW hH (by rw [heq])
      rw [heq] at hd
      exact hd
    · rename_i s2 heq
      exact ih s2 h

/-- The four-direction loop preserves the count invariant (wellformed inputs). -/
theorem processDirList_countInv (pd : PropagatorData) (W H T : ℕ) (per : Bool)
    (i t : ℕ) (ds : List ℕ) :
    ∀ s : PState, WaveCountInv s.wave → 0 < W → 0 < H → s.wave.size = W * H →
      (∀ a b : ℕ, ∀ q ∈ pd.at a b, q < s.wave.patternCount) →
      WaveCountInv (processDirList pd W H T per i t ds s).1.wave := by
  induction ds with
  | nil => exact fun s hw _ _ _ _ => hw
  | cons d rest ih =>
    intro s hw hW hH hsz hpd
    rw [processDirList]
    split
    · rename_i s2 heq
      have := processDir_countInv pd W H T per i t d s hw hW hH hsz hpd
      rw [heq] at this
      exact this
    · rename_i s2 heq
      have hs2 := processDir_countInv pd W H T per i t d s hw hW hH hsz hpd
      have hst := processDir_statics pd W H T per i t d s
      rw [heq] at hs2 hst
      refine ih s2 hs2 hW hH ?_ ?_
      · rw [hst.1]
        exact hsz
      · intro a b q hq
        rw [hst.2]
        exact hpd a b q hq

/-- Unfolding of `propagateLoop` on an empty stack. -/
theorem propagateLoop_nil (pd : PropagatorData) (W H T : ℕ) (per : Bool) (s : PState)
    (h : s.stack = []) : propagateLoop pd W H T per s = (true, s) := by
  rw [propagateLoop, h]

/-- Unfolding of `propagateLoop` when the popped pair hits a contradiction. -/
theorem propagateLoop_cons_true (pd : PropagatorData) (W H T : ℕ) (per : Bool)
    (s : PState) (i t : ℕ) (rest : List (ℕ × ℕ)) (s2 : PState)
    (h : s.stack = (i, t) :: rest)
    (h2 : processDirList pd W H T per i t [0, 1, 2, 3] { s with stack := rest } = (s2, true)) :
    propagateLoop pd W H T per s = (false, s2) := by
  rw [propagateLoop, h]
  dsimp only
  split
  · rename_i s3 heq3
    rw [h2] at heq3
    injection heq3 with e1 e2
    rw [e1]
  · rename_i s3 heq3
    rw [h2] at heq3
    injection heq3 with e1 e2
    cases e2

/-- Unfolding of `propagateLoop` when the popped pair propagates cleanly. -/
theorem propagateLoop_cons_false (pd : PropagatorData) (W H T : ℕ) (per : Bool)
    (s : PState) (i t : ℕ) (rest : List (ℕ × ℕ)) (s2 : PState)
    (h : s.stack = (i, t) :: rest)
    (h2 : processDirList pd W H T per i t [0, 1, 2, 3] { s with stack := rest } = (s2, false)) :
    propagateLoop pd W H T per s = propagateLoop pd W H T per s2 := by
  rw [propagateLoop, h]
  dsimp only
  split
  · rename_i s3 heq3
    rw [h2] at heq3
    injection heq3 with e1 e2
    cases e2
  · rename_i s3 heq3
    rw [h2] at heq3
    injection heq3 with e1 e2
    rw [e1]

/-- A successful `propagate` has drained the stack (fixpoint reached). -/
theorem propagateLoop_true_stack (pd : PropagatorData) (W H T : ℕ) (per : Bool)
    (s : PState) (h : (propagateLoop pd W H T per s).1 = true) :
    (propagateLoop pd W H T per s).2.stack = [] := by
  induction s using propagateLoop.induct pd W H T per with
  | case1 s heq =>
    rw [propagateLoop_nil pd W H T per s heq]
    exact heq
  | case2 s i t rest heq s2 heq2 =>
    rw [propagateLoop_cons_true pd W H T per s i t rest s2 heq heq2] at h
    cases h
  | case3 s i t rest heq s2 heq2 ih =>
    rw [propagateLoop_cons_false pd W H T per s i t rest s2 heq heq2] at h ⊢
    exact ih h

/-- The propagation loop preserves the wave dimensions. -/
theorem propagateLoop_statics (pd : PropagatorData) (W H T : ℕ) (per : Bool)
    (s : PState) :
    (propagateLoop pd W H T per s).2.wave.size = s.wave.size ∧
    (propagateLoop pd W H T per s).2.wave.patternCount = s.wave.patternCount := by
  induction s using propagateLoop.induct pd W H T per with
  | case1 s heq =>
    rw [propagateLoop_nil pd W H T per s heq]
    exact ⟨rfl, rfl⟩
  | case2 s i t rest heq s2 heq2 =>
    rw [propagateLoop_cons_true pd W H T per s i t rest s2 heq heq2]
    have := processDirList_statics pd W H T per i t [0, 1, 2, 3] { s with stack := rest }
    rw [heq2] at this
    exact this
  | case3 s i t rest heq s2 heq2 ih =>
    rw [propagateLoop_cons_false pd W H T per s i t rest s2 heq heq2]
    have := processDirList_statics pd W H T per i t [0, 1, 2, 3] { s with stack := rest }
    rw [heq2] at this
    exact ⟨ih.1.trans this.1, ih.2.trans this.2⟩

/-- The propagation loop never sets a mask bit. -/
theorem propagateLoop_mono (pd : PropagatorData) (W H T : ℕ) (per : Bool)
    (s : PState) (j t' : ℕ)
    (h : (propagateLoop pd W H T per s).2.wave.get j t' = true) :
    s.wave.get j t' = true := by
  induction s using propagateLoop.induct pd W H T per with
  | case1 s heq =>
    rw [propagateLoop_nil pd W H T per s heq] at h
    exact h
  | case2 s i t rest heq s2 heq2 =>
    rw [propagateLoop_cons_true pd W H T per s i t rest s2 heq heq2] at h
    have := processDirList_mono pd W H T per i t [0, 1, 2, 3] { s with stack := rest } j t'
    rw [heq2] at this
    exact this h
  | case3 s i t rest heq s2 heq2 ih =>
    rw [propagateLoop_cons_false pd W H T per s i t rest s2 heq heq2] at h
    have := processDirList_mono pd W H T per i t [0, 1, 2, 3] { s with stack := rest } j t'
    rw [heq2] at this
    exact this (ih h)

/-- A successful propagation creates no zero-count cell. -/
theorem propagateLoop_true_counts (pd : PropagatorData) (W H T : ℕ) (per : Bool)
    (s : PState) (h : (propagateLoop pd W H T per s).1 = true)
    (j : ℕ) (hj : s.wave.memo.patternCount j ≠ 0) :
    (propagateLoop pd W H T per s).2.wave.memo.patternCount j ≠ 0 := by
  induction s using propagateLoop.induct pd W H T per with
  | case1 s heq =>
    rw [propagateLoop_nil pd W H T per s heq]
    exact hj
  | case2 s i t rest heq s2 heq2 =>
    rw [propagateLoop_cons_true pd W H T per s i t rest s2 heq heq2] at h
    cases h
  | case3 s i t rest heq s2 heq2 ih =>
    rw [propagateLoop_cons_false pd W H T per s i t rest s2 heq heq2] at h ⊢
    have := processDirList_counts pd W H T per i t [0, 1, 2, 3] { s with stack := rest }
      (by rw [heq2]) j hj
    rw [heq2] at this
    exact ih h this

/-- A failed propagation leaves some in-grid cell with zero remaining patterns. -/
theorem propagateLoop_false_contra (pd : PropagatorData) (W H T : ℕ) (per : Bool)
    (hW : 0 < W) (hH : 0 < H) (s : PState)
    (h : (propagateLoop pd W H T per s).1 = false) :
    ∃ j < W * H, (propagateLoop pd W H T per s).2.wave.memo.patternCount j = 0 := by
  induction s using propagateLoop.induct pd W H T per with
  | case1 s heq =>
    rw [propagateLoop_nil pd W H T per s heq] at h
    cases h
  | case2 s i t rest heq s2 heq2 =>
    rw [propagateLoop_cons_true pd W H T per s i t rest s2 heq heq2]
    have := processDirList_abort pd W H T per i t [0, 1, 2, 3] hW hH
      { s with stack := rest } (by rw [heq2])
    rw [heq2] at this
    exact this
  | case3 s i t rest heq s2 heq2 ih =>
    rw [propagateLoop_cons_false pd W H T per s i t rest s2 heq heq2] at h ⊢
    exact ih h

/-- The propagation loop preserves the count invariant (wellformed inputs). -/
theorem propagateLoop_countInv (pd : PropagatorData) (W H T : ℕ) (per : Bool)
    (hW : 0 < W) (hH : 0 < H) (s : PState) (hw : WaveCountInv s.wave)
    (hsz : s.wave.size = W * H)
    (hpd : ∀ a b : ℕ, ∀ q ∈ pd.at a b, q < s.wave.patternCount) :
    WaveCountInv (propagateLoop pd W H T per s).2.wave := by
  induction s using propagateLoop.induct pd W H T per with
  | case1 s heq =>
    rw [propagateLoop_nil pd W H T per s heq]
    exact hw
  | case2 s i t rest heq s2 heq2 =>
    rw [propagateLoop_cons_true pd W H T per s i t rest s2 heq heq2]
    have := processDirList_countInv pd W H T per i t [0, 1, 2, 3]
      { s with stack := rest } hw hW hH hsz hpd
    rw [heq2] at this
    exact this
  | case3 s i t rest heq s2 heq2 ih =>
    rw [propagateLoop_cons_false pd W H T per s i t rest s2 heq heq2]
    have hs2 := processDirList_countInv pd W H T per i t [0, 1, 2, 3]
      { s with stack := rest } hw hW hH hsz hpd
    have hst := processDirList_statics pd W H T per i t [0, 1, 2, 3] { s with stack := rest }
    rw [heq2] at hs2 hst
    refine ih hs2 ?_ ?_
    · rw [hst.1]
      exact hsz
    · intro a b q hq
      rw [hst.2]
      exact hpd a b q hq

/-- `propagate` returning true has drained its stack. -/
theorem Propagator.propagate_true_stack (p : Propagator) (w : Wave)
    (h : (p.propagate w).1 = true) : (p.propagate w).2.1.stack = [] := by
  unfold Propagator.propagate at h ⊢
  dsimp only at h ⊢
  exact propagateLoop_true_stack _ _ _ _ _ _ h

/-- `propagate` preserves the wave dimensions. -/
theorem Propagator.propagate_statics (p : Propagator) (w : Wave) :
    (p.propagate w).2.2.size = w.size ∧ (p.propagate w).2.2.patternCount = w.patternCount := by
  unfold Propagator.propagate
  dsimp only
  exact propagateLoop_statics _ _ _ _ _ _

/-- `propagate` never sets a mask bit. -/
theorem Propagator.propagate_mono (p : Propagator) (w : Wave) (j t' : ℕ)
    (h : (p.propagate w).2.2.get j t' = true) : w.get j t' = true := by
  unfold Propagator.propagate at h
  dsimp only at h
  exact propagateLoop_mono _ _ _ _ _ _ j t' h

/-- A successful `propagate` creates no zero-count cell. -/
theorem Propagator.propagate_true_counts (p : Propagator) (w : Wave)
    (h : (p.propagate w).1 = true) (j : ℕ) (hj : w.memo.patternCount j ≠ 0) :
    (p.propagate w).2.2.memo.patternCount j ≠ 0 := by
  unfold Propagator.propagate at h ⊢
  dsimp only at h ⊢
  exact propagateLoop_true_counts _ _ _ _ _ _ h j hj

/-- A failed `propagate` leaves a cell of the grid with zero remaining patterns. -/
theorem Propagator.propagate_false_contra (p : Propagator) (w : Wave)
    (hW : 0 < p.width) (hH : 0 < p.height) (h : (p.propagate w).1 = false) :
    ∃ j < p.width * p.height, (p.propagate w).2.2.memo.patternCount j = 0 := by
  unfold Propagator.propagate at h ⊢
  dsimp only at h ⊢
  exact propagateLoop_false_contra _ _ _ _ _ hW hH _ h

/-- `propagate` preserves the count invariant (wellformed inputs). -/
theorem Propagator.propagate_countInv (p : Propagator) (w : Wave)
    (hW : 0 < p.width) (hH : 0 < p.height) (hw : WaveCountInv w)
    (hsz : w.size = p.width * p.height)
    (hpd : ∀ a b : ℕ, ∀ q ∈ p.propagatorData.at a b, q < w.patternCount) :
    WaveCountInv (p.propagate w).2.2 := by
  unfold Propagator.propagate
  dsimp only
  exact propagateLoop_countInv _ _ _ _ _ hW hH _ hw hsz hpd

/-- `pushRemoved` only grows the stack; every other propagator field is unchanged. -/
theorem pushRemoved_fields {i : ℕ} {sel : ℤ} (l : List ℕ) :
    ∀ p : Propagator,
      (pushRemoved i sel l p).width = p.width ∧
      (pushRemoved i sel l p).height = p.height ∧
      (pushRemoved i sel l p).patternCount = p.patternCount ∧
      (pushRemoved i sel l p).periodic = p.periodic ∧
      (pushRemoved i sel l p).propagatorData = p.propagatorData ∧
      (pushRemoved i sel l p).compatible = p.compatible := by
  induction l with
  | nil => exact fun p => ⟨rfl, rfl, rfl, rfl, rfl, rfl⟩
  | cons t rest ih =>
    intro p
    rw [pushRemoved]
    split
    · exact ih _
    · exact ih _

/-! ## Heuristic scan lemmas -/

/-- The entropy scan either keeps the incoming argmin, returns a listed uncollapsed
cell, or returns `-2` having met a zero-count cell. -/
theorem gmecLoop_result (w : Wave) (l : List ℕ) :
    ∀ (minE : Option ℚ) (am : ℤ) (rng : Random),
      (gmecLoop w l minE am rng).1 = am ∨
      (∃ i ∈ l, (gmecLoop w l minE am rng).1 = (i : ℤ) ∧
        w.memo.patternCount i ≠ 1 ∧ w.memo.patternCount i ≠ 0) ∨
      ((gmecLoop w l minE am rng).1 = -2 ∧ ∃ i ∈ l, w.memo.patternCount i = 0) := by
  induction l with
  | nil =>
    intro minE am rng
    left
    rfl
  | cons i rest ih =>
    intro minE am rng
    rw [gmecLoop]
    dsimp only
    split
    · rcases ih minE am rng with h | h | h
      · exact Or.inl h
      · exact Or.inr (Or.inl (by
          obtain ⟨j, hj, hr⟩ := h
          exact ⟨j, List.mem_cons_of_mem i hj, hr⟩))
      · exact Or.inr (Or.inr ⟨h.1, by
          obtain ⟨j, hj, hr⟩ := h.2
          exact ⟨j, List.mem_cons_of_mem i hj, hr⟩⟩)
    · split
      · rename_i h1 h0
        exact Or.inr (Or.inr ⟨rfl, i, List.mem_cons_self i rest, h0⟩)
      · rename_i h1 h0
        split
        · split
          · rcases ih minE am _ with h | h | h
            · exact Or.inl h
            · exact Or.inr (Or.inl (by
                obtain ⟨j, hj, hr⟩ := h
                exact ⟨j, List.mem_cons_of_mem i hj, hr⟩))
            · exact Or.inr (Or.inr ⟨h.1, by
                obtain ⟨j, hj, hr⟩ := h.2
                exact ⟨j, List.mem_cons_of_mem i hj, hr⟩⟩)
          · split
            · rcases ih _ (i : ℤ) _ with h | h | h
              · exact Or.inr (Or.inl ⟨i, List.mem_cons_self i rest, h, h1, h0⟩)
              · exact Or.inr (Or.inl (by
                  obtain ⟨j, hj, hr⟩ := h
                  exact ⟨j, List.mem_cons_of_mem i hj, hr⟩))
              · exact Or.inr (Or.inr ⟨h.1, by
                  obtain ⟨j, hj, hr⟩ := h.2
                  exact ⟨j, List.mem_cons_of_mem i hj, hr⟩⟩)
            · rcases ih minE am _ with h | h | h
              · exact Or.inl h
              · exact Or.inr (Or.inl (by
                  obtain ⟨j, hj, hr⟩ := h
                  exact ⟨j, List.mem_cons_of_mem i hj, hr⟩))
              · exact Or.inr (Or.inr ⟨h.1, by
                  obtain ⟨j, hj, hr⟩ := h.2
                  exact ⟨j, List.mem_cons_of_mem i hj, hr⟩⟩)
        · rcases ih minE am rng with h | h | h
          · exact Or.inl h
          · exact Or.inr (Or.inl (by
              obtain ⟨j, hj, hr⟩ := h
              exact ⟨j, List.mem_cons_of_mem i hj, hr⟩))
          · exact Or.inr (Or.inr ⟨h.1, by
              obtain ⟨j, hj, hr⟩ := h.2
              exact ⟨j, List.mem_cons_of_mem i hj, hr⟩⟩)

/-- The entropy scan returns `-2` whenever any listed cell has zero count. -/
theorem gmecLoop_contra (w : Wave) (l : List ℕ) :
    ∀ (minE : Option ℚ) (am : ℤ) (rng : Random),
      (∃ i ∈ l, w.memo.patternCount i = 0) →
      (gmecLoop w l minE am rng).1 = -2 := by
  induction l with
  | nil =>
    rintro minE am rng ⟨i, hi, -⟩
    cases hi
  | cons i rest ih =>
    rintro minE am rng ⟨j, hj, hj0⟩
    rw [gmecLoop]
    dsimp only
    rcases List.mem_cons.1 hj with he | hm
    · subst he
      rw [if_neg (by rw [hj0]; omega), if_pos hj0]
    · split
      · exact ih _ _ _ ⟨j, hm, hj0⟩
      · split
        · rfl
        · split
          · split
            · exact ih _ _ _ ⟨j, hm, hj0⟩
            · split
              · exact ih _ _ _ ⟨j, hm, hj0⟩
              · exact ih _ _ _ ⟨j, hm, hj0⟩
          · exact ih _ _ _ ⟨j, hm, hj0⟩

/-- The entropy scan skips collapsed cells: when every listed cell is collapsed the
incoming accumulator (and rng) are returned unchanged. -/
theorem gmecLoop_allCollapsed (w : Wave) (l : List ℕ) :
    ∀ (minE : Option ℚ) (am : ℤ) (rng : Random),
      (∀ i ∈ l, w.memo.patternCount i = 1) →
      gmecLoop w l minE am rng = (am, rng) := by
  induction l with
  | nil =>
    intro minE am rng _
    rfl
  | cons i rest ih =>
    intro minE am rng h
    rw [gmecLoop]
    dsimp only
    rw [if_pos (h i (List.mem_cons_self i rest))]
    exact ih _ _ _ fun j hj => h j (List.mem_cons_of_mem i hj)

/-- The MRV scan (spec-modelled): same result trichotomy as the entropy scan. -/
theorem mrvLoop_result (w : Wave) (l : List ℕ) :
    ∀ (best : Option ℕ) (am : ℤ) (rng : Random),
      (mrvLoop w l best am rng).1 = am ∨
      (∃ i ∈ l, (mrvLoop w l best am rng).1 = (i : ℤ) ∧
        w.memo.patternCount i ≠ 1 ∧ w.memo.patternCount i ≠ 0) ∨
      ((mrvLoop w l best am rng).1 = -2 ∧ ∃ i ∈ l, w.memo.patternCount i = 0) := by
  induction l with
  | nil =>
    intro best am rng
    left
    rfl
  | cons i rest ih =>
    intro best am rng
    have lift : ∀ (b : Option ℕ) (a : ℤ) (r : Random),
        ((mrvLoop w rest b a r).1 = a ∨
          (∃ j ∈ rest, (mrvLoop w rest b a r).1 = (j : ℤ) ∧
            w.memo.patternCount j ≠ 1 ∧ w.memo.patternCount j ≠ 0) ∨
          ((mrvLoop w rest b a r).1 = -2 ∧ ∃ j ∈ rest, w.memo.patternCount j = 0)) →
        ((mrvLoop w rest b a r).1 = a ∨
          (∃ j ∈ i :: rest, (mrvLoop w rest b a r).1 = (j : ℤ) ∧
            w.memo.patternCount j ≠ 1 ∧ w.memo.patternCount j ≠ 0) ∨
          ((mrvLoop w rest b a r).1 = -2 ∧ ∃ j ∈ i :: rest, w.memo.patternCount j = 0)) := by
      rintro b a r (h | h | h)
      · exact Or.inl h
      · obtain ⟨j, hj, hr⟩ := h
        exact Or.inr (Or.inl ⟨j, List.mem_cons_of_mem i hj, hr⟩)
      · obtain ⟨j, hj, hr⟩ := h.2
        exact Or.inr (Or.inr ⟨h.1, j, List.mem_cons_of_mem i hj, hr⟩)
    cases best with
    | none =>
      rw [mrvLoop]
      split
      · exact lift _ _ _ (ih none am rng)
      · split
        · rename_i h1 h0
          exact Or.inr (Or.inr ⟨rfl, i, List.mem_cons_self i rest, h0⟩)
        · rename_i h1 h0
          rcases ih _ (i : ℤ) rng with h | h | h
          · exact Or.inr (Or.inl ⟨i, List.mem_cons_self i rest, h, h1, h0⟩)
          · obtain ⟨j, hj, hr⟩ := h
            exact Or.inr (Or.inl ⟨j, List.mem_cons_of_mem i hj, hr⟩)
          · obtain ⟨j, hj, hr⟩ := h.2
            exact Or.inr (Or.inr ⟨h.1, j, List.mem_cons_of_mem i hj, hr⟩)
    | some b =>
      rw [mrvLoop]
      split
      · exact lift _ _ _ (ih (some b) am rng)
      · split
        · rename_i h1 h0
          exact Or.inr (Or.inr ⟨rfl, i, List.mem_cons_self i rest, h0⟩)
        · rename_i h1 h0
          split
          · rcases ih _ (i : ℤ) rng with h | h | h
            · exact Or.inr (Or.inl ⟨i, List.mem_cons_self i rest, h, h1, h0⟩)
            · obtain ⟨j, hj, hr⟩ := h
              exact Or.inr (Or.inl ⟨j, List.mem_cons_of_mem i hj, hr⟩)
            · obtain ⟨j, hj, hr⟩ := h.2
              exact Or.inr (Or.inr ⟨h.1, j, List.mem_cons_of_mem i hj, hr⟩)
          · split
            · split
              split
              · rcases ih _ (i : ℤ) _ with h | h | h
                · exact Or.inr (Or.inl ⟨i, List.mem_cons_self i rest, h, h1, h0⟩)
                · obtain ⟨j, hj, hr⟩ := h
                  exact Or.inr (Or.inl ⟨j, List.mem_cons_of_mem i hj, hr⟩)
                · obtain ⟨j, hj, hr⟩ := h.2
                  exact Or.inr (Or.inr ⟨h.1, j, List.mem_cons_of_mem i hj, hr⟩)
              · exact lift _ _ _ (ih (some b) am _)
            · exact lift _ _ _ (ih (some b) am rng)

/-- The MRV scan returns `-2` whenever any listed cell has zero count. -/
theorem mrvLoop_contra (w : Wave) (l : List ℕ) :
    ∀ (best : Option ℕ) (am : ℤ) (rng : Random),
      (∃ i ∈ l, w.memo.patternCount i = 0) →
      (mrvLoop w l best am rng).1 = -2 := by
  induction l with
  | nil =>
    rintro best am rng ⟨i, hi, -⟩
    cases hi
  | cons i rest ih =>
    rintro best am rng ⟨j, hj, hj0⟩
    cases best with
    | none =>
      rw [mrvLoop]
      rcases List.mem_cons.1 hj with he | hm
      · subst he
        rw [if_neg (by rw [hj0]; omega), if_pos hj0]
      · split
        · exact ih _ _ _ ⟨j, hm, hj0⟩
        · split
          · rfl
          · exact ih _ _ _ ⟨j, hm, hj0⟩
    | some b =>
      rw [mrvLoop]
      rcases List.mem_cons.1 hj with he | hm
      · subst he
        rw [if_neg (by rw [hj0]; omega), if_pos hj0]
      · split
        · exact ih _ _ _ ⟨j, hm, hj0⟩
        · split
          · rfl
          · split
            · exact ih _ _ _ ⟨j, hm, hj0⟩
            · split
              · split
                split
                · exact ih _ _ _ ⟨j, hm, hj0⟩
                · exact ih _ _ _ ⟨j, hm, hj0⟩
              · exact ih _ _ _ ⟨j, hm, hj0⟩

/-- The MRV scan skips collapsed cells. -/
theorem mrvLoop_allCollapsed (w : Wave) (l : List ℕ) :
    ∀ (best : Option ℕ) (am : ℤ) (rng : Random),
      (∀ i ∈ l, w.memo.patternCount i = 1) →
      mrvLoop w l best am rng = (am, rng) := by
  induction l with
  | nil =>
    intro best am rng _
    rfl
  | cons i rest ih =>
    intro best am rng h
    cases best with
    | none =>
      rw [mrvLoop]
      rw [if_pos (h i (List.mem_cons_self i rest))]
      exact ih _ _ _ fun j hj => h j (List.mem_cons_of_mem i hj)
    | some b =>
      rw [mrvLoop]
      rw [if_pos (h i (List.mem_cons_self i rest))]
      exact ih _ _ _ fun j hj => h j (List.mem_cons_of_mem i hj)

/-- The scanline scan (spec-modelled): result trichotomy. -/
theorem scanlineFind_result (w : Wave) (cursor : ℕ) (l : List ℕ) :
    (scanlineFind w cursor l).1 = -1 ∨
    (∃ i ∈ l, (scanlineFind w cursor l).1 = (i : ℤ) ∧
      w.memo.patternCount i ≠ 1 ∧ w.memo.patternCount i ≠ 0) ∨
    ((scanlineFind w cursor l).1 = -2 ∧ ∃ i ∈ l, w.memo.patternCount i = 0) := by
  induction l with
  | nil =>
    left
    rfl
  | cons i rest ih =>
    rw [scanlineFind]
    split
    · rcases ih with h | h | h
      · exact Or.inl h
      · obtain ⟨j, hj, hr⟩ := h
        exact Or.inr (Or.inl ⟨j, List.mem_cons_of_mem i hj, hr⟩)
      · obtain ⟨j, hj, hr⟩ := h.2
        exact Or.inr (Or.inr ⟨h.1, j, List.mem_cons_of_mem i hj, hr⟩)
    · split
      · rename_i h1 h0
        exact Or.inr (Or.inr ⟨rfl, i, List.mem_cons_self i rest, h0⟩)
      · rename_i h1 h0
        exact Or.inr (Or.inl ⟨i, List.mem_cons_self i rest, rfl, h1, h0⟩)

/-- The scanline scan skips collapsed cells. -/
theorem scanlineFind_allCollapsed (w : Wave) (cursor : ℕ) (l : List ℕ)
    (h : ∀ i ∈ l, w.memo.patternCount i = 1) :
    scanlineFind w cursor l = (-1, cursor) := by
  induction l with
  | nil => rfl
  | cons i rest ih =>
    rw [scanlineFind]
    rw [if_pos (h i (List.mem_cons_self i rest))]
    exact ih fun j hj => h j (List.mem_cons_of_mem i hj)

/-! ## Random lemmas -/

/-- The mulberry32 mix lands below 2^32. -/
theorem mulberryMix_lt (t : ℕ) : mulberryMix t < M32 := by
  unfold mulberryMix
  dsimp only
  have hM : M32 = 2 ^ 32 := rfl
  have h2 : ((t ^^^ (t >>> 15)) * (t ||| 1)) % M32 < 2 ^ 32 := by
    rw [hM]
    exact Nat.mod_lt _ (by norm_num)
  set t2 := ((t ^^^ (t >>> 15)) * (t ||| 1)) % M32 with ht2
  have h3 : (t2 + ((t2 ^^^ (t2 >>> 7)) * (t2 ||| 61)) % M32) % M32 < 2 ^ 32 := by
    rw [hM]
    exact Nat.mod_lt _ (by norm_num)
  set t3 := (t2 + ((t2 ^^^ (t2 >>> 7)) * (t2 ||| 61)) % M32) % M32 with ht3
  have h4 : t2 ^^^ t3 < 2 ^ 32 := Nat.xor_lt_two_pow h2 h3
  have h5 : (t2 ^^^ t3) >>> 14 < 2 ^ 32 := by
    calc (t2 ^^^ t3) >>> 14 ≤ t2 ^^^ t3 := by
          rw [Nat.shiftRight_eq_div_pow]
          exact Nat.div_le_self _ _
      _ < 2 ^ 32 := h4
  rw [hM]
  exact Nat.xor_lt_two_pow h4 h5

/-- Each `next()` output is a float in `[0, 1)`. -/
theorem Random.next_bounds (r : Random) : 0 ≤ r.next.1 ∧ r.next.1 < 1 := by
  unfold Random.next
  dsimp only
  constructor
  · positivity
  · rw [div_lt_one (by norm_num [M32])]
    exact_mod_cast mulberryMix_lt _

/-- The reference state iteration commutes with one leading step. -/
theorem refState_step (s : ℕ) : ∀ n : ℕ, refState (refStep s) n = refState s (n + 1) := by
  intro n
  induction n with
  | zero => simp only [refState]
  | succ n ih =>
    simp only [refState, ih]

/-- The output stream of the source `Random` (exact-integer, un-wrapped state)
coincides with the wrapped-state mulberry32 reference stream started at the low 32
bits of the state: the mix only reads the state mod 2^32 and the increment commutes
with that reduction. -/
theorem Random.nthOutput_eq_ref (n : ℕ) : ∀ s : ℕ,
    Random.nthOutput ⟨s⟩ n = mulberryRefNth (s % M32) n := by
  induction n with
  | zero =>
    intro s
    show (Random.next ⟨s⟩).1 = mulberryRefNth (s % M32) 0
    unfold Random.next mulberryRefNth
    dsimp only
    show _ = ((mulberryMix (refStep (s % M32)) : ℕ) : ℚ) / (M32 : ℚ)
    unfold refStep
    rw [Nat.mod_add_mod]
  | succ n ih =>
    intro s
    show Random.nthOutput (Random.next ⟨s⟩).2 n = mulberryRefNth (s % M32) (n + 1)
    have h1 : (Random.next ⟨s⟩).2 = (⟨s + 0x6d2b79f5⟩ : Random) := rfl
    rw [h1, ih (s + 0x6d2b79f5)]
    unfold mulberryRefNth
    have h2 : (s + 0x6d2b79f5) % M32 = refStep (s % M32) := by
      unfold refStep
      rw [Nat.mod_add_mod]
    rw [h2, refState_step]

/-- `nextInt` is the floor of `next()` scaled. -/
theorem Random.nextInt_floor (r : Random) (max : ℚ) :
    (r.nextInt max).1 = ⌊r.next.1 * max⌋ := rfl

/-! ## Collapse and cell-selection lemmas -/

/-- `collapse` preserves the wave dimensions. -/
theorem Wave.collapse_statics (w : Wave) (i : ℕ) (rng : Random) :
    (w.collapse i rng).2.1.size = w.size ∧
    (w.collapse i rng).2.1.patternCount = w.patternCount := by
  unfold Wave.collapse
  dsimp only
  split
  · exact ⟨rfl, rfl⟩
  · split
    · split
      · exact ⟨rfl, rfl⟩
      · exact ⟨rfl, rfl⟩
    · rcases hrng : rng.next with ⟨u, rng2⟩
      dsimp only
      exact removeOthers_statics (List.range w.patternCount) w

/-- `collapse` never sets a mask bit. -/
theorem Wave.collapse_mono (w : Wave) (i : ℕ) (rng : Random) (j t' : ℕ)
    (h : (w.collapse i rng).2.1.get j t' = true) : w.get j t' = true := by
  unfold Wave.collapse at h
  dsimp only at h
  split at h
  · exact h
  · split at h
    · split at h
      · exact h
      · exact h
    · rcases hrng : rng.next with ⟨u, rng2⟩
      rw [hrng] at h
      dsimp only at h
      exact removeOthers_get_mono (List.range w.patternCount) w j t' h

/-- The heuristic dispatch: it keeps `-1` (all scanned cells collapsed), or returns
an in-range uncollapsed cell, or returns `-2` having found a zero-count cell. -/
theorem ModelCore.selectCell_result (m : ModelCore) :
    m.selectCell.1 = -1 ∨
    (∃ i < m.wave.size, m.selectCell.1 = (i : ℤ) ∧
      m.wave.memo.patternCount i ≠ 1 ∧ m.wave.memo.patternCount i ≠ 0) ∨
    (m.selectCell.1 = -2 ∧ ∃ i < m.wave.size, m.wave.memo.patternCount i = 0) := by
  unfold ModelCore.selectCell
  cases m.heuristic with
  | entropy =>
    dsimp only
    rcases he : m.wave.getMinEntropyCell m.rng with ⟨c, rng2⟩
    rw [Wave.getMinEntropyCell] at he
    dsimp only
    have h := gmecLoop_result m.wave (List.range m.wave.size) none (-1) m.rng
    rw [he] at h
    rcases h with h | h | h
    · exact Or.inl h
    · obtain ⟨i, hi, hr⟩ := h
      exact Or.inr (Or.inl ⟨i, List.mem_range.1 hi, hr⟩)
    · obtain ⟨i, hi, hr⟩ := h.2
      exact Or.inr (Or.inr ⟨h.1, i, List.mem_range.1 hi, hr⟩)
  | mrv =>
    dsimp only
    rcases he : m.wave.getMRVCell m.rng with ⟨c, rng2⟩
    rw [Wave.getMRVCell] at he
    dsimp only
    have h := mrvLoop_result m.wave (List.range m.wave.size) none (-1) m.rng
    rw [he] at h
    rcases h with h | h | h
    · exact Or.inl h
    · obtain ⟨i, hi, hr⟩ := h
      exact Or.inr (Or.inl ⟨i, List.mem_range.1 hi, hr⟩)
    · obtain ⟨i, hi, hr⟩ := h.2
      exact Or.inr (Or.inr ⟨h.1, i, List.mem_range.1 hi, hr⟩)
  | scanline =>
    dsimp only
    rcases he : m.wave.getScanlineCell m.scanlineCursor with ⟨c, next⟩
    rw [Wave.getScanlineCell] at he
    dsimp only
    have h := scanlineFind_result m.wave m.scanlineCursor
      ((List.range m.wave.size).drop m.scanlineCursor)
    rw [he] at h
    rcases h with h | h | h
    · exact Or.inl h
    · obtain ⟨i, hi, hr⟩ := h
      exact Or.inr (Or.inl ⟨i, List.mem_range.1 (List.mem_of_mem_drop hi), hr⟩)
    · obtain ⟨i, hi, hr⟩ := h.2
      exact Or.inr (Or.inr ⟨h.1, i, List.mem_range.1 (List.mem_of_mem_drop hi), hr⟩)

/-- Every heuristic returns `-1` when every cell is collapsed. -/
theorem ModelCore.selectCell_allCollapsed (m : ModelCore)
    (h : ∀ i < m.wave.size, m.wave.memo.patternCount i = 1) :
    m.selectCell.1 = -1 := by
  unfold ModelCore.selectCell
  cases m.heuristic with
  | entropy =>
    dsimp only
    rcases he : m.wave.getMinEntropyCell m.rng with ⟨c, rng2⟩
    rw [Wave.getMinEntropyCell] at he
    dsimp only
    rw [gmecLoop_allCollapsed m.wave (List.range m.wave.size) none (-1) m.rng
      (fun i hi => h i (List.mem_range.1 hi))] at he
    exact congrArg Prod.fst he.symm
  | mrv =>
    dsimp only
    rcases he : m.wave.getMRVCell m.rng with ⟨c, rng2⟩
    rw [Wave.getMRVCell] at he
    dsimp only
    rw [mrvLoop_allCollapsed m.wave (List.range m.wave.size) none (-1) m.rng
      (fun i hi => h i (List.mem_range.1 hi))] at he
    exact congrArg Prod.fst he.symm
  | scanline =>
    dsimp only
    rcases he : m.wave.getScanlineCell m.scanlineCursor with ⟨c, next⟩
    rw [Wave.getScanlineCell] at he
    dsimp only
    rw [scanlineFind_allCollapsed m.wave m.scanlineCursor
      ((List.range m.wave.size).drop m.scanlineCursor)
      (fun i hi => h i (List.mem_range.1 (List.mem_of_mem_drop hi)))] at he
    exact congrArg Prod.fst he.symm

/-- The entropy and MRV heuristics return `-2` whenever any cell of the grid has
zero remaining patterns (the scanline heuristic does not share this property). -/
theorem ModelCore.selectCell_contra (m : ModelCore)
    (hh : m.heuristic ≠ Heuristic.scanline)
    (hc : ∃ i < m.wave.size, m.wave.memo.patternCount i = 0) :
    m.selectCell.1 = -2 := by
  unfold ModelCore.selectCell
  obtain ⟨i, hi, hi0⟩ := hc
  cases hm : m.heuristic with
  | entropy =>
    dsimp only
    rcases he : m.wave.getMinEntropyCell m.rng with ⟨c, rng2⟩
    rw [Wave.getMinEntropyCell] at he
    dsimp only
    have h := gmecLoop_contra m.wave (List.range m.wave.size) none (-1) m.rng
      ⟨i, List.mem_range.2 hi, hi0⟩
    rw [he] at h
    exact h
  | mrv =>
    dsimp only
    rcases he : m.wave.getMRVCell m.rng with ⟨c, rng2⟩
    rw [Wave.getMRVCell] at he
    dsimp only
    have h := mrvLoop_contra m.wave (List.range m.wave.size) none (-1) m.rng
      ⟨i, List.mem_range.2 hi, hi0⟩
    rw [he] at h
    exact h
  | scanline => exact absurd hm hh

/-! ## step() lemmas -/

/-- `step()` when the heuristic reports all cells collapsed: success, nothing
mutated. -/
theorem ModelCore.step_of_neg1 (m : ModelCore) (h : m.selectCell.1 = -1) :
    m.step.1 = ObserveResult.success ∧ m.step.2.wave = m.wave ∧
    m.step.2.propagator = m.propagator := by
  rcases hsel : m.selectCell with ⟨c, rng1, cursor1⟩
  rw [hsel] at h
  dsimp only at h
  unfold ModelCore.step
  rw [hsel]
  dsimp only
  rw [if_pos h]
  exact ⟨rfl, rfl, rfl⟩

/-- `step()` when the heuristic reports a contradiction: failure, nothing mutated. -/
theorem ModelCore.step_of_neg2 (m : ModelCore) (h : m.selectCell.1 = -2) :
    m.step.1 = ObserveResult.failure ∧ m.step.2.wave = m.wave ∧
    m.step.2.propagator = m.propagator := by
  rcases hsel : m.selectCell with ⟨c, rng1, cursor1⟩
  rw [hsel] at h
  dsimp only at h
  unfold ModelCore.step
  rw [hsel]
  dsimp only
  rw [if_neg (by rw [h]; decide), if_pos h]
  exact ⟨rfl, rfl, rfl⟩

/-- `step()` preserves the wave dimensions in every branch. -/
theorem ModelCore.step_statics (m : ModelCore) :
    m.step.2.wave.size = m.wave.size ∧
    m.step.2.wave.patternCount = m.wave.patternCount := by
  rcases hsel : m.selectCell with ⟨c, rng1, cursor1⟩
  unfold ModelCore.step
  rw [hsel]
  dsimp only
  split
  · exact ⟨rfl, rfl⟩
  · split
    · exact ⟨rfl, rfl⟩
    · have hcs := Wave.collapse_statics m.wave c.toNat rng1
      rcases hcol : m.wave.collapse c.toNat rng1 with ⟨sp, wave1, rng2⟩
      rw [hcol] at hcs
      dsimp only at hcs ⊢
      split
      · exact hcs
      · have hps := Propagator.propagate_statics
          (pushRemoved c.toNat sp (m.wave.getPossiblePatterns c.toNat) m.propagator) wave1
        rcases hprop : (pushRemoved c.toNat sp (m.wave.getPossiblePatterns c.toNat)
            m.propagator).propagate wave1 with ⟨ok, prop2, wave2⟩
        rw [hprop] at hps
        dsimp only at hps ⊢
        split
        · exact ⟨hps.1.trans hcs.1, hps.2.trans hcs.2⟩
        · exact ⟨hps.1.trans hcs.1, hps.2.trans hcs.2⟩

/-- `step()` never sets a mask bit (masks only shrink). -/
theorem ModelCore.step_mono (m : ModelCore) (j t' : ℕ)
    (h : m.step.2.wave.get j t' = true) : m.wave.get j t' = true := by
  rcases hsel : m.selectCell with ⟨c, rng1, cursor1⟩
  unfold ModelCore.step at h
  rw [hsel] at h
  dsimp only at h
  split at h
  · exact h
  · split at h
    · exact h
    · have hcm := Wave.collapse_mono m.wave c.toNat rng1 j t'
      rcases hcol : m.wave.collapse c.toNat rng1 with ⟨sp, wave1, rng2⟩
      rw [hcol] at hcm h
      dsimp only at hcm h
      split at h
      · exact hcm h
      · have hpm := Propagator.propagate_mono
          (pushRemoved c.toNat sp (m.wave.getPossiblePatterns c.toNat) m.propagator) wave1 j t'
        rcases hprop : (pushRemoved c.toNat sp (m.wave.getPossiblePatterns c.toNat)
            m.propagator).propagate wave1 with ⟨ok, prop2, wave2⟩
        rw [hprop] at hpm h
        dsimp only at hpm h
        split at h
        · exact hcm (hpm h)
        · exact hcm (hpm h)

/-- `step()` when the heuristic selects an in-range uncollapsed cell (the wellformed
situation): the step either continues (stack drained, no contradiction introduced
if none existed at other cells) or fails with a zero-count cell left in the wave. -/
theorem ModelCore.step_main (m : ModelCore) (hwf : CoreWF m) (hcinv : WaveCountInv m.wave)
    (hW : 0 < m.wave.width) (hH : 0 < m.wave.height) (i : ℕ)
    (hsel : m.selectCell.1 = (i : ℤ)) (hi : i < m.wave.size)
    (h1 : m.wave.memo.patternCount i ≠ 1) (h0 : m.wave.memo.patternCount i ≠ 0) :
    (m.step.1 = ObserveResult.cont ∨ m.step.1 = ObserveResult.failure) ∧
    (m.step.1 = ObserveResult.cont → m.step.2.propagator.stack = [] ∧
      ∀ j < m.wave.size, m.wave.memo.patternCount j ≠ 0 →
        m.step.2.wave.memo.patternCount j ≠ 0) ∧
    (m.step.1 = ObserveResult.failure →
      ∃ j < m.wave.size, m.step.2.wave.memo.patternCount j = 0) := by
  rcases hselp : m.selectCell with ⟨c, rng1, cursor1⟩
  rw [hselp] at hsel
  dsimp only at hsel
  subst hsel
  unfold ModelCore.step
  rw [hselp]
  dsimp only
  rw [if_neg (by omega), if_neg (by omega)]
  simp only [Int.toNat_natCast]
  have h2 : 2 ≤ m.wave.memo.patternCount i := by omega
  obtain ⟨sel, hselT, hgsel, hres, hcnt1, hcnto⟩ := collapse_spec hcinv i rng1 hi h2
  rcases hcol : m.wave.collapse i rng1 with ⟨sp, wave1, rng2⟩
  rw [hcol] at hres hcnt1 hcnto
  dsimp only at hres hcnt1 hcnto ⊢
  subst hres
  rw [if_neg (by omega)]
  have hpfields := @pushRemoved_fields i ((sel : ℤ)) (m.wave.getPossiblePatterns i) m.propagator
  have hw1 : 0 < (pushRemoved i ((sel : ℤ)) (m.wave.getPossiblePatterns i)
      m.propagator).width := by
    rw [hpfields.1, hwf.1]
    exact hW
  have hh1 : 0 < (pushRemoved i ((sel : ℤ)) (m.wave.getPossiblePatterns i)
      m.propagator).height := by
    rw [hpfields.2.1, hwf.2.1]
    exact hH
  have hcontra := Propagator.propagate_false_contra
    (pushRemoved i ((sel : ℤ)) (m.wave.getPossiblePatterns i) m.propagator) wave1 hw1 hh1
  have hstack := Propagator.propagate_true_stack
    (pushRemoved i ((sel : ℤ)) (m.wave.getPossiblePatterns i) m.propagator) wave1
  have hcounts := Propagator.propagate_true_counts
    (pushRemoved i ((sel : ℤ)) (m.wave.getPossiblePatterns i) m.propagator) wave1
  rcases hprop : (pushRemoved i ((sel : ℤ)) (m.wave.getPossiblePatterns i)
      m.propagator).propagate wave1 with ⟨ok, prop2, wave2⟩
  rw [hprop] at hcontra hstack hcounts
  dsimp only at hcontra hstack hcounts ⊢
  cases ok with
  | true =>
    rw [if_pos rfl]
    refine ⟨Or.inl rfl, ?_, ?_⟩
    · intro _
      refine ⟨hstack rfl, ?_⟩
      intro j hj hj0
      refine hcounts rfl j ?_
      by_cases hji : j = i
      · subst hji
        rw [hcnt1]
        omega
      · rw [hcnto j hji]
        exact hj0
    · intro hc
      dsimp only at hc
      exact ObserveResult.noConfusion hc
  | false =>
    rw [if_neg (by decide)]
    refine ⟨Or.inr rfl, ?_, ?_⟩
    · intro hc
      dsimp only at hc
      exact ObserveResult.noConfusion hc
    · intro _
      obtain ⟨j, hjlt, hj0⟩ := hcontra rfl
      refine ⟨j, ?_, hj0⟩
      rw [hpfields.1, hpfields.2.1, hwf.1, hwf.2.1, ← hwf.2.2.2] at hjlt
      exact hjlt

/-- Running invariant of the entropy scan once an argmin is held: when every pair of
uncollapsed cells has equal entropies or entropies at least the noise scale apart,
the scan's final argmin has minimal entropy among the held argmin and the listed
uncollapsed cells.  The held minimum `M` sits in `[entropy a, entropy a + s]`. -/
theorem gmecLoop_min_run (w : Wave) (s : ℚ) (hs : w.minAbsHalfPlogp = some s)
    (hs0 : 0 ≤ s)
    (hgap : ∀ i j, i < w.size → j < w.size → w.memo.patternCount i ≠ 1 →
      w.memo.patternCount j ≠ 1 →
      w.memo.entropy i = w.memo.entropy j ∨ s ≤ |w.memo.entropy i - w.memo.entropy j|) :
    ∀ (l : List ℕ) (a : ℕ) (M : ℚ) (rng : Random),
      (∀ i ∈ l, i < w.size) → (∀ i ∈ l, w.memo.patternCount i ≠ 0) →
      a < w.size → w.memo.patternCount a ≠ 1 → w.memo.patternCount a ≠ 0 →
      w.memo.entropy a ≤ M → M ≤ w.memo.entropy a + s →
      ∃ b : ℕ, (gmecLoop w l (some M) ((a : ℤ)) rng).1 = (b : ℤ) ∧ b < w.size ∧
        w.memo.patternCount b ≠ 1 ∧ w.memo.patternCount b ≠ 0 ∧
        w.memo.entropy b ≤ w.memo.entropy a ∧
        (∀ j ∈ l, w.memo.patternCount j ≠ 1 → w.memo.entropy b ≤ w.memo.entropy j) := by
  intro l
  induction l with
  | nil =>
    intro a M rng hl hnc ha ha1 ha0 haM hMa
    exact ⟨a, rfl, ha, ha1, ha0, le_refl _, fun j hj => absurd hj (List.not_mem_nil j)⟩
  | cons i rest ih =>
    intro a M rng hl hnc ha ha1 ha0 haM hMa
    have hi : i < w.size := hl i (List.mem_cons_self i rest)
    have hi0 : w.memo.patternCount i ≠ 0 := hnc i (List.mem_cons_self i rest)
    have hl' : ∀ j ∈ rest, j < w.size := fun j hj => hl j (List.mem_cons_of_mem i hj)
    have hnc' : ∀ j ∈ rest, w.memo.patternCount j ≠ 0 :=
      fun j hj => hnc j (List.mem_cons_of_mem i hj)
    rw [gmecLoop]
    dsimp only
    by_cases hc1 : w.memo.patternCount i = 1
    · rw [if_pos hc1]
      obtain ⟨b, hb⟩ := ih a M rng hl' hnc' ha ha1 ha0 haM hMa
      refine ⟨b, hb.1, hb.2.1, hb.2.2.1, hb.2.2.2.1, hb.2.2.2.2.1, ?_⟩
      intro j hj hj1
      rcases List.mem_cons.1 hj with he | hm
      · subst he
        exact absurd hc1 hj1
      · exact hb.2.2.2.2.2 j hm hj1
    · rw [if_neg hc1, if_neg hi0]
      by_cases hle : w.memo.entropy i ≤ M
      · rw [if_pos (by simp [qleOpt, hle])]
        rcases hrng : rng.next with ⟨u, rng2⟩
        have hub := Random.next_bounds rng
        rw [hrng] at hub
        dsimp only at hub ⊢
        rw [hs]
        dsimp only
        have hus0 : 0 ≤ u * s := mul_nonneg hub.1 hs0
        have huss : u * s ≤ s := by
          calc u * s ≤ 1 * s := mul_le_mul_of_nonneg_right (le_of_lt hub.2) hs0
            _ = s := one_mul s
        by_cases hlt : w.memo.entropy i + u * s < M
        · rw [if_pos (by simp [qltOpt, hlt])]
          have hia : w.memo.entropy i ≤ w.memo.entropy a := by
            rcases hgap i a hi ha hc1 ha1 with h | h
            · exact le_of_eq h
            · rcases abs_cases (w.memo.entropy i - w.memo.entropy a) with ⟨he, _⟩ | ⟨he, _⟩
              · rw [he] at h
                linarith
              · rw [he] at h
                linarith
          obtain ⟨b, hb⟩ := ih i (w.memo.entropy i + u * s) rng2 hl' hnc' hi hc1 hi0
            (by linarith) (by linarith)
          refine ⟨b, hb.1, hb.2.1, hb.2.2.1, hb.2.2.2.1, le_trans hb.2.2.2.2.1 hia, ?_⟩
          intro j hj hj1
          rcases List.mem_cons.1 hj with he | hm
          · subst he
            exact hb.2.2.2.2.1
          · exact hb.2.2.2.2.2 j hm hj1
        · rw [if_neg (by simp [qltOpt]; linarith)]
          have hai : w.memo.entropy a ≤ w.memo.entropy i := by
            have hM2 : M ≤ w.memo.entropy i + u * s := le_of_not_lt hlt
            rcases eq_or_lt_of_le hs0 with hz | hpos
            · have h4 : u * s = 0 := by
                rw [← hz, mul_zero]
              linarith
            · rcases hgap i a hi ha hc1 ha1 with h | h
              · exact le_of_eq h.symm
              · rcases abs_cases (w.memo.entropy i - w.memo.entropy a) with ⟨he, _⟩ | ⟨he, _⟩
                · rw [he] at h
                  linarith
                · rw [he] at h
                  have hus : u * s < s := by
                    have := mul_lt_mul_of_pos_right hub.2 hpos
                    rw [one_mul] at this
                    exact this
                  linarith
          obtain ⟨b, hb⟩ := ih a M rng2 hl' hnc' ha ha1 ha0 haM hMa
          refine ⟨b, hb.1, hb.2.1, hb.2.2.1, hb.2.2.2.1, hb.2.2.2.2.1, ?_⟩
          intro j hj hj1
          rcases List.mem_cons.1 hj with he | hm
          · subst he
            exact le_trans (le_trans hb.2.2.2.2.1 hai) (le_refl _)
          · exact hb.2.2.2.2.2 j hm hj1
      · rw [if_neg (by simp [qleOpt, hle])]
        obtain ⟨b, hb⟩ := ih a M rng hl' hnc' ha ha1 ha0 haM hMa
        refine ⟨b, hb.1, hb.2.1, hb.2.2.1, hb.2.2.2.1, hb.2.2.2.2.1, ?_⟩
        intro j hj hj1
        rcases List.mem_cons.1 hj with he | hm
        · rw [he]
          have h2 : M < w.memo.entropy i := lt_of_not_le hle
          have h3 := hb.2.2.2.2.1
          linarith
        · exact hb.2.2.2.2.2 j hm hj1

/-- The entropy scan from the fresh state (`minEntropy = Infinity`, `argmin = -1`):
under the entropy-gap hypothesis it returns `-1` (all listed cells collapsed) or an
uncollapsed listed cell of minimal entropy among the listed uncollapsed cells. -/
theorem gmecLoop_min_start (w : Wave) (s : ℚ) (hs : w.minAbsHalfPlogp = some s)
    (hs0 : 0 ≤ s)
    (hgap : ∀ i j, i < w.size → j < w.size → w.memo.patternCount i ≠ 1 →
      w.memo.patternCount j ≠ 1 →
      w.memo.entropy i = w.memo.entropy j ∨ s ≤ |w.memo.entropy i - w.memo.entropy j|) :
    ∀ (l : List ℕ) (rng : Random),
      (∀ i ∈ l, i < w.size) → (∀ i ∈ l, w.memo.patternCount i ≠ 0) →
      ((gmecLoop w l none (-1) rng).1 = -1 ∧ ∀ i ∈ l, w.memo.patternCount i = 1) ∨
      (∃ b : ℕ, (gmecLoop w l none (-1) rng).1 = (b : ℤ) ∧ b < w.size ∧
        w.memo.patternCount b ≠ 1 ∧ w.memo.patternCount b ≠ 0 ∧
        (∀ j ∈ l, w.memo.patternCount j ≠ 1 → w.memo.entropy b ≤ w.memo.entropy j)) := by
  intro l
  induction l with
  | nil =>
    intro rng _ _
    exact Or.inl ⟨rfl, fun i hi => absurd hi (List.not_mem_nil i)⟩
  | cons i rest ih =>
    intro rng hl hnc
    have hi : i < w.size := hl i (List.mem_cons_self i rest)
    have hi0 : w.memo.patternCount i ≠ 0 := hnc i (List.mem_cons_self i rest)
    have hl' : ∀ j ∈ rest, j < w.size := fun j hj => hl j (List.mem_cons_of_mem i hj)
    have hnc' : ∀ j ∈ rest, w.memo.patternCount j ≠ 0 :=
      fun j hj => hnc j (List.mem_cons_of_mem i hj)
    rw [gmecLoop]
    dsimp only
    by_cases hc1 : w.memo.patternCount i = 1
    · rw [if_pos hc1]
      rcases ih rng hl' hnc' with h | h
      · refine Or.inl ⟨h.1, ?_⟩
        intro j hj
        rcases List.mem_cons.1 hj with he | hm
        · subst he
          exact hc1
        · exact h.2 j hm
      · obtain ⟨b, hb⟩ := h
        refine Or.inr ⟨b, hb.1, hb.2.1, hb.2.2.1, hb.2.2.2.1, ?_⟩
        intro j hj hj1
        rcases List.mem_cons.1 hj with he | hm
        · subst he
          exact absurd hc1 hj1
        · exact hb.2.2.2.2 j hm hj1
    · rw [if_neg hc1, if_neg hi0]
      rw [if_pos (by simp [qleOpt])]
      rcases hrng : rng.next with ⟨u, rng2⟩
      have hub := Random.next_bounds rng
      rw [hrng] at hub
      dsimp only at hub ⊢
      rw [hs]
      dsimp only
      have hus0 : 0 ≤ u * s := mul_nonneg hub.1 hs0
      have huss : u * s ≤ s := by
        calc u * s ≤ 1 * s := mul_le_mul_of_nonneg_right (le_of_lt hub.2) hs0
          _ = s := one_mul s
      rw [if_pos (by simp [qltOpt])]
      obtain ⟨b, hb⟩ := gmecLoop_min_run w s hs hs0 hgap rest i
        (w.memo.entropy i + u * s) rng2 hl' hnc' hi hc1 hi0 (by linarith) (by linarith)
      refine Or.inr ⟨b, hb.1, hb.2.1, hb.2.2.1, hb.2.2.2.1, ?_⟩
      intro j hj hj1
      rcases List.mem_cons.1 hj with he | hm
      · subst he
        exact hb.2.2.2.2.1
      · exact hb.2.2.2.2.2 j hm hj1

/-! ## Ground-constraint lemmas -/

/-- `remove` always leaves the targeted bit clear. -/
theorem Wave.remove_cleared (w : Wave) (i t : ℕ) : (w.remove i t).2.get i t = false := by
  unfold Wave.remove
  dsimp only
  split
  · rename_i hc
    unfold Wave.get
    rw [hc.2, Bool.and_false]
  · have hst := Wave.removeGo_statics w i t
    unfold Wave.get
    rw [hst.1, hst.2.1, Wave.removeGo_data]
    by_cases hk : i * w.patternCount + t < w.size * w.patternCount
    · simp [updF, hk]
    · simp [hk]

/-- `groundCell` never sets a mask bit. -/
theorem groundCell_mono (c t : ℕ) (wp : Wave × Propagator) (j t' : ℕ)
    (h : (groundCell c t wp).1.get j t' = true) : wp.1.get j t' = true := by
  unfold groundCell at h
  split at h
  · exact Wave.get_remove_mono c t j t' h
  · exact h

/-- `groundCell` leaves its target bit clear. -/
theorem groundCell_cleared (c t : ℕ) (wp : Wave × Propagator) :
    (groundCell c t wp).1.get c t = false := by
  unfold groundCell
  split
  · exact Wave.remove_cleared wp.1 c t
  · rename_i hc
    exact Bool.not_eq_true _ ▸ hc

/-- A fold of `groundCell` steps never sets a mask bit (generic in how the fold step
chooses the cell and pattern). -/
theorem groundFold_mono {α : Type} (g : α → ℕ × ℕ) :
    ∀ (l : List α) (wp : Wave × Propagator) (j t' : ℕ),
      ((l.foldl (fun wp a => groundCell (g a).1 (g a).2 wp) wp).1.get j t' = true) →
      wp.1.get j t' = true := by
  intro l
  induction l with
  | nil => exact fun wp j t' h => h
  | cons a rest ih =>
    intro wp j t' h
    exact groundCell_mono _ _ _ j t' (ih _ j t' h)

/-- After a fold of `groundCell` steps, every fold element's targeted bit is clear. -/
theorem groundFold_cleared {α : Type} (g : α → ℕ × ℕ) :
    ∀ (l : List α) (wp : Wave × Propagator) (a : α), a ∈ l →
      ((l.foldl (fun wp a => groundCell (g a).1 (g a).2 wp) wp).1.get (g a).1 (g a).2
        = false) := by
  intro l
  induction l with
  | nil =>
    rintro wp a h
    cases h
  | cons a0 rest ih =>
    intro wp a h
    rcases List.mem_cons.1 h with he | hm
    · subst he
      dsimp only [List.foldl]
      rcases hb : (rest.foldl (fun wp a => groundCell (g a).1 (g a).2 wp)
          (groundCell (g a).1 (g a).2 wp)).1.get (g a).1 (g a).2 with h2 | h2
      · rfl
      · have := groundFold_mono g rest _ (g a).1 (g a).2 hb
        rw [groundCell_cleared] at this
        cases this
    · exact ih _ a hm

/-- `groundColumn` never sets a mask bit. -/
theorem groundColumn_mono (T W H x : ℕ) (wp : Wave × Propagator) (j t' : ℕ)
    (h : (groundColumn T W H x wp).1.get j t' = true) : wp.1.get j t' = true := by
  unfold groundColumn at h
  dsimp only at h
  have h1 := groundFold_mono (fun y => (x + y * W, T - 1)) (List.range (H - 1)) _ j t' h
  exact groundFold_mono (fun t => (x + (H - 1) * W, t)) (List.range (T - 1)) wp j t' h1

/-- `groundColumn` clears the advertised bits of its column. -/
theorem groundColumn_cleared (T W H x : ℕ) (wp : Wave × Propagator) :
    (∀ t, t < T - 1 → (groundColumn T W H x wp).1.get (x + (H - 1) * W) t = false) ∧
    (∀ y, y < H - 1 → (groundColumn T W H x wp).1.get (x + y * W) (T - 1) = false) := by
  constructor
  · intro t ht
    unfold groundColumn
    dsimp only
    rcases hb : ((List.range (H - 1)).foldl (fun wp y => groundCell (x + y * W) (T - 1) wp)
        ((List.range (T - 1)).foldl (fun wp t => groundCell (x + (H - 1) * W) t wp)
          wp)).1.get (x + (H - 1) * W) t with h2 | h2
    · rfl
    · have h3 := groundFold_mono (fun y => (x + y * W, T - 1)) (List.range (H - 1))
        _ (x + (H - 1) * W) t hb
      have h4 := groundFold_cleared (fun t => (x + (H - 1) * W, t)) (List.range (T - 1))
        wp t (List.mem_range.2 ht)
      rw [h4] at h3
      cases h3
  · intro y hy
    unfold groundColumn
    dsimp only
    exact groundFold_cleared (fun y => (x + y * W, T - 1)) (List.range (H - 1))
      _ y (List.mem_range.2 hy)

/-- A fold of `groundColumn` steps never sets a mask bit. -/
theorem groundColumnFold_mono (T W H : ℕ) :
    ∀ (xs : List ℕ) (wp : Wave × Propagator) (j t' : ℕ),
      ((xs.foldl (fun wp x => groundColumn T W H x wp) wp).1.get j t' = true) →
      wp.1.get j t' = true := by
  intro xs
  induction xs with
  | nil => exact fun wp j t' h => h
  | cons r rrest ih =>
    intro wp j t' h
    exact groundColumn_mono T W H r wp j t' (ih _ j t' h)

/-- The outer column fold of `applyGroundConstraint` clears every column's
advertised bits. -/
theorem groundOuter_cleared (T W H : ℕ) :
    ∀ (xs : List ℕ) (wp : Wave × Propagator) (x : ℕ), x ∈ xs →
      (∀ t, t < T - 1 →
        ((xs.foldl (fun wp x => groundColumn T W H x wp) wp).1.get
          (x + (H - 1) * W) t = false)) ∧
      (∀ y, y < H - 1 →
        ((xs.foldl (fun wp x => groundColumn T W H x wp) wp).1.get
          (x + y * W) (T - 1) = false)) := by
  intro xs
  induction xs with
  | nil =>
    rintro wp x h
    cases h
  | cons x0 rest ih =>
    intro wp x h
    have hmono : ∀ (wp2 : Wave × Propagator) (j t' : ℕ),
        ((rest.foldl (fun wp x => groundColumn T W H x wp) wp2).1.get j t' = true) →
        wp2.1.get j t' = true :=
      fun wp2 => groundColumnFold_mono T W H rest wp2
    rcases List.mem_cons.1 h with he | hm
    · subst he
      constructor
      · intro t ht
        dsimp only [List.foldl]
        rcases hb : ((rest.foldl (fun wp x => groundColumn T W H x wp)
            (groundColumn T W H x wp)).1.get (x + (H - 1) * W) t) with h2 | h2
        · rfl
        · have h3 := hmono _ _ _ hb
          rw [(groundColumn_cleared T W H x wp).1 t ht] at h3
          cases h3
      · intro y hy
        dsimp only [List.foldl]
        rcases hb : ((rest.foldl (fun wp x => groundColumn T W H x wp)
            (groundColumn T W H x wp)).1.get (x + y * W) (T - 1)) with h2 | h2
        · rfl
        · have h3 := hmono _ _ _ hb
          rw [(groundColumn_cleared T W H x wp).2 y hy] at h3
          cases h3
    · exact ih _ x hm

/-- `applyGroundConstraint` in terms of `groundColumn`. -/
theorem applyGroundConstraint_eq (T W H : ℕ) (wave : Wave) (prop : Propagator) :
    applyGroundConstraint T W H wave prop =
      (let wp := (List.range W).foldl (fun wp x => groundColumn T W H x wp) (wave, prop)
       ((wp.2.propagate wp.1).2.2, (wp.2.propagate wp.1).2.1)) := rfl

/-- After `applyGroundConstraint`, every bottom-row cell has lost every non-last
pattern, and every other cell has lost the last pattern — and this survives the
final propagation drain (masks only shrink). -/
theorem applyGroundConstraint_cleared (T W H : ℕ) (wave : Wave) (prop : Propagator)
    (x : ℕ) (hx : x < W) :
    (∀ t, t < T - 1 →
      (applyGroundConstraint T W H wave prop).1.get (x + (H - 1) * W) t = false) ∧
    (∀ y, y < H - 1 →
      (applyGroundConstraint T W H wave prop).1.get (x + y * W) (T - 1) = false) := by
  rw [applyGroundConstraint_eq]
  dsimp only
  have hg := groundOuter_cleared T W H (List.range W) (wave, prop) x (List.mem_range.2 hx)
  constructor
  · intro t ht
    rcases hb : ((((List.range W).foldl (fun wp x => groundColumn T W H x wp)
        (wave, prop)).2.propagate ((List.range W).foldl
          (fun wp x => groundColumn T W H x wp) (wave, prop)).1).2.2.get
            (x + (H - 1) * W) t) with h2 | h2
    · rfl
    · have h3 := Propagator.propagate_mono _ _ _ _ hb
      rw [hg.1 t ht] at h3
      cases h3
  · intro y hy
    rcases hb : ((((List.range W).foldl (fun wp x => groundColumn T W H x wp)
        (wave, prop)).2.propagate ((List.range W).foldl
          (fun wp x => groundColumn T W H x wp) (wave, prop)).1).2.2.get
            (x + y * W) (T - 1)) with h2 | h2
    · rfl
    · have h3 := Propagator.propagate_mono _ _ _ _ hb
      rw [hg.2 y hy] at h3
      cases h3

/-- `getState()` reports a contradiction exactly when some cell has zero remaining
patterns. -/
theorem modelGetState_contra (m : ModelCore) (pc : ℕ) :
    (modelGetState m pc).hasContradiction = true ↔
    ∃ i < m.wave.size, m.wave.memo.patternCount i = 0 := by
  unfold modelGetState
  dsimp only
  rw [decide_eq_true_eq]
  constructor
  · rintro ⟨i, hi, h0⟩
    exact ⟨i, Finset.mem_range.1 hi, h0⟩
  · rintro ⟨i, hi, h0⟩
    exact ⟨i, Finset.mem_range.2 hi, h0⟩

/-- Ground bits of the constructed model (ground option on). -/
theorem ground_create_cleared (pixels : List ℕ) (iw ihh : ℕ) (o : OverlappingOptions)
    (lg : ℚ → ℚ) (hg : o.ground = true) (x : ℕ) (hx : x < o.width) :
    (∀ t, t < (OverlappingModel.create pixels iw ihh o lg).patternCount - 1 →
      (OverlappingModel.create pixels iw ihh o lg).core.wave.get
        (x + (o.height - 1) * o.width) t = false) ∧
    (∀ y, y < o.height - 1 →
      (OverlappingModel.create pixels iw ihh o lg).core.wave.get (x + y * o.width)
        ((OverlappingModel.create pixels iw ihh o lg).patternCount - 1) = false) := by
  unfold OverlappingModel.create
  dsimp only
  rw [hg]
  rw [if_pos rfl]
  exact applyGroundConstraint_cleared _ o.width o.height _ _ x hx

/-- Ground bits are re-established by `clear()` (ground option on). -/
theorem ground_clear_cleared (pixels : List ℕ) (iw ihh : ℕ) (o : OverlappingOptions)
    (lg : ℚ → ℚ) (hg : o.ground = true) (x : ℕ) (hx : x < o.width) :
    (∀ t, t < (OverlappingModel.create pixels iw ihh o lg).patternCount - 1 →
      (OverlappingModel.create pixels iw ihh o lg).clear.core.wave.get
        (x + (o.height - 1) * o.width) t = false) ∧
    (∀ y, y < o.height - 1 →
      (OverlappingModel.create pixels iw ihh o lg).clear.core.wave.get (x + y * o.width)
        ((OverlappingModel.create pixels iw ihh o lg).patternCount - 1) = false) := by
  unfold OverlappingModel.clear OverlappingModel.create
  dsimp only
  rw [hg]
  rw [if_pos rfl]
  exact applyGroundConstraint_cleared _ o.width o.height _ _ x hx

/-! ## Fuel-evaluation equivalences -/

/-- A fuel run that finishes computes `propagateLoop`. -/
theorem propagateLoop_of_fuel (pd : PropagatorData) (W H T : ℕ) (per : Bool) :
    ∀ (fuel : ℕ) (s : PState) (r : Bool × PState),
      propagateFuelLoop pd W H T per fuel s = some r →
      propagateLoop pd W H T per s = r := by
  intro fuel
  induction fuel with
  | zero =>
    intro s r h
    exact Option.noConfusion h
  | succ fuel ih =>
    intro s r h
    rw [propagateFuelLoop] at h
    cases hst : s.stack with
    | nil =>
      rw [hst] at h
      dsimp only at h
      rw [propagateLoop_nil pd W H T per s hst]
      exact Option.some.inj h
    | cons p rest =>
      rcases p with ⟨i, t⟩
      rw [hst] at h
      dsimp only at h
      rcases hpd : processDirList pd W H T per i t [0, 1, 2, 3] { s with stack := rest }
        with ⟨s2, b⟩
      rw [hpd] at h
      cases b with
      | true =>
        dsimp only at h
        rw [propagateLoop_cons_true pd W H T per s i t rest s2 hst hpd]
        exact Option.some.inj h
      | false =>
        dsimp only at h
        rw [propagateLoop_cons_false pd W H T per s i t rest s2 hst hpd]
        exact ih s2 r h

/-- A fuel run that finishes computes `Propagator.propagate`. -/
theorem propagate_of_fuel (fuel : ℕ) (p : Propagator) (w : Wave)
    (r : Bool × Propagator × Wave) (h : propagateFuel fuel p w = some r) :
    p.propagate w = r := by
  unfold propagateFuel at h
  rcases hfl : propagateFuelLoop p.propagatorData p.width p.height p.patternCount
      p.periodic fuel { wave := w, compatible := p.compatible, stack := p.stack }
    with _ | os
  · rw [hfl] at h
    exact Option.noConfusion h
  · rw [hfl] at h
    dsimp only [Option.map] at h
    have he := propagateLoop_of_fuel p.propagatorData p.width p.height p.patternCount
      p.periodic fuel _ os hfl
    unfold Propagator.propagate
    rw [he]
    exact Option.some.inj h

/-- A fuel run that finishes computes `step()`. -/
theorem step_eq_of_stepFuel (m : ModelCore) (fuel : ℕ) (r : ObserveResult × ModelCore)
    (h : stepFuel m fuel = some r) : m.step = r := by
  rcases hsel : m.selectCell with ⟨c, rng1, cursor1⟩
  unfold stepFuel at h
  unfold ModelCore.step
  rw [hsel] at h ⊢
  dsimp only at h ⊢
  by_cases hc1 : c = -1
  · rw [if_pos hc1] at h ⊢
    exact Option.some.inj h
  · rw [if_neg hc1] at h ⊢
    by_cases hc2 : c = -2
    · rw [if_pos hc2] at h ⊢
      exact Option.some.inj h
    · rw [if_neg hc2] at h ⊢
      rcases hcol : m.wave.collapse c.toNat rng1 with ⟨sp, wave1, rng2⟩
      rw [hcol] at h
      dsimp only at h ⊢
      by_cases hsp : sp = -1
      · rw [if_pos hsp] at h ⊢
        exact Option.some.inj h
      · rw [if_neg hsp] at h ⊢
        rcases hpf : propagateFuel fuel
            (pushRemoved c.toNat sp (m.wave.getPossiblePatterns c.toNat) m.propagator) wave1
          with _ | okpw
        · rw [hpf] at h
          exact Option.noConfusion h
        · rw [hpf] at h
          dsimp only at h
          have he := propagate_of_fuel fuel
            (pushRemoved c.toNat sp (m.wave.getPossiblePatterns c.toNat) m.propagator)
            wave1 okpw hpf
          rw [he]
          rcases okpw with ⟨ok, prop2, wave2⟩
          dsimp only at h ⊢
          cases ok with
          | true =>
            rw [if_pos rfl] at h ⊢
            exact Option.some.inj h
          | false =>
            rw [if_neg (by decide)] at h ⊢
            exact Option.some.inj h

/-- The `Option.get` form of the fuel equivalence, for concrete evaluation. -/
theorem step_of_stepFuel (m : ModelCore) (fuel : ℕ)
    (hs : (stepFuel m fuel).isSome = true) :
    m.step = (stepFuel m fuel).get hs :=
  step_eq_of_stepFuel m fuel _ (Option.some_get hs).symm

/-! ## The claims -/

/-- C1: at every reachable Wave state (construction followed by any sequence of
`remove`, `collapse` and `clear` calls) the memoized scalars satisfy the invariant
the code actually maintains: `remaining`, `sum` and `plogpSum` equal their
from-scratch recomputes, `logSum[i] = log(sum[i])` while `sum[i] > 0`, and the
memoized entropy equals the formula `logSum − plogpSum/sum` (0 at `sum ≤ 0`) at
every cell that has undergone a removal — a full-mask cell instead holds the
constructor's `startingEntropy = log(sumW) − Σ plogp`, which lacks the `/sumW`
normalization of the claimed formula. -/
theorem C1_memo_invariants {width height : ℕ} {ws : List ℚ} {lg : ℚ → ℚ} {w : Wave}
    (hw : WaveReachable width height ws lg w) : WaveInv w :=
  waveReachable_inv hw

/-- C1 witness: the invariant holds at the freshly constructed 1×1 wave over
weights `[1, 1]`. -/
theorem C1_memo_invariants_witness : WaveInv wEq :=
  C1_memo_invariants WaveReachable.create

/-- C1 counterexample: at the reachable (freshly constructed) wave over weights
`[1,2,3,4]`, the memoized entropy differs from the claimed
`logSum[i] − plogpSum[i]/sum[i]`: the constructor omits the `/sum` division. -/
theorem C1_entropy_formula_counterexample :
    WaveReachable 1 1 [1, 2, 3, 4] lgDemo (Wave.create 1 1 [1, 2, 3, 4] lgDemo) ∧
    (Wave.create 1 1 [1, 2, 3, 4] lgDemo).memo.entropy 0 ≠
      (Wave.create 1 1 [1, 2, 3, 4] lgDemo).memo.logSum 0 -
      (Wave.create 1 1 [1, 2, 3, 4] lgDemo).memo.plogpSum 0 /
      (Wave.create 1 1 [1, 2, 3, 4] lgDemo).memo.sum 0 :=
  ⟨WaveReachable.create, by decide⟩

/-- C2: for a wellformed model core (propagator allocated over the wave's grid,
count memo coherent, positive grid), a 'failure' return of `step()` always leaves
some cell with zero remaining patterns and makes `getState()` report
`hasContradiction = true`; the converse — and hence the claimed iff — holds when
no cell is already contradicted at entry (as after any non-failure step), but not
in general: a step entered on an already-contradicted state can return 'continue'
under the scanline heuristic with a zero-count cell still present. -/
theorem C2_failure_iff (m : ModelCore) (pc : ℕ) (hwf : CoreWF m)
    (hcinv : WaveCountInv m.wave) (hW : 0 < m.wave.width) (hH : 0 < m.wave.height) :
    (m.step.1 = ObserveResult.failure →
      ∃ j < m.step.2.wave.size, m.step.2.wave.memo.patternCount j = 0) ∧
    (m.step.1 = ObserveResult.failure →
      (modelGetState m.step.2 pc).hasContradiction = true) ∧
    ((∀ i < m.wave.size, m.wave.memo.patternCount i ≠ 0) →
      (m.step.1 = ObserveResult.failure ↔
        ∃ j < m.step.2.wave.size, m.step.2.wave.memo.patternCount j = 0)) := by
  have hstat := ModelCore.step_statics m
  rcases ModelCore.selectCell_result m with hsel | hsel | hsel
  · obtain ⟨hres, hwave, _⟩ := ModelCore.step_of_neg1 m hsel
    refine ⟨?_, ?_, ?_⟩
    · intro hf
      rw [hres] at hf
      exact ObserveResult.noConfusion hf
    · intro hf
      rw [hres] at hf
      exact ObserveResult.noConfusion hf
    · intro hok
      constructor
      · intro hf
        rw [hres] at hf
        exact ObserveResult.noConfusion hf
      · rintro ⟨j, hj, hj0⟩
        rw [hwave] at hj hj0
        exact absurd hj0 (hok j hj)
  · obtain ⟨i, hi, hieq, hi1, hi0⟩ := hsel
    have hm := ModelCore.step_main m hwf hcinv hW hH i hieq hi hi1 hi0
    rcases hm.1 with hres | hres
    · obtain ⟨_, hcounts⟩ := hm.2.1 hres
      refine ⟨?_, ?_, ?_⟩
      · intro hf
        rw [hres] at hf
        exact ObserveResult.noConfusion hf
      · intro hf
        rw [hres] at hf
        exact ObserveResult.noConfusion hf
      · intro hok
        constructor
        · intro hf
          rw [hres] at hf
          exact ObserveResult.noConfusion hf
        · rintro ⟨j, hj, hj0⟩
          rw [hstat.1] at hj
          exact absurd hj0 (hcounts j hj (hok j hj))
    · obtain ⟨j, hj, hj0⟩ := hm.2.2 hres
      refine ⟨?_, ?_, ?_⟩
      · intro _
        exact ⟨j, by rw [hstat.1]; exact hj, hj0⟩
      · intro _
        rw [modelGetState_contra]
        exact ⟨j, by rw [hstat.1]; exact hj, hj0⟩
      · intro _
        exact ⟨fun _ => ⟨j, by rw [hstat.1]; exact hj, hj0⟩, fun _ => hres⟩
  · obtain ⟨hneg2, j, hj, hj0⟩ := hsel
    obtain ⟨hres, hwave, _⟩ := ModelCore.step_of_neg2 m hneg2
    refine ⟨?_, ?_, ?_⟩
    · intro _
      refine ⟨j, ?_, ?_⟩
      · rw [hwave]
        exact hj
      · rw [hwave]
        exact hj0
    · intro _
      rw [modelGetState_contra, hwave]
      exact ⟨j, hj, hj0⟩
    · intro hok
      exact absurd hj0 (hok j hj)

/-- C2 witness: the failure implications and the conditional iff hold at the first
step of the concrete 2×1 tiled model `m7` (its hypotheses hold by evaluation). -/
theorem C2_failure_iff_witness :
    CoreWF m7.core ∧ WaveCountInv m7.core.wave ∧
    ((m7.core.step.1 = ObserveResult.failure →
      ∃ j < m7.core.step.2.wave.size, m7.core.step.2.wave.memo.patternCount j = 0) ∧
     (m7.core.step.1 = ObserveResult.failure →
      (modelGetState m7.core.step.2 2).hasContradiction = true) ∧
     ((∀ i < m7.core.wave.size, m7.core.wave.memo.patternCount i ≠ 0) →
      (m7.core.step.1 = ObserveResult.failure ↔
        ∃ j < m7.core.step.2.wave.size, m7.core.step.2.wave.memo.patternCount j = 0))) :=
  ⟨by unfold CoreWF; decide, by unfold WaveCountInv; decide,
   C2_failure_iff m7.core 2 (by unfold CoreWF; decide) (by unfold WaveCountInv; decide)
     (by decide) (by decide)⟩

/-- C2 counterexample: the claimed iff fails on a reachable entry state that is
already contradicted (the app's step button calls `step()` after a failure with no
guard, and `applyGroundConstraint` ignores `propagate`'s result): on the scanline
core `mS3` — cell 0 uncollapsed, cell 1 emptied by public `remove` calls — `step()`
returns 'continue' while cell 1 still has zero remaining patterns. -/
theorem C2_continue_with_contradiction_counterexample :
    mS3.step.1 = ObserveResult.cont ∧
    ∃ j < mS3.step.2.wave.size, mS3.step.2.wave.memo.patternCount j = 0 := by
  rw [step_of_stepFuel mS3 8 (by decide)]
  exact ⟨by decide, 1, by decide, by decide⟩

/-- C3: every `step()` returns one of 'continue', 'success', 'failure'; the
heuristic dispatch keeps `-1` only from a scan that skipped all (collapsed) cells,
otherwise returns an in-range uncollapsed cell, or `-2` having met a zero-count
cell; when every cell is collapsed every heuristic returns `-1` and the step
returns 'success'; `-2` makes the step return 'failure'; and the entropy and MRV
heuristics return `-2` whenever any cell has zero remaining patterns (the scanline
heuristic only reports `-2` when the first uncollapsed cell at or after the cursor
is the contradiction). -/
theorem C3_step_totality (m : ModelCore) :
    (m.step.1 = ObserveResult.cont ∨ m.step.1 = ObserveResult.success ∨
      m.step.1 = ObserveResult.failure) ∧
    (m.selectCell.1 = -1 ∨
      (∃ i < m.wave.size, m.selectCell.1 = (i : ℤ) ∧
        m.wave.memo.patternCount i ≠ 1 ∧ m.wave.memo.patternCount i ≠ 0) ∨
      (m.selectCell.1 = -2 ∧ ∃ i < m.wave.size, m.wave.memo.patternCount i = 0)) ∧
    ((∀ i < m.wave.size, m.wave.memo.patternCount i = 1) →
      m.selectCell.1 = -1 ∧ m.step.1 = ObserveResult.success) ∧
    (m.selectCell.1 = -2 → m.step.1 = ObserveResult.failure) ∧
    (m.heuristic ≠ Heuristic.scanline →
      (∃ i < m.wave.size, m.wave.memo.patternCount i = 0) → m.selectCell.1 = -2) := by
  refine ⟨?_, ModelCore.selectCell_result m, ?_, ?_, ?_⟩
  · cases hq : m.step.1 with
    | cont => exact Or.inl rfl
    | success => exact Or.inr (Or.inl rfl)
    | failure => exact Or.inr (Or.inr rfl)
  · intro h
    have h1 := ModelCore.selectCell_allCollapsed m h
    exact ⟨h1, (ModelCore.step_of_neg1 m h1).1⟩
  · intro h
    exact (ModelCore.step_of_neg2 m h).1
  · exact ModelCore.selectCell_contra m

/-- C3 witness: on the concrete contradicted state `mE3` the entropy heuristic
reports `-2` and the step fails. -/
theorem C3_step_totality_witness :
    mE3.selectCell.1 = -2 ∧ mE3.step.1 = ObserveResult.failure := by
  have h := C3_step_totality mE3
  have h2 := h.2.2.2.2 (by decide) (by decide)
  exact ⟨h2, h.2.2.2.1 h2⟩

/-- C3 counterexample: the scanline heuristic does not return `-2` on every
contradiction: on `mS3` cell 1 has zero remaining patterns, yet the scan returns
cell 0 (the first uncollapsed cell at the cursor). -/
theorem C3_scanline_counterexample :
    mS3.heuristic = Heuristic.scanline ∧
    (∃ i < mS3.wave.size, mS3.wave.memo.patternCount i = 0) ∧
    mS3.selectCell.1 ≠ -2 := by decide

/-- C4: the PRNG's output stream equals the wrapped-state mulberry32 reference
stream started at the seed's low 32 bits (so equal seeds give equal sequences, in
the exact-integer regime of JS numbers), every output lies in `[0, 1)`,
`nextInt(max) = floor(next()·max)`, and from seed 0 the first three outputs are the
mulberry32 reference values `1144304738/2^32`, `1416247/2^32`, `958946056/2^32`.
The state itself, however, is advanced without the claimed `mod 2^32` wrap. -/
theorem C4_mulberry32 :
    (∀ seed n, Random.nthOutput (Random.create seed) n = mulberryRefNth (seed % M32) n) ∧
    (∀ r : Random, 0 ≤ r.next.1 ∧ r.next.1 < 1) ∧
    (∀ (r : Random) (q : ℚ), (r.nextInt q).1 = ⌊r.next.1 * q⌋) ∧
    Random.nthOutput (Random.create 0) 0 = 1144304738 / 2 ^ 32 ∧
    Random.nthOutput (Random.create 0) 1 = 1416247 / 2 ^ 32 ∧
    Random.nthOutput (Random.create 0) 2 = 958946056 / 2 ^ 32 := by
  refine ⟨?_, Random.next_bounds, Random.nextInt_floor, by decide, by decide, by decide⟩
  intro seed n
  have h := Random.nthOutput_eq_ref n (seed % M32)
  have h2 : seed % M32 % M32 = seed % M32 :=
    Nat.mod_eq_of_lt (Nat.mod_lt _ (by norm_num [M32]))
  rw [h2] at h
  exact h

/-- C4 counterexample: the state is not advanced modulo 2^32: after three `next()`
calls from seed 0 the stored state is `3 · 0x6d2b79f5 ≥ 2^32`, while the claimed
wrapped state would be its 32-bit residue. -/
theorem C4_state_wrap_counterexample :
    (Random.create 0).next.2.next.2.next.2.state = 3 * 0x6d2b79f5 ∧
    M32 ≤ (Random.create 0).next.2.next.2.next.2.state := by decide

/-- C5: when the noise scale is actually below every nonzero entropy gap between
uncollapsed cells (the spec assumes the built-in `min |plogp|/2` always is, which
is false), `getMinEntropyCell` returns an uncollapsed cell of minimal entropy,
for every rng state; the hypotheses also require no contradiction and at least one
uncollapsed cell. -/
theorem C5_entropy_minimality (w : Wave) (s : ℚ) (rng : Random)
    (hs : w.minAbsHalfPlogp = some s) (hs0 : 0 ≤ s)
    (hgap : ∀ i, i < w.size → ∀ j, j < w.size → w.memo.patternCount i ≠ 1 →
      w.memo.patternCount j ≠ 1 →
      w.memo.entropy i = w.memo.entropy j ∨ s ≤ |w.memo.entropy i - w.memo.entropy j|)
    (hnc : ∀ i < w.size, w.memo.patternCount i ≠ 0)
    (hex : ∃ i < w.size, w.memo.patternCount i ≠ 1) :
    ∃ b < w.size, (w.getMinEntropyCell rng).1 = (b : ℤ) ∧
      w.memo.patternCount b ≠ 1 ∧
      ∀ j < w.size, w.memo.patternCount j ≠ 1 →
        w.memo.entropy b ≤ w.memo.entropy j := by
  have h := gmecLoop_min_start w s hs hs0
    (fun i j hi hj => hgap i hi j hj) (List.range w.size) rng
    (fun i hi => List.mem_range.1 hi) (fun i hi => hnc i (List.mem_range.1 hi))
  unfold Wave.getMinEntropyCell
  rcases h with h | h
  · obtain ⟨i, hi, hi1⟩ := hex
    exact absurd (h.2 i (List.mem_range.2 hi)) hi1
  · obtain ⟨b, hb1, hb2, hb3, _, hb5⟩ := h
    exact ⟨b, hb2, hb1, hb3, fun j hj hj1 => hb5 j (List.mem_range.2 hj) hj1⟩

/-- C5 witness: on the fresh 1-cell wave `wEq` (noise scale `693/4000`, no gaps to
violate), the scan returns a minimal-entropy uncollapsed cell. -/
theorem C5_entropy_minimality_witness :
    ∃ b < wEq.size, (wEq.getMinEntropyCell (Random.create 0)).1 = (b : ℤ) ∧
      wEq.memo.patternCount b ≠ 1 ∧
      ∀ j < wEq.size, wEq.memo.patternCount j ≠ 1 →
        wEq.memo.entropy b ≤ wEq.memo.entropy j :=
  C5_entropy_minimality wEq (693 / 4000) (Random.create 0) (by decide) (by decide)
    (by decide) (by decide) (by decide)

/-- C5 counterexample: with the built-in noise scale, a strictly-lower-entropy cell
loses: on `w5` both cells are uncollapsed, cell 0 has strictly smaller entropy than
cell 1, yet with seed 0 the scan returns cell 1 — the noise magnitude
`min |plogp|/2 ≈ 0.115` exceeds the entropy gap `≈ 0.0173`. -/
theorem C5_noise_counterexample :
    (w5.getMinEntropyCell (Random.create 0)).1 = 1 ∧
    w5.memo.patternCount 0 ≠ 1 ∧ w5.memo.patternCount 0 ≠ 0 ∧
    w5.memo.patternCount 1 ≠ 1 ∧ w5.memo.patternCount 1 ≠ 0 ∧
    w5.memo.entropy 0 < w5.memo.entropy 1 := by decide

/-- C6: with the ground option enabled, after construction and after every
`clear()`, every bottom-row cell (y = H−1) has every pattern except the last
(index T−1) removed and every cell of the other rows has the last pattern removed;
the removals are pushed and the propagator drained once inside
`applyGroundConstraint`, and the drain only shrinks masks further, so the bottom
row holds only the ground pattern and the upper rows never hold it. -/
theorem C6_ground_constraint (pixels : List ℕ) (iw ihh : ℕ) (o : OverlappingOptions)
    (lg : ℚ → ℚ) (hg : o.ground = true) (x : ℕ) (hx : x < o.width) :
    (∀ t, t < (OverlappingModel.create pixels iw ihh o lg).patternCount - 1 →
      (OverlappingModel.create pixels iw ihh o lg).core.wave.get
        (x + (o.height - 1) * o.width) t = false) ∧
    (∀ y, y < o.height - 1 →
      (OverlappingModel.create pixels iw ihh o lg).core.wave.get (x + y * o.width)
        ((OverlappingModel.create pixels iw ihh o lg).patternCount - 1) = false) ∧
    (∀ t, t < (OverlappingModel.create pixels iw ihh o lg).patternCount - 1 →
      (OverlappingModel.create pixels iw ihh o lg).clear.core.wave.get
        (x + (o.height - 1) * o.width) t = false) ∧
    (∀ y, y < o.height - 1 →
      (OverlappingModel.create pixels iw ihh o lg).clear.core.wave.get (x + y * o.width)
        ((OverlappingModel.create pixels iw ihh o lg).patternCount - 1) = false) :=
  ⟨(ground_create_cleared pixels iw ihh o lg hg x hx).1,
   (ground_create_cleared pixels iw ihh o lg hg x hx).2,
   (ground_clear_cleared pixels iw ihh o lg hg x hx).1,
   (ground_clear_cleared pixels iw ihh o lg hg x hx).2⟩

/-- C6 witness: the ground-constraint bits at column 0 of the concrete ground
model `m6` (3×2 grid, two patterns). -/
theorem C6_ground_constraint_witness :
    (∀ t, t < (OverlappingModel.create [7, 7, 9, 9] 2 2
        ⟨3, 2, false, Heuristic.entropy, 5, 2, 1, true, true⟩ lgDemo).patternCount - 1 →
      (OverlappingModel.create [7, 7, 9, 9] 2 2
        ⟨3, 2, false, Heuristic.entropy, 5, 2, 1, true, true⟩ lgDemo).core.wave.get
        (0 + (2 - 1) * 3) t = false) ∧
    (∀ y, y < 2 - 1 →
      (OverlappingModel.create [7, 7, 9, 9] 2 2
        ⟨3, 2, false, Heuristic.entropy, 5, 2, 1, true, true⟩ lgDemo).core.wave.get
        (0 + y * 3)
        ((OverlappingModel.create [7, 7, 9, 9] 2 2
          ⟨3, 2, false, Heuristic.entropy, 5, 2, 1, true, true⟩ lgDemo).patternCount - 1)
        = false) ∧
    (∀ t, t < (OverlappingModel.create [7, 7, 9, 9] 2 2
        ⟨3, 2, false, Heuristic.entropy, 5, 2, 1, true, true⟩ lgDemo).patternCount - 1 →
      (OverlappingModel.create [7, 7, 9, 9] 2 2
        ⟨3, 2, false, Heuristic.entropy, 5, 2, 1, true, true⟩ lgDemo).clear.core.wave.get
        (0 + (2 - 1) * 3) t = false) ∧
    (∀ y, y < 2 - 1 →
      (OverlappingModel.create [7, 7, 9, 9] 2 2
        ⟨3, 2, false, Heuristic.entropy, 5, 2, 1, true, true⟩ lgDemo).clear.core.wave.get
        (0 + y * 3)
        ((OverlappingModel.create [7, 7, 9, 9] 2 2
          ⟨3, 2, false, Heuristic.entropy, 5, 2, 1, true, true⟩ lgDemo).patternCount - 1)
        = false) :=
  C6_ground_constraint [7, 7, 9, 9] 2 2
    ⟨3, 2, false, Heuristic.entropy, 5, 2, 1, true, true⟩ lgDemo rfl 0 (by decide)

/-- C7: a 'continue' return of `step()` implies the propagation stack was fully
drained (propagation ran to fixpoint), and a 'success' return touches neither the
wave nor the propagator; a 'failure' return, however, may leave pushed work on the
stack (the source aborts propagation mid-drain on a contradiction). -/
theorem C7_stack_drained (m : ModelCore) :
    (m.step.1 = ObserveResult.cont → m.step.2.propagator.stack = []) ∧
    (m.step.1 = ObserveResult.success →
      m.step.2.propagator.stack = m.propagator.stack ∧ m.step.2.wave = m.wave) := by
  rcases hsel : m.selectCell with ⟨c, rng1, cursor1⟩
  unfold ModelCore.step
  rw [hsel]
  dsimp only
  split
  · exact ⟨fun h => ObserveResult.noConfusion h, fun _ => ⟨rfl, rfl⟩⟩
  · split
    · exact ⟨fun h => ObserveResult.noConfusion h, fun h => ObserveResult.noConfusion h⟩
    · rcases hcol : m.wave.collapse c.toNat rng1 with ⟨sp, wave1, rng2⟩
      dsimp only
      split
      · exact ⟨fun h => ObserveResult.noConfusion h, fun h => ObserveResult.noConfusion h⟩
      · have hst := Propagator.propagate_true_stack
          (pushRemoved c.toNat sp (m.wave.getPossiblePatterns c.toNat) m.propagator) wave1
        rcases hprop : (pushRemoved c.toNat sp (m.wave.getPossiblePatterns c.toNat)
            m.propagator).propagate wave1 with ⟨ok, prop2, wave2⟩
        rw [hprop] at hst
        dsimp only at hst ⊢
        cases ok with
        | true =>
          rw [if_pos rfl]
          exact ⟨fun _ => hst rfl, fun h => ObserveResult.noConfusion h⟩
        | false =>
          rw [if_neg (by decide)]
          exact ⟨fun h => ObserveResult.noConfusion h, fun h => ObserveResult.noConfusion h⟩

/-- C7 witness: the first step of the concrete model `m7` continues and its stack
is empty at return. -/
theorem C7_stack_drained_witness : m7.core.step.2.propagator.stack = [] :=
  (C7_stack_drained m7.core).1
    (by rw [step_of_stepFuel m7.core 8 (by decide)]; decide)

/-- C7 counterexample: the second step of `m7` returns 'failure' with work still on
the propagation stack — callers do observe partial propagation state on failure. -/
theorem C7_failure_stack_counterexample :
    (m7.core.step).2.step.1 = ObserveResult.failure ∧
    (m7.core.step).2.step.2.propagator.stack ≠ [] := by
  rw [step_of_stepFuel m7.core 8 (by decide)]
  rw [step_of_stepFuel ((stepFuel m7.core 8).get (by decide)).2 8 (by decide)]
  exact ⟨by decide, by decide⟩

/-- C8: at every reachable Wave state, a cell with zero remaining patterns (and a
positive pattern count) has memoized entropy 0 — the `sum ≤ 0` branch of `remove`.
The claimed `remaining ≤ 1 ⇒ entropy = 0` is refuted at `remaining = 1`. -/
theorem C8_entropy_zero {width height : ℕ} {ws : List ℚ} {lg : ℚ → ℚ} {w : Wave}
    (hw : WaveReachable width height ws lg w) (i : ℕ) (hi : i < w.size)
    (hT : 0 < w.patternCount) (h0 : w.memo.patternCount i = 0) :
    w.memo.entropy i = 0 := by
  have inv := waveReachable_inv hw i hi
  have hnm : ¬ maskFull w i := by
    intro hm
    have hcount := inv.1
    have hfull : recomputeCount w i = w.patternCount := by
      unfold recomputeCount
      rw [Finset.filter_true_of_mem, Finset.card_range]
      intro t ht
      exact hm t (Finset.mem_range.1 ht)
    rw [hcount, hfull] at h0
    omega
  have hsum : w.memo.sum i = 0 := by
    rw [inv.2.1]
    unfold recomputeSum
    apply Finset.sum_eq_zero
    intro t ht
    have hc : recomputeCount w i = 0 := by
      rw [← inv.1]
      exact h0
    unfold recomputeCount at hc
    rw [Finset.card_eq_zero] at hc
    have hnot : t ∉ (Finset.range w.patternCount).filter fun t => w.get i t = true := by
      rw [hc]
      exact Finset.not_mem_empty t
    rw [Finset.mem_filter] at hnot
    push_neg at hnot
    rw [if_neg (hnot ht)]
  have hent := inv.2.2.2.2.2 hnm
  rw [hent, if_neg (by rw [hsum]; exact lt_irrefl 0)]

/-- C8 witness: the reachable wave `w8z` (both patterns of its one cell removed)
has entropy 0 at the emptied cell. -/
theorem C8_entropy_zero_witness : w8z.memo.entropy 0 = 0 :=
  C8_entropy_zero
    (WaveReachable.remove w8a 0 1
      (WaveReachable.remove (Wave.create 1 1 [1, 1] lgDemo) 0 0 WaveReachable.create
        (by decide) (by decide))
      (by decide) (by decide))
    0 (by decide) (by decide) (by decide)

/-- C8 counterexample: a reachable cell with `remaining = 1` and nonzero memoized
entropy: after removing pattern 0 from the fresh `[1,1]` wave, the cell holds
`entropy = log 1 − plogp₁/1 = 693/2000 ≠ 0`. -/
theorem C8_remaining_one_counterexample :
    WaveReachable 1 1 [1, 1] lgDemo w8a ∧
    w8a.memo.patternCount 0 = 1 ∧ w8a.memo.entropy 0 ≠ 0 :=
  ⟨WaveReachable.remove (Wave.create 1 1 [1, 1] lgDemo) 0 0 WaveReachable.create
    (by decide) (by decide), by decide, by decide⟩

/-- C9: the spec requires construction to fail synchronously on invalid
configurations, but the constructors perform no validation: the overlapping model
`m9` built with the forbidden `patternSize = 1` constructs and answers `getState()`,
and a simple tiled model with all-zero weights constructs as well. -/
theorem C9_no_validation :
    m9.N = 1 ∧ 0 < m9.patternCount ∧ m9.getState.totalCells = 4 ∧
    (SimpleTiledModel.create [[], []] 1 [0, 0] pd7
      ⟨2, 1, false, Heuristic.entropy, 0, false⟩ lgDemo).patternCount = 2 := by decide

/-- C10: possibility masks shrink monotonically between clears: `remove`,
`collapse`, `propagate` and the whole `step()` never set a mask bit, so a removed
pattern stays removed and `remaining` is non-increasing until the next `clear()`. -/
theorem C10_monotone_masks :
    (∀ (w : Wave) (i t j t' : ℕ),
      (w.remove i t).2.get j t' = true → w.get j t' = true) ∧
    (∀ (w : Wave) (i : ℕ) (rng : Random) (j t' : ℕ),
      (w.collapse i rng).2.1.get j t' = true → w.get j t' = true) ∧
    (∀ (p : Propagator) (w : Wave) (j t' : ℕ),
      (p.propagate w).2.2.get j t' = true → w.get j t' = true) ∧
    (∀ (m : ModelCore) (j t' : ℕ),
      m.step.2.wave.get j t' = true → m.wave.get j t' = true) :=
  ⟨fun _ i t j t' => Wave.get_remove_mono i t j t',
   fun w i rng j t' => Wave.collapse_mono w i rng j t',
   fun p w j t' => Propagator.propagate_mono p w j t',
   fun m j t' => ModelCore.step_mono m j t'⟩

/-- C10 witness: after removing pattern 1 from the fresh `[1,1]` wave, pattern 0 is
still possible, hence was possible before the removal. -/
theorem C10_monotone_masks_witness : wEq.get 0 0 = true :=
  C10_monotone_masks.1 wEq 0 1 0 0 (by decide)

end WFC
